import Mathlib

/-!
Verification of parts of avalanchego: the benchlist, the proposervm tree, the warp
validators, the IDs, the sliding window and the syntactic verification of
`AddValidatorTx`.

A shallow embedding of

* `snow/networking/benchlist/benchlist.go` (the benchlist and its queue, with the
  `container/heap` functions it calls),
* `vms/proposervm/tree/tree.go` (the tree of processing blocks),
* `vms/platformvm/warp/validator.go` (`GetCanonicalValidatorSet`, `FilterValidators`,
  `SumWeight`),
* `ids/id.go` (`ID.Bit`, `ID.UnmarshalJSON`),
* `utils/window/window.go` (the sliding window),
* `vms/platformvm/txs/add_validator_tx.go` (`AddValidatorTx.SyntacticVerify`),

followed by the theorems about them.

Conventions of the embedding.

* `ids.NodeID` and `ids.ID` are opaque identifiers with decidable equality: `Nat`;
  in the section on `ids/id.go` an ID is the array of its 32 bytes.
* `time.Time` is the number of nanoseconds since the zero time (`IsZero` is `= 0`),
  `time.Duration` a number of nanoseconds; both are `Int`, without overflow, except
  for `Time.Sub` in the window, whose result saturates as in Go.
* A `float64` is modelled exactly, for the non-negative finite values: conversions
  and products round to nearest, ties to even.
* Locks, the logger, the metrics and the timer are not part of the state: every
  operation runs atomically, and the timer only decides when `update` is called.
* The calls made to `benchable`, and the calls made to blocks by the tree, are
  recorded, oldest first.
* The clock readings, the draw of `rand.Float64` and the order in which
  `maps.Values` returns the values are arguments of the operations that use them.
* Loops are recursions on a bound of the number of their iterations; the theorems
  show that the bound used is enough. A loop over a list, or one that removes an
  element of a list at every iteration, is a recursion on that list.
* A byte string is the list of its bytes, each a `Nat`.
* An error is a value of the error type of its package, `none` is the nil error; a
  wrapped error is the constructor that holds what it wraps.
* Functions of the repository that the files above call and that are not among the
  sources at hand are arguments of the functions that call them.
-/

set_option autoImplicit false
set_option maxRecDepth 20000

/-! ## Definitions -/

/-! ### float64 arithmetic (non-negative finite values) -/

namespace F64

/-- Number of bits of `n`: `0` for `0`, otherwise `⌊log₂ n⌋ + 1`. The first argument
bounds the number of halvings; `n` itself is always enough. -/
def bitLenAux : Nat → Nat → Nat
  | 0, _ => 0
  | fuel + 1, n => if n = 0 then 0 else bitLenAux fuel (n / 2) + 1

/-- Number of bits of `n`. -/
def bitLen (n : Nat) : Nat := bitLenAux n n

/-- `X / 2^s` rounded to the nearest integer, ties to the even one. -/
def roundHalfEven (X s : Nat) : Nat :=
  if 2 * (X % 2 ^ s) < 2 ^ s then X / 2 ^ s
  else if 2 ^ s < 2 * (X % 2 ^ s) then X / 2 ^ s + 1
  else if (X / 2 ^ s) % 2 = 0 then X / 2 ^ s
  else X / 2 ^ s + 1

end F64

/-- A non-negative finite IEEE-754 binary64 value: `m * 2^e * 2^(-1074)`.
Every such float64 is a multiple of the least subnormal `2^(-1074)`; a value is
representable when some such pair for it has `m < 2^53`. -/
structure F64 where
  m : Nat
  e : Nat
deriving DecidableEq

namespace F64

/-- The value in units of `2^(-1074)`. -/
def val (x : F64) : Nat := x.m * 2 ^ x.e

/-- The pair stands for a float64: 53 bits of mantissa. -/
def Representable (x : F64) : Prop := x.m < 2 ^ 53

instance (x : F64) : Decidable (Representable x) := by
  unfold Representable; infer_instance

/-- Float comparison `x <= y`. -/
def le (x y : F64) : Bool := decide (x.m * 2 ^ (x.e - y.e) ≤ y.m * 2 ^ (y.e - x.e))

/-- Float comparison `x < y`. -/
def lt (x y : F64) : Bool := decide (x.m * 2 ^ (x.e - y.e) < y.m * 2 ^ (y.e - x.e))

/-- Round the exact value `X * 2^E / 2^b` (in units of `2^(-1074)`) to the nearest
float64, ties to even: 53 bits of mantissa, exponent not below the subnormal one. -/
def round (X E b : Nat) : F64 :=
  let e := (bitLen X + E) - (b + 53)
  ⟨roundHalfEven (X * 2 ^ (E - (b + e))) ((b + e) - E), e⟩

/-- The conversion `float64(n)` of an unsigned (or non-negative signed) integer. -/
def ofNat (n : Nat) : F64 := round n 1074 0

/-- The float64 product `x * y`. -/
def mul (x y : F64) : F64 := round (x.m * y.m) (x.e + y.e) 1074

/-- The conversion of a float64 to an integer: truncation. -/
def toNat (x : F64) : Nat := x.m * 2 ^ (x.e - 1074) / 2 ^ (1074 - x.e)

/-- The float64 `1`. -/
def one : F64 := ⟨1, 1074⟩

/-- The float64 `0.5`. -/
def half : F64 := ⟨1, 1073⟩

/-- The value `V / 2^b` (in units of `2^(-1074)`) rounded to float64: the result, in
units of `2^(-1074)`. -/
def rndQ (V b : Nat) : Nat :=
  roundHalfEven V (b + (bitLen V - (b + 53))) * 2 ^ (bitLen V - (b + 53))

end F64

/-! ### snow/networking/benchlist -/

namespace Benchlist

/-- Identifier of a node (`ids.NodeID`). -/
abbrev NodeID := Nat

/-- Go `int`: wrap-around of a 64-bit signed integer. -/
def wrapInt64 (x : Int) : Int := (x + 2 ^ 63) % 2 ^ 64 - 2 ^ 63

/-- Modelled from the spec: `safemath.Add64` (utils/math is not under src/), the
checked addition of two `uint64`: `none` stands for the overflow error. -/
def Add64 (a b : Nat) : Option Nat := if a + b < 2 ^ 64 then some (a + b) else none

/-- Modelled from the spec: the validator-state provider `validators.Set`
(snow/validators/set.go is not under src/): each validator with its weight. -/
structure Validators where
  weights : List (NodeID × Nat)

namespace Validators

/-- Modelled from the spec: `GetWeight(NodeID) -> uint64`, the weight of a
validator, `0` for a node that is not a validator. -/
def GetWeight (v : Validators) (nodeID : NodeID) : Nat :=
  match v.weights.lookup nodeID with
  | some w => w
  | none => 0

/-- Modelled from the spec: `SubsetWeight`, the sum of the weights of the nodes of
a set, accumulated in a `uint64`. -/
def SubsetWeight (v : Validators) (subset : List NodeID) : Nat :=
  (subset.map v.GetWeight).sum % 2 ^ 64

/-- Modelled from the spec: `TotalWeight`, the sum of the weights of all
validators (the set keeps it below `2^64`). -/
def Weight (v : Validators) : Nat := (v.weights.map Prod.snd).sum

end Validators

/-- Data about a validator who is benched. -/
structure benchData where
  benchedUntil : Int
  nodeID : NodeID
  index : Nat
deriving DecidableEq

instance : Inhabited benchData := ⟨⟨0, 0, 0⟩⟩

/-- Each element is a benched validator. -/
abbrev benchedQueue := List benchData

namespace benchedQueue

/-- Element `i` of the queue. -/
def item (bq : benchedQueue) (i : Nat) : benchData := bq.getD i default

/-- Go `Len`. -/
def Len (bq : benchedQueue) : Nat := bq.length

/-- Go `Less`: `bq[i].benchedUntil.Before(bq[j].benchedUntil)`. -/
def Less (bq : benchedQueue) (i j : Nat) : Bool :=
  decide ((bq.item i).benchedUntil < (bq.item j).benchedUntil)

/-- Go `Swap`: exchange the two elements and record their new positions. -/
def Swap (bq : benchedQueue) (i j : Nat) : benchedQueue :=
  (bq.set i { bq.item j with index := i }).set j { bq.item i with index := j }

/-- Go `Push`: append the item, recording its position. -/
def Push (bq : benchedQueue) (x : benchData) : benchedQueue :=
  bq ++ [{ x with index := bq.length }]

/-- Go `Pop`: remove the last item. -/
def Pop (bq : benchedQueue) : benchedQueue := bq.dropLast

end benchedQueue

end Benchlist

namespace Benchlist

namespace heap

open benchedQueue

/-- Loop of `heap.up`; the first argument bounds the number of iterations (`j`
strictly decreases, so `j` iterations are enough). -/
def upAux : Nat → benchedQueue → Nat → benchedQueue
  | 0, h, _ => h
  | fuel + 1, h, j =>
    let i := (j - 1) / 2
    if i = j ∨ Less h j i = false then h
    else upAux fuel (Swap h i j) i

/-- Go `heap.up(h, j)`. -/
def up (h : benchedQueue) (j : Nat) : benchedQueue := upAux j h j

/-- Loop of `heap.down`; returns the queue and the final `i`. The first argument
bounds the number of iterations (`i` strictly increases and stays below `n`). -/
def downAux : Nat → benchedQueue → Nat → Nat → benchedQueue × Nat
  | 0, h, i, _ => (h, i)
  | fuel + 1, h, i, n =>
    let j1 := 2 * i + 1
    if n ≤ j1 then (h, i)
    else
      let j := if j1 + 1 < n ∧ Less h (j1 + 1) j1 = true then j1 + 1 else j1
      if Less h j i = false then (h, i)
      else downAux fuel (Swap h i j) j n

/-- Go `heap.down(h, i0, n)`: the queue, and whether the element moved. -/
def down (h : benchedQueue) (i0 n : Nat) : benchedQueue × Bool :=
  let r := downAux n h i0 n
  (r.1, decide (i0 < r.2))

/-- Go `heap.Push(h, x)`. -/
def Push (h : benchedQueue) (x : benchData) : benchedQueue :=
  up (benchedQueue.Push h x) (Len (benchedQueue.Push h x) - 1)

/-- Go `heap.Remove(h, i)`: the queue without the element at index `i`. -/
def Remove (h : benchedQueue) (i : Nat) : benchedQueue :=
  let n := Len h - 1
  if n ≠ i then
    let h1 := Swap h i n
    let r := down h1 i n
    let h2 := if r.2 = false then up r.1 i else r.1
    Pop h2
  else Pop h

end heap

end Benchlist

namespace Benchlist

/-- Consecutive failure information of a validator. -/
structure failureStreak where
  firstFailure : Int
  consecutive : Int
deriving DecidableEq

/-- A call made to `benchable`. -/
inductive Notification where
  | Benched (nodeID : NodeID)
  | Unbenched (nodeID : NodeID)
deriving DecidableEq

/-- The Go struct `benchlist`. -/
structure benchlist where
  /-- calls made to `benchable`, oldest first -/
  notifications : List Notification
  /-- validator set of the network -/
  vdrs : Validators
  /-- validator ID to consecutive failure information; `none`: no entry -/
  failureStreaks : NodeID → Option failureStreak
  /-- IDs of validators that are currently benched -/
  benchlistSet : List NodeID
  /-- min heap containing benched validators and their end times -/
  benchedQueue : benchedQueue
  threshold : Int
  minimumFailingDuration : Int
  duration : Int
  maxPortion : F64

/-- Go `NewBenchlist`: `none` stands for the error
"max portion of benched stake must be in [0,1)". -/
def NewBenchlist (validators : Validators) (threshold : Int)
    (minimumFailingDuration duration : Int) (maxPortion : F64) : Option benchlist :=
  if F64.le F64.one maxPortion then none
  else some {
    notifications := []
    vdrs := validators
    failureStreaks := fun _ => none
    benchlistSet := []
    benchedQueue := []
    threshold := threshold
    minimumFailingDuration := minimumFailingDuration
    duration := duration
    maxPortion := maxPortion }

namespace benchlist

/-- Go `set.Add`. -/
def setAdd (s : List NodeID) (nodeID : NodeID) : List NodeID :=
  if nodeID ∈ s then s else s ++ [nodeID]

/-- Go `set.Remove`. -/
def setRemove (s : List NodeID) (nodeID : NodeID) : List NodeID :=
  s.filter (fun x => decide (x ≠ nodeID))

/-- Go `delete(b.failureStreaks, nodeID)`. -/
def deleteStreak (m : NodeID → Option failureStreak) (nodeID : NodeID) :
    NodeID → Option failureStreak :=
  fun x => if x = nodeID then none else m x

/-- Go `b.failureStreaks[nodeID] = fs`. -/
def storeStreak (m : NodeID → Option failureStreak) (nodeID : NodeID) (fs : failureStreak) :
    NodeID → Option failureStreak :=
  fun x => if x = nodeID then some fs else m x

/-- Go `b.failureStreaks[nodeID]`: the zero value when there is no entry. -/
def loadStreak (m : NodeID → Option failureStreak) (nodeID : NodeID) : failureStreak :=
  match m nodeID with
  | some fs => fs
  | none => ⟨0, 0⟩

/-- Go `isBenched`. -/
def isBenched (b : benchlist) (nodeID : NodeID) : Bool := decide (nodeID ∈ b.benchlistSet)

/-- Go `IsBenched`. -/
def IsBenched (b : benchlist) (nodeID : NodeID) : Bool := b.isBenched nodeID

/-- Go `remove`: take `node` off the benchlist. -/
def remove (b : benchlist) (node : benchData) : benchlist :=
  { b with
    benchedQueue := heap.Remove b.benchedQueue node.index
    benchlistSet := setRemove b.benchlistSet node.nodeID
    notifications := b.notifications ++ [Notification.Unbenched node.nodeID] }

/-- Go `nextToLeave`: the validator that should leave the bench at time `now`. -/
def nextToLeave (b : benchlist) (now : Int) : Option benchData :=
  if b.benchedQueue.Len = 0 then none
  else
    let next := b.benchedQueue.item 0
    if now < next.benchedUntil then none else some next

/-- Loop of `update`; every iteration removes one element of the queue, so the
length of the queue bounds the number of iterations. -/
def updateAux : Nat → benchlist → Int → benchlist
  | 0, b, _ => b
  | fuel + 1, b, now =>
    match b.nextToLeave now with
    | none => b
    | some next => updateAux fuel (b.remove next) now

/-- Go `update`: remove the benched validators whose time on the bench is over;
`now` is the reading of the clock. -/
def update (b : benchlist) (now : Int) : benchlist :=
  updateAux b.benchedQueue.Len b now

/-- Go `RegisterResponse`. -/
def RegisterResponse (b : benchlist) (nodeID : NodeID) : benchlist :=
  { b with failureStreaks := deleteStreak b.failureStreaks nodeID }

/-- The time `benchedUntil` computed by `bench` from its reading `now` of the
clock and the draw `r` of `rand.Float64()`. The product `float64(diff) * r` has the
sign of `diff` and the magnitude of the product of the magnitudes, and its conversion
to a `time.Duration` truncates toward zero. -/
def benchedUntilOf (duration now : Int) (r : F64) : Int :=
  let minBenchDuration := Int.tdiv duration 2
  let minBenchedUntil := now + minBenchDuration
  let maxBenchedUntil := now + duration
  let diff := maxBenchedUntil - minBenchedUntil
  let magnitude : Int := (F64.toNat (F64.mul r (F64.ofNat diff.natAbs)) : Int)
  minBenchedUntil + (if diff < 0 then -magnitude else magnitude)

/-- Go `bench`; `now` is its reading of the clock, `r` the draw of `rand.Float64()`. -/
def bench (b : benchlist) (nodeID : NodeID) (now : Int) (r : F64) : benchlist :=
  let validatorStake := b.vdrs.GetWeight nodeID
  if validatorStake = 0 then b
  else
    let benchedStake := b.vdrs.SubsetWeight b.benchlistSet
    match Add64 benchedStake validatorStake with
    | none => b
    | some newBenchedStake =>
      let totalStake := b.vdrs.Weight
      let maxBenchedStake := F64.mul (F64.ofNat totalStake) b.maxPortion
      if F64.lt maxBenchedStake (F64.ofNat newBenchedStake) then b
      else
        { b with
          benchlistSet := setAdd b.benchlistSet nodeID
          notifications := b.notifications ++ [Notification.Benched nodeID]
          failureStreaks := deleteStreak b.failureStreaks nodeID
          benchedQueue := heap.Push b.benchedQueue
            { nodeID := nodeID, benchedUntil := benchedUntilOf b.duration now r, index := 0 } }

/-- The failure streak that `RegisterFailure` stores for `nodeID` at time `now`. -/
def nextStreak (b : benchlist) (nodeID : NodeID) (now : Int) : failureStreak :=
  let fs := loadStreak b.failureStreaks nodeID
  let consecutive := wrapInt64 (fs.consecutive + 1)
  if fs.firstFailure = 0 then ⟨now, consecutive⟩ else ⟨fs.firstFailure, consecutive⟩

/-- Go `RegisterFailure`; `now` is its reading of the clock, `benchNow` the reading
made by `bench`, `r` the draw of `rand.Float64()` made by `bench`. -/
def RegisterFailure (b : benchlist) (nodeID : NodeID) (now benchNow : Int) (r : F64) :
    benchlist :=
  if nodeID ∈ b.benchlistSet then b
  else
    let fs := b.nextStreak nodeID now
    let b1 := { b with failureStreaks := storeStreak b.failureStreaks nodeID fs }
    if b.threshold ≤ fs.consecutive ∧ fs.firstFailure + b.minimumFailingDuration < now then
      b1.bench nodeID benchNow r
    else b1

end benchlist

/-- A call on the benchlist, with the clock readings and the random draw it makes. -/
inductive Op where
  | RegisterFailure (nodeID : NodeID) (now benchNow : Int) (r : F64)
  | RegisterResponse (nodeID : NodeID)
  | update (now : Int)

/-- Effect of one call. -/
def step (b : benchlist) : Op → benchlist
  | Op.RegisterFailure nodeID now benchNow r => b.RegisterFailure nodeID now benchNow r
  | Op.RegisterResponse nodeID => b.RegisterResponse nodeID
  | Op.update now => b.update now

/-- Effect of a sequence of calls, the first of the list first. -/
def run (b : benchlist) (ops : List Op) : benchlist := ops.foldl step b

/-- The real-number inequality `x ≤ p * total`, for `p` a float64 (exact arithmetic,
no rounding): both sides multiplied by a power of two. -/
def withinPortionExact (p : F64) (x total : Nat) : Prop :=
  x * 2 ^ (1074 - p.e) ≤ p.m * total * 2 ^ (p.e - 1074)

instance (p : F64) (x total : Nat) : Decidable (withinPortionExact p x total) := by
  unfold withinPortionExact; infer_instance

/-- The comparison made by `bench`: `float64(x) > float64(total) * p` is false. -/
def withinPortionFloat (p : F64) (x total : Nat) : Prop :=
  F64.lt (F64.mul (F64.ofNat total) p) (F64.ofNat x) = false

instance (p : F64) (x total : Nat) : Decidable (withinPortionFloat p x total) := by
  unfold withinPortionFloat; infer_instance

/-- A state with two validators of weights `2^52+2` and `2^52+1`, `maxPortion = 0.5`,
`threshold = 1`, `minimumFailingDuration = 0`, and one recorded failure of node 1
at time 1. -/
def roundingState : benchlist where
  notifications := []
  vdrs := ⟨[(1, 2 ^ 52 + 2), (2, 2 ^ 52 + 1)]⟩
  failureStreaks := fun x => if x = 1 then some ⟨1, 1⟩ else none
  benchlistSet := []
  benchedQueue := []
  threshold := 1
  minimumFailingDuration := 0
  duration := 1000
  maxPortion := F64.half

/-- The float64 nearest to `0.99`: `4458563631096791 * 2^(-52)`. -/
def portion99 : F64 := ⟨4458563631096791, 1022⟩

/-- Four validators: three of weight 10 and one of weight 70. -/
def scenarioValidators : Validators := ⟨[(1, 10), (2, 10), (3, 10), (4, 70)]⟩

/-- The benchlist that `NewBenchlist` builds for `scenarioValidators` with
`threshold = 1`, `minimumFailingDuration = 0`, `duration = 1000`, `maxPortion = 0.99`. -/
def scenarioStart : benchlist where
  notifications := []
  vdrs := scenarioValidators
  failureStreaks := fun _ => none
  benchlistSet := []
  benchedQueue := []
  threshold := 1
  minimumFailingDuration := 0
  duration := 1000
  maxPortion := portion99

end Benchlist

namespace Benchlist

open benchlist

/-- The three tests of `bench` all pass: non-zero weight, no overflow of the new
benched stake, and the new benched stake not above the maximum. -/
def benchOK (b : benchlist) (nodeID : NodeID) : Prop :=
  b.vdrs.GetWeight nodeID ≠ 0 ∧
  b.vdrs.SubsetWeight b.benchlistSet + b.vdrs.GetWeight nodeID < 2 ^ 64 ∧
  withinPortionFloat b.maxPortion
    (b.vdrs.SubsetWeight b.benchlistSet + b.vdrs.GetWeight nodeID) b.vdrs.Weight

instance (b : benchlist) (nodeID : NodeID) : Decidable (benchOK b nodeID) := by
  unfold benchOK; infer_instance

/-- The state in which `bench` leaves the benchlist when it benches the node. -/
def benchAdd (b : benchlist) (nodeID : NodeID) (now : Int) (r : F64) : benchlist :=
  { b with
    benchlistSet := setAdd b.benchlistSet nodeID
    notifications := b.notifications ++ [Notification.Benched nodeID]
    failureStreaks := deleteStreak b.failureStreaks nodeID
    benchedQueue := heap.Push b.benchedQueue
      { nodeID := nodeID, benchedUntil := benchedUntilOf b.duration now r, index := 0 } }

/-- The state in which `RegisterFailure` leaves the benchlist before it calls `bench`. -/
def withStreak (b : benchlist) (nodeID : NodeID) (now : Int) : benchlist :=
  { b with failureStreaks := storeStreak b.failureStreaks nodeID (b.nextStreak nodeID now) }

end Benchlist

namespace Benchlist

namespace benchedQueue

/-- The first `m` positions hold an entry for node `n` with end time `t`. -/
def Holds (bq : benchedQueue) (m : Nat) (n : NodeID) (t : Int) : Prop :=
  ∃ a, a < m ∧ (item bq a).nodeID = n ∧ (item bq a).benchedUntil = t

/-- No node has two entries among the first `m` positions. -/
def IdsInj (bq : benchedQueue) (m : Nat) : Prop :=
  ∀ a b, a < m → b < m → (item bq a).nodeID = (item bq b).nodeID → a = b

/-- Every entry records its own position. -/
def IndexOK (bq : benchedQueue) : Prop :=
  ∀ a, a < bq.length → (item bq a).index = a

/-- Heap order among the first `n` positions: no entry ends before its parent. -/
def HeapUpTo (bq : benchedQueue) (n : Nat) : Prop :=
  ∀ k, 0 < k → k < n → (item bq ((k - 1) / 2)).benchedUntil ≤ (item bq k).benchedUntil

/-- The transposition of the positions `i` and `j`. -/
def swapIdx (i j a : Nat) : Nat := if a = j then i else if a = i then j else a

end benchedQueue

end Benchlist

namespace Benchlist

namespace heap

open benchedQueue

/-- The child of `i` that `down` compares with `i`: the right one when it exists
and ends before the left one, else the left one. -/
def minChild (bq : benchedQueue) (i n : Nat) : Nat :=
  if 2 * i + 1 + 1 < n ∧ Less bq (2 * i + 1 + 1) (2 * i + 1) = true then 2 * i + 1 + 1
  else 2 * i + 1

/-- What `down` needs of the queue: heap order among the first `n` positions except
below position `i`, whose children are not below the parent of `i`. -/
def DownInv (bq : benchedQueue) (i n : Nat) : Prop :=
  (∀ k, 0 < k → k < n → (k - 1) / 2 ≠ i →
    (item bq ((k - 1) / 2)).benchedUntil ≤ (item bq k).benchedUntil) ∧
  (0 < i → ∀ k, 0 < k → k < n → (k - 1) / 2 = i →
    (item bq ((i - 1) / 2)).benchedUntil ≤ (item bq k).benchedUntil)

/-- What `up` needs of the queue: heap order among the first `n` positions except
above position `j`, whose children are not below the parent of `j`. -/
def UpInv (bq : benchedQueue) (j n : Nat) : Prop :=
  (∀ k, 0 < k → k < n → k ≠ j →
    (item bq ((k - 1) / 2)).benchedUntil ≤ (item bq k).benchedUntil) ∧
  (0 < j → ∀ k, 0 < k → k < n → (k - 1) / 2 = j →
    (item bq ((j - 1) / 2)).benchedUntil ≤ (item bq k).benchedUntil)

end heap

end Benchlist

namespace Benchlist

namespace benchedQueue

/-- The queue is a well-formed heap: one entry per node, every entry records its
position, and no entry ends before its parent. -/
structure QueueOK (bq : benchedQueue) : Prop where
  ids : IdsInj bq bq.length
  index : IndexOK bq
  heap : HeapUpTo bq bq.length

end benchedQueue

end Benchlist

namespace Benchlist

open benchlist benchedQueue

/-- The notifications about node `n`, oldest first: `true` for `Benched`, `false`
for `Unbenched`. -/
def notesOf (n : NodeID) (log : List Notification) : List Bool :=
  log.filterMap (fun x =>
    match x with
    | Notification.Benched m => if m = n then some true else none
    | Notification.Unbenched m => if m = n then some false else none)

/-- The list `Benched, Unbenched, Benched, ...` of length `k`. -/
def alternation (k : Nat) : List Bool := (List.range k).map (fun i => decide (i % 2 = 0))

/-- The invariant, on the fields it is about. -/
structure InvF (log : List Notification) (set : List NodeID) (bq : benchedQueue)
    (vdrs : Validators) (p : F64) : Prop where
  queue : QueueOK bq
  nodup : set.Nodup
  members : ∀ n, n ∈ set ↔ ∃ t, Holds bq bq.length n t
  weight : (set.map vdrs.GetWeight).sum < 2 ^ 64
  portion : withinPortionFloat p (vdrs.SubsetWeight set) vdrs.Weight
  notes : ∀ n, notesOf n log = alternation (notesOf n log).length ∧
    (n ∈ set ↔ (notesOf n log).length % 2 = 1)

/-- The invariant of the benchlist: the queue is a well-formed heap with one entry
per benched node, the benched weight is within the maximum, and the notifications
about every node alternate, the last one telling whether the node is benched. -/
def Inv (b : benchlist) : Prop :=
  InvF b.notifications b.benchlistSet b.benchedQueue b.vdrs b.maxPortion

end Benchlist

namespace Benchlist

open benchlist

/-- The benchlist that `NewBenchlist` builds for two validators of weights `2^52+2`
and `2^52+1` with `threshold = 1`, `minimumFailingDuration = 0`, `duration = 1000`
and `maxPortion = 0.5`. -/
def roundingStart : benchlist where
  notifications := []
  vdrs := ⟨[(1, 2 ^ 52 + 2), (2, 2 ^ 52 + 1)]⟩
  failureStreaks := fun _ => none
  benchlistSet := []
  benchedQueue := []
  threshold := 1
  minimumFailingDuration := 0
  duration := 1000
  maxPortion := F64.half

/-- Two failures each of the validators 1, 2 and 3, at times 5 and 6. -/
def scenarioOps : List Op :=
  [Op.RegisterFailure 1 5 5 F64.half, Op.RegisterFailure 2 5 5 F64.half,
   Op.RegisterFailure 3 5 5 F64.half, Op.RegisterFailure 1 6 6 F64.half,
   Op.RegisterFailure 2 6 6 ⟨1, 1072⟩, Op.RegisterFailure 3 6 6 ⟨0, 0⟩]

end Benchlist

/-! ### vms/proposervm/tree -/

namespace Tree

/-- Identifier of a block (`ids.ID`). -/
abbrev ID := Nat

/-- A `snowman.Block`: its `ID()`, its `Parent()`, the rest of its content, and
whether its `Accept` and its `Reject` return an error. -/
structure Block where
  id : ID
  parent : ID
  content : Nat
  acceptErr : Bool
  rejectErr : Bool
deriving DecidableEq

/-- A call made to a block. -/
inductive Call where
  | Accept (blk : Block)
  | Reject (blk : Block)
deriving DecidableEq

/-- Go `m[k]` on a map held as a list of entries with distinct keys. -/
def mapGet {β : Type} : List (ID × β) → ID → Option β
  | [], _ => none
  | (k', v) :: m, k => if k = k' then some v else mapGet m k

/-- Go `delete(m, k)`. -/
def mapDelete {β : Type} (m : List (ID × β)) (k : ID) : List (ID × β) :=
  m.filter (fun e => decide (e.1 ≠ k))

/-- Go `m[k] = v`. -/
def mapSet {β : Type} (m : List (ID × β)) (k : ID) (v : β) : List (ID × β) :=
  mapDelete m k ++ [(k, v)]

/-- Go `maps.Values(m)`: the values in an indeterminate order, which `pick` chooses. -/
def mapValues {β : Type} (pick : List β → List β) (m : List (ID × β)) : List β :=
  pick (m.map Prod.snd)

/-- The Go struct `tree`: parentID -> childID -> childBlock. -/
structure tree where
  nodes : List (ID × List (ID × Block))

/-- Go `New`. -/
def New : tree := ⟨[]⟩

/-- What `Accept` leaves: the tree, the calls made to blocks (oldest first) and
whether an error was returned. -/
structure AcceptResult where
  t : tree
  calls : List Call
  err : Bool

namespace tree

/-- Go `Add`. -/
def Add (t : tree) (blk : Block) : tree :=
  let parentID := blk.parent
  let children := match mapGet t.nodes parentID with
    | some c => c
    | none => []
  ⟨mapSet t.nodes parentID (mapSet children blk.id blk)⟩

/-- Go `Get`: `none` stands for `(nil, false)`. -/
def Get (t : tree) (blk : Block) : Option Block :=
  match mapGet t.nodes blk.parent with
  | some children => mapGet children blk.id
  | none => none

/-- The loop of `Accept` that rejects the rejectable blocks. Every iteration takes
one block off `childrenToReject` and moves the blocks stored under it from the tree
to `childrenToReject`, so the number of these blocks bounds the number of
iterations (first argument). -/
def rejectLoop (pick : List Block → List Block) :
    Nat → List (ID × List (ID × Block)) → List Block → List Call →
      List (ID × List (ID × Block)) × List Call × Bool
  | 0, nodes, _, calls => (nodes, calls, false)
  | fuel + 1, nodes, childrenToReject, calls =>
    match childrenToReject.getLast? with
    | none => (nodes, calls, false)
    | some child =>
      let rest := childrenToReject.dropLast
      if child.rejectErr then (nodes, calls ++ [Call.Reject child], true)
      else
        let children := match mapGet nodes child.id with
          | some c => c
          | none => []
        rejectLoop pick fuel (mapDelete nodes child.id) (rest ++ mapValues pick children)
          (calls ++ [Call.Reject child])

/-- The number of blocks stored in the tree. -/
def size (nodes : List (ID × List (ID × Block))) : Nat :=
  (nodes.map (fun e => e.2.length)).sum

/-- Go `Accept`. -/
def Accept (pick : List Block → List Block) (t : tree) (blk : Block) : AcceptResult :=
  if blk.acceptErr then ⟨t, [Call.Accept blk], true⟩
  else
    let parentID := blk.parent
    let children := match mapGet t.nodes parentID with
      | some c => c
      | none => []
    let children1 := mapDelete children blk.id
    let nodes1 := mapDelete t.nodes parentID
    let childrenToReject := mapValues pick children1
    let r := rejectLoop pick (childrenToReject.length + size nodes1) nodes1 childrenToReject
      [Call.Accept blk]
    ⟨⟨r.1⟩, r.2.1, r.2.2⟩

end tree

/-- A call on the tree. -/
inductive Op where
  | Add (blk : Block)
  | Accept (blk : Block)

/-- Effect of one call on the tree. -/
def step (pick : List Block → List Block) (t : tree) : Op → tree
  | Op.Add blk => t.Add blk
  | Op.Accept blk => (tree.Accept pick t blk).t

/-- Effect of a sequence of calls on a new tree, the first of the list first. -/
def run (pick : List Block → List Block) (ops : List Op) : tree := ops.foldl (step pick) New

/-- The block `x` is stored in the tree under the parent ID `k`. -/
def StoredUnder (t : tree) (k : ID) (x : Block) : Prop :=
  ∃ c, mapGet t.nodes k = some c ∧ mapGet c x.id = some x

/-- The blocks that `Accept(blk)` rejects: the siblings of `blk`, and the blocks
stored under a rejected block whose ID is not the ID of the parent of `blk`. -/
inductive Rejected (t : tree) (blk : Block) : Block → Prop where
  | sibling (x : Block) : StoredUnder t blk.parent x → x.id ≠ blk.id → Rejected t blk x
  | child (y x : Block) : Rejected t blk y → y.id ≠ blk.parent → StoredUnder t y.id x →
      Rejected t blk x

/-- The blocks reachable from the siblings of `blk` through the stored
parent-to-child relation. -/
inductive Reachable (t : tree) (blk : Block) : Block → Prop where
  | sibling (x : Block) : StoredUnder t blk.parent x → x.id ≠ blk.id → Reachable t blk x
  | child (y x : Block) : Reachable t blk y → StoredUnder t y.id x → Reachable t blk x

/-- The blocks stored in the tree. -/
def allBlocks (nodes : List (ID × List (ID × Block))) : List Block :=
  nodes.flatMap (fun e => e.2.map Prod.snd)

/-- The map of the tree is well formed: distinct keys at both levels, and every
block is stored under its parent ID and its own ID. -/
structure WF (nodes : List (ID × List (ID × Block))) : Prop where
  keys : (nodes.map Prod.fst).Nodup
  inner : ∀ k c, (k, c) ∈ nodes → (c.map Prod.fst).Nodup ∧
    ∀ i x, (i, x) ∈ c → x.id = i ∧ x.parent = k

/-- The blocks that the loop of `Accept` rejects from the state (`nodes`,
`childrenToReject`): those of `childrenToReject`, and the blocks stored under them. -/
inductive Closure (nodes : List (ID × List (ID × Block))) (stack : List Block) :
    Block → Prop where
  | base (x : Block) : x ∈ stack → Closure nodes stack x
  | step (y x : Block) : Closure nodes stack y →
      (∃ c i, mapGet nodes y.id = some c ∧ (i, x) ∈ c) → Closure nodes stack x

/-- A tree in which the block with ID 1 occurs under two parents: blocks `(ID 1,
parent 0)` and `(ID 2, parent 0)`, block `(ID 1, parent 2)`, and block `(ID 3,
parent 1)`. -/
def collisionOps : List Op :=
  [Op.Add ⟨1, 0, 0, false, false⟩, Op.Add ⟨2, 0, 0, false, false⟩,
   Op.Add ⟨1, 2, 0, false, false⟩, Op.Add ⟨3, 1, 0, false, false⟩]

/-- A chain `(ID 1, parent 0)`, `(ID 3, parent 1)` and a fork `(ID 2, parent 0)`,
`(ID 4, parent 2)`. -/
def forkOps : List Op :=
  [Op.Add ⟨1, 0, 0, false, false⟩, Op.Add ⟨2, 0, 0, false, false⟩,
   Op.Add ⟨4, 2, 0, false, false⟩, Op.Add ⟨3, 1, 0, false, false⟩]

/-- The descendants of `blk` in the tree: the blocks stored under the ID of `blk`, and
the blocks stored under the ID of a descendant. -/
inductive Descendant (t : tree) (blk : Block) : Block → Prop where
  | child (x : Block) : StoredUnder t blk.id x → Descendant t blk x
  | step (y x : Block) : Descendant t blk y → StoredUnder t y.id x → Descendant t blk x

/-- Three blocks under the parent 0, `(ID 1)`, `(ID 2)` whose `Reject` fails and
`(ID 3)`, and a block `(ID 4, parent 3)` whose `Reject` fails. -/
def failingOps : List Op :=
  [Op.Add ⟨1, 0, 0, false, false⟩, Op.Add ⟨2, 0, 0, false, true⟩,
   Op.Add ⟨3, 0, 0, false, false⟩, Op.Add ⟨4, 3, 0, false, true⟩]

end Tree

/-! ### vms/platformvm/warp -/

namespace Warp

/-- The errors of the package. -/
inductive WarpError where
  | ErrUnknownValidator
  | ErrWeightOverflow
deriving DecidableEq

/-- The Go struct `Validator`; the public key is held by its bytes. -/
structure Validator where
  PublicKeyBytes : List Nat
  Weight : Nat
  NodeIDs : List Nat
deriving DecidableEq

/-- Modelled from the spec: `set.Bits` (utils/set is not under src/), a set of
non-negative integers held as the bits of a non-negative big integer. -/
abbrev Bits := Nat

namespace Bits

/-- Modelled from the spec: `Bits.BitLen`, the bit length of the big integer: `0`
for the empty set, otherwise the greatest element plus one. -/
def BitLen (b : Bits) : Nat := F64.bitLen b

/-- Modelled from the spec: `Bits.Contains`, whether bit `i` is set. -/
def Contains (b : Bits) (i : Nat) : Bool := Nat.testBit b i

end Bits

/-- The loop of `FilterValidators`, from index `i` on. -/
def filterFrom (indices : Bits) : Nat → List Validator → List Validator
  | _, [] => []
  | i, vdr :: vdrs =>
    if Bits.Contains indices i = false then filterFrom indices (i + 1) vdrs
    else vdr :: filterFrom indices (i + 1) vdrs

/-- Go `FilterValidators`. -/
def FilterValidators (indices : Bits) (vdrs : List Validator) :
    Except WarpError (List Validator) :=
  if vdrs.length < Bits.BitLen indices then Except.error WarpError.ErrUnknownValidator
  else Except.ok (filterFrom indices 0 vdrs)

end Warp

namespace Warp

/-- Go `bytes.Compare(a, b)`: `-1`, `0` or `1` as `a` is before, equal to or after `b`
in the lexicographic order of byte strings. -/
def Compare : List Nat → List Nat → Int
  | [], [] => 0
  | [], _ :: _ => -1
  | _ :: _, [] => 1
  | a :: as, b :: bs => if a < b then -1 else if b < a then 1 else Compare as bs

/-- Go `Validator.Less`. -/
def Validator.Less (v o : Validator) : Bool := decide (Compare v.PublicKeyBytes o.PublicKeyBytes < 0)

/-- A `*bls.PublicKey` that is not nil: an opaque value. -/
abbrev PublicKey := Nat

/-- The struct `validators.GetValidatorOutput` (declared outside src/): a validator
of the set, whose `PublicKey` may be nil. -/
structure GetValidatorOutput where
  NodeID : Nat
  PublicKey : Option PublicKey
  Weight : Nat
deriving DecidableEq

/-- The errors that `GetCanonicalValidatorSet` returns: the error of the state,
wrapped, or an error of the package, wrapped. -/
inductive CanonicalError where
  | fetch (err : Nat)
  | wrap (err : WarpError)
deriving DecidableEq

/-- Go `m[k]` on the map `vdrs`, held as a list of entries with distinct keys. -/
def mapGet : List (List Nat × Validator) → List Nat → Option Validator
  | [], _ => none
  | (k', v) :: m, k => if k = k' then some v else mapGet m k

/-- Go `m[k] = v`. -/
def mapSet (m : List (List Nat × Validator)) (k : List Nat) (v : Validator) :
    List (List Nat × Validator) :=
  m.filter (fun e => decide (e.1 ≠ k)) ++ [(k, v)]

/-- The loop of `GetCanonicalValidatorSet` over the validators that the range has yet
to visit. The map holds pointers: the update of `uniqueVdr` is an update of the entry
of the map. `none` stands for the return with `ErrWeightOverflow`. -/
def canonicalLoop (PublicKeyToBytes : PublicKey → List Nat) :
    List GetValidatorOutput → List (List Nat × Validator) → Nat →
      Option (List (List Nat × Validator) × Nat)
  | [], vdrs, totalWeight => some (vdrs, totalWeight)
  | vdr :: rest, vdrs, totalWeight =>
    match Benchlist.Add64 totalWeight vdr.Weight with
    | none => none
    | some totalWeight =>
      match vdr.PublicKey with
      | none => canonicalLoop PublicKeyToBytes rest vdrs totalWeight
      | some pk =>
        let pkBytes := PublicKeyToBytes pk
        let uniqueVdr : Validator :=
          match mapGet vdrs pkBytes with
          | some u => u
          | none => { PublicKeyBytes := pkBytes, Weight := 0, NodeIDs := [] }
        canonicalLoop PublicKeyToBytes rest
          (mapSet vdrs pkBytes
            { uniqueVdr with
              Weight := (uniqueVdr.Weight + vdr.Weight) % 2 ^ 64
              NodeIDs := uniqueVdr.NodeIDs ++ [vdr.NodeID] })
          totalWeight

/-- Go `GetCanonicalValidatorSet`. `pChainState` is `pChainState.GetValidatorSet`,
returning the validators in the order in which the range visits them;
`PublicKeyToBytes` is `bls.PublicKeyToBytes`; `values` chooses the order in which
`maps.Values` returns the values; `sort` is `utils.Sort`. -/
def GetCanonicalValidatorSet (PublicKeyToBytes : PublicKey → List Nat)
    (values sort : List Validator → List Validator)
    (pChainState : Nat → Nat → Except Nat (List GetValidatorOutput))
    (pChainHeight subnetID : Nat) : Except CanonicalError (List Validator × Nat) :=
  match pChainState pChainHeight subnetID with
  | Except.error err => Except.error (CanonicalError.fetch err)
  | Except.ok vdrSet =>
    match canonicalLoop PublicKeyToBytes vdrSet [] 0 with
    | none => Except.error (CanonicalError.wrap WarpError.ErrWeightOverflow)
    | some (vdrs, totalWeight) => Except.ok (sort (values (vdrs.map Prod.snd)), totalWeight)

/-- The loop of `SumWeight`, from the weight summed so far. -/
def sumWeightFrom (weight : Nat) : List Validator → Nat × Option WarpError
  | [] => (weight, none)
  | vdr :: vdrs =>
    match Benchlist.Add64 weight vdr.Weight with
    | none => (0, some WarpError.ErrWeightOverflow)
    | some weight => sumWeightFrom weight vdrs

/-- Go `SumWeight`: the weight and the error returned (`none` for nil). -/
def SumWeight (vdrs : List Validator) : Nat × Option WarpError := sumWeightFrom 0 vdrs

/-- The validator that the map holds for the key `k` once the validators `done` are
visited: the sum of their weights and the list of their node IDs, for those whose
public key has the bytes `k`. -/
def groupOf (PublicKeyToBytes : PublicKey → List Nat) (done : List GetValidatorOutput)
    (k : List Nat) : Validator where
  PublicKeyBytes := k
  Weight := ((done.filter
    (fun v => decide (v.PublicKey.map PublicKeyToBytes = some k))).map (fun v => v.Weight)).sum
  NodeIDs := (done.filter
    (fun v => decide (v.PublicKey.map PublicKeyToBytes = some k))).map (fun v => v.NodeID)

/-- A sorting function: insertion according to `Less`. -/
def insertionSort (l : List Validator) : List Validator :=
  l.insertionSort (fun a b => b.Less a = false)

/-- A state with four validators: two share the key 7, one has no key. -/
def exampleState : Nat → Nat → Except Nat (List GetValidatorOutput) :=
  fun _ _ => Except.ok [⟨1, some 7, 10⟩, ⟨2, some 3, 20⟩, ⟨3, none, 5⟩, ⟨4, some 7, 30⟩]

end Warp

namespace Warp

/-- The invariant of the loop of `GetCanonicalValidatorSet`, once the validators
`done` are visited: the map has one entry for every key met, holding the group of
that key, and `totalWeight` is the exact sum of the weights, below `2^64`. -/
structure LoopInv (PublicKeyToBytes : PublicKey → List Nat) (done : List GetValidatorOutput)
    (vdrs : List (List Nat × Validator)) (totalWeight : Nat) : Prop where
  nodup : (vdrs.map Prod.fst).Nodup
  entries : ∀ k v, (k, v) ∈ vdrs → v = groupOf PublicKeyToBytes done k
  keys : ∀ k, k ∈ vdrs.map Prod.fst ↔ ∃ v ∈ done, v.PublicKey.map PublicKeyToBytes = some k
  total : totalWeight = (done.map (fun v => v.Weight)).sum
  bound : totalWeight < 2 ^ 64

end Warp

/-! ### ids -/

namespace Ids

/-- Go `ID`: an array of 32 bytes. -/
abbrev ID := Fin 32 → Fin 256

/-- Modelled from the spec: the constant `BitsPerByte` (ids/bits.go is not under
src/), the number of bits of a byte. -/
def BitsPerByte : Nat := 8

/-- The Go constant `nullStr`, the bytes of `null`. -/
def nullStr : List Nat := [110, 117, 108, 108]

/-- The errors that `UnmarshalJSON` returns: `errMissingQuotes`, the error of
`cb58.Decode`, wrapped, or the error of `ToID`. -/
inductive IDError where
  | errMissingQuotes
  | decode (err : Nat)
  | toID (err : Nat)
deriving DecidableEq

/-- Go `ToID`; `ToHash256` is `hashing.ToHash256` (utils/hashing is not under src/),
which returns a hash and an error (`none` for nil). -/
def ToID (ToHash256 : List Nat → ID × Option Nat) (bytes : List Nat) : ID × Option Nat :=
  ToHash256 bytes

namespace ID

/-- Go `ID.Bit`, for `i` a `uint`; `none` stands for the panic of an index out of
range. The byte `b` is shifted and masked as a `uint8`. -/
def Bit (id : ID) (i : Nat) : Option Int :=
  let byteIndex := i / BitsPerByte
  let bitIndex := i % BitsPerByte
  if h : byteIndex < 32 then
    let b : Nat := (id ⟨byteIndex, h⟩).val
    let b := (b >>> bitIndex) % 256
    let b := b &&& 1
    some (b : Int)
  else none

/-- Go `ID.UnmarshalJSON`: the receiver after the call and the error returned (`none`
for nil). A string is the list of its bytes; `Decode` is `cb58.Decode` (utils/cb58 is
not under src/). -/
def UnmarshalJSON (Decode : List Nat → Except Nat (List Nat))
    (ToHash256 : List Nat → ID × Option Nat) (id : ID) (b : List Nat) : ID × Option IDError :=
  let str := b
  if str = nullStr then (id, none)
  else if str.length < 2 then (id, some IDError.errMissingQuotes)
  else
    let lastIndex := str.length - 1
    if str.getD 0 0 ≠ 34 ∨ str.getD lastIndex 0 ≠ 34 then (id, some IDError.errMissingQuotes)
    else
      match Decode ((str.take lastIndex).drop 1) with
      | Except.error err => (id, some (IDError.decode err))
      | Except.ok bytes =>
        let r := ToID ToHash256 bytes
        (r.1, r.2.map IDError.toID)

end ID

/-- The ID whose byte 1 is `2` and whose other bytes are `0`. -/
def exampleID : ID := fun k => if k.val = 1 then 2 else 0

/-- A decoder that fails on every input. -/
def failingDecode : List Nat → Except Nat (List Nat) := fun _ => Except.error 0

/-- A `ToHash256` that returns the zero hash. -/
def zeroHash : List Nat → ID × Option Nat := fun _ => (fun _ => 0, none)

end Ids

/-! ### utils/window -/

namespace Window

/-- Go `time.Time.Sub`: the difference of two times in nanoseconds, which saturates
at the bounds of an `int64`. -/
def Sub (t u : Int) : Int := max (-(2 ^ 63)) (min (2 ^ 63 - 1) (t - u))

/-- The Go struct `node`. -/
structure node where
  value : Nat
  entryTime : Int
deriving DecidableEq

/-- The Go struct `Config`, without the clock: the readings of the clock are
arguments of the calls. -/
structure Config where
  MaxSize : Int
  TTL : Int

/-- The Go struct `window`. Modelled from the spec: the `buffer.Deque` of the elements
(utils/buffer is not under src/) is an unbounded double-ended queue, held as the list
of its elements from left to right: `PushRight` appends, `PopLeft` removes the first
element if there is one, `PeekLeft` returns it, `Len` is the length. -/
structure window where
  ttl : Int
  maxSize : Int
  elements : List node

/-- Go `New`. -/
def New (config : Config) : window where
  ttl := config.TTL
  maxSize := config.MaxSize
  elements := []

/-- Go `removeStaleNodes`, on the elements of the window: every iteration of the
loop that does not return pops the leftmost element. `clock k` is the reading number
`k` of the clock during the call; the result is the elements left and the number of
readings made. -/
def removeStaleNodes (ttl : Int) (clock : Nat → Int) : List node → Nat → List node × Nat
  | [], k => ([], k)
  | oldest :: rest, k =>
    if Sub (clock k) oldest.entryTime ≤ ttl then (oldest :: rest, k + 1)
    else removeStaleNodes ttl clock rest (k + 1)

namespace window

/-- Go `window.Add`. -/
def Add (w : window) (clock : Nat → Int) (value : Nat) : window :=
  let r := removeStaleNodes w.ttl clock w.elements 0
  let elements := if w.maxSize ≤ (r.1.length : Int) then r.1.tail else r.1
  { w with elements := elements ++ [{ value := value, entryTime := clock r.2 }] }

/-- Go `window.Oldest`: the window after the call, the value and the flag returned
(the zero value of `T` is `0`). -/
def Oldest (w : window) (clock : Nat → Int) : window × Nat × Bool :=
  let r := removeStaleNodes w.ttl clock w.elements 0
  match r.1.head? with
  | none => ({ w with elements := r.1 }, 0, false)
  | some oldest => ({ w with elements := r.1 }, oldest.value, true)

/-- Go `window.Length`: the window after the call and the length returned. -/
def Length (w : window) (clock : Nat → Int) : window × Int :=
  let r := removeStaleNodes w.ttl clock w.elements 0
  ({ w with elements := r.1 }, (r.1.length : Int))

end window

/-- A call on the window, with the readings of the clock that it makes. -/
inductive Op where
  | Add (clock : Nat → Int) (value : Nat)
  | Oldest (clock : Nat → Int)
  | Length (clock : Nat → Int)

/-- Effect of one call on the window. -/
def step (w : window) : Op → window
  | Op.Add clock value => w.Add clock value
  | Op.Oldest clock => (w.Oldest clock).1
  | Op.Length clock => (w.Length clock).1

/-- The window after a sequence of calls on a new window, the first of the list
first. -/
def run (config : Config) (ops : List Op) : window := ops.foldl step (New config)

end Window

/-! ### vms/platformvm/txs -/

namespace Txs

/-- The errors that `SyntacticVerify` returns; an error wrapped with `fmt.Errorf`
keeps the error it wraps. `overflow` is the error of `math.Add64`, `notVidar` the
error about a stake output in another asset. -/
inductive TxError where
  | ErrNilTx
  | errTooManyShares
  | baseTx (err : Nat)
  | validatorOrOwner (err : Nat)
  | output (err : Nat)
  | overflow
  | notVidar (assetID : Nat)
  | errOutputsNotSorted
  | errValidatorWeightMismatch
deriving DecidableEq

/-- The part of `snow.Context` that `SyntacticVerify` reads, and the rest of it. -/
structure Context where
  VidarAssetID : Nat
  rest : Nat
deriving DecidableEq

/-- A `*Vidar.TransferableOutput`, as far as `SyntacticVerify` reads it: the asset ID
that `AssetID()` returns, the amount that `Output().Amount()` returns, a `uint64`, and
the rest of it. -/
structure TransferableOutput where
  assetID : Nat
  amount : Nat
  rest : Nat
deriving DecidableEq

/-- The Go struct `Validator` of the package: the weight `Wght` and the rest of it. -/
structure Validator where
  Wght : Nat
  rest : Nat
deriving DecidableEq

/-- The Go struct `AddValidatorTx`. The `BaseTx` is the flag `SyntacticallyVerified`
and the rest of it; the rewards owner is opaque. -/
structure AddValidatorTx where
  SyntacticallyVerified : Bool
  BaseTx : Nat
  Validator : Validator
  StakeOuts : List TransferableOutput
  RewardsOwner : Nat
  DelegationShares : Nat
deriving DecidableEq

/-- What `SyntacticVerify` uses and src/ does not hold: the constant
`reward.PercentDenominator`, and the functions `BaseTx.SyntacticVerify`, `verify.All`
on the validator and the rewards owner, `TransferableOutput.Verify` and
`Vidar.IsSortedTransferableOutputs`. The functions read their arguments and return an
error (`none` for nil) or a flag. -/
structure Deps where
  PercentDenominator : Nat
  BaseTxSyntacticVerify : Context → Nat → Option Nat
  verifyAll : Validator → Nat → Option Nat
  outVerify : TransferableOutput → Option Nat
  IsSortedTransferableOutputs : List TransferableOutput → Bool

/-- The loop of `SyntacticVerify` over the stake outputs, from the weight summed so
far. -/
def stakeLoop (deps : Deps) (ctx : Context) :
    List TransferableOutput → Nat → Except TxError Nat
  | [], totalStakeWeight => Except.ok totalStakeWeight
  | out :: outs, totalStakeWeight =>
    match deps.outVerify out with
    | some err => Except.error (TxError.output err)
    | none =>
      match Benchlist.Add64 totalStakeWeight out.amount with
      | none => Except.error TxError.overflow
      | some newWeight =>
        if out.assetID ≠ ctx.VidarAssetID then Except.error (TxError.notVidar out.assetID)
        else stakeLoop deps ctx outs newWeight

/-- Go `AddValidatorTx.SyntacticVerify`, for `tx` a pointer that may be nil: the
transaction after the call and the error returned (`none` for nil). -/
def SyntacticVerify (deps : Deps) (ctx : Context) :
    Option AddValidatorTx → Option AddValidatorTx × Option TxError
  | none => (none, some TxError.ErrNilTx)
  | some tx =>
    if tx.SyntacticallyVerified = true then (some tx, none)
    else if deps.PercentDenominator < tx.DelegationShares then
      (some tx, some TxError.errTooManyShares)
    else
      match deps.BaseTxSyntacticVerify ctx tx.BaseTx with
      | some err => (some tx, some (TxError.baseTx err))
      | none =>
        match deps.verifyAll tx.Validator tx.RewardsOwner with
        | some err => (some tx, some (TxError.validatorOrOwner err))
        | none =>
          match stakeLoop deps ctx tx.StakeOuts 0 with
          | Except.error err => (some tx, some err)
          | Except.ok totalStakeWeight =>
            if deps.IsSortedTransferableOutputs tx.StakeOuts = false then
              (some tx, some TxError.errOutputsNotSorted)
            else if totalStakeWeight ≠ tx.Validator.Wght then
              (some tx, some TxError.errValidatorWeightMismatch)
            else (some { tx with SyntacticallyVerified := true }, none)

/-- Dependencies that accept everything, with `PercentDenominator = 1000000`. -/
def exampleDeps : Deps where
  PercentDenominator := 1000000
  BaseTxSyntacticVerify := fun _ _ => none
  verifyAll := fun _ _ => none
  outVerify := fun _ => none
  IsSortedTransferableOutputs := fun _ => true

/-- A context whose asset has the ID 1. -/
def exampleCtx : Context := ⟨1, 0⟩

/-- A transaction of weight 2022 with one stake output of 2022 in the asset 1 and
`PercentDenominator` shares. -/
def exampleTx : AddValidatorTx where
  SyntacticallyVerified := false
  BaseTx := 0
  Validator := ⟨2022, 0⟩
  StakeOuts := [⟨1, 2022, 0⟩]
  RewardsOwner := 0
  DelegationShares := 1000000

end Txs

/-! ## Theorems -/

/-! ### float64 arithmetic (non-negative finite values) -/

namespace F64

theorem bitLenAux_le_iff : ∀ (fuel n k : Nat), n ≤ fuel → (bitLenAux fuel n ≤ k ↔ n < 2 ^ k) := by
  intro fuel
  induction fuel with
  | zero =>
    intro n k hn
    have : n = 0 := by omega
    subst this
    simp [bitLenAux]
  | succ fuel ih =>
    intro n k hn
    unfold bitLenAux
    by_cases h0 : n = 0
    · subst h0; simp
    · rw [if_neg h0]
      cases k with
      | zero =>
        simp only [pow_zero, Nat.lt_one_iff]
        constructor
        · intro h; omega
        · intro h; exact absurd h h0
      | succ k =>
        rw [Nat.add_le_add_iff_right, ih (n / 2) k (by omega), pow_succ]
        omega

theorem bitLen_le_iff (n k : Nat) : bitLen n ≤ k ↔ n < 2 ^ k :=
  bitLenAux_le_iff n n k (le_refl n)

theorem lt_bitLen_iff (n k : Nat) : k < bitLen n ↔ 2 ^ k ≤ n := by
  have := bitLen_le_iff n k
  constructor
  · intro h
    by_contra hc
    exact absurd (this.2 (by omega)) (by omega)
  · intro h
    by_contra hc
    have := this.1 (by omega)
    omega

theorem lt_pow_bitLen (n : Nat) : n < 2 ^ bitLen n := (bitLen_le_iff n _).1 (le_refl _)

theorem bitLen_zero : bitLen 0 = 0 := rfl

theorem bitLen_pos (n : Nat) (h : n ≠ 0) : 0 < bitLen n :=
  (lt_bitLen_iff n 0).2 (by simp; omega)

theorem pow_bitLen_le (n : Nat) (h : n ≠ 0) : 2 ^ (bitLen n - 1) ≤ n :=
  (lt_bitLen_iff n _).1 (by have := bitLen_pos n h; omega)

theorem bitLen_mono (a b : Nat) (h : a ≤ b) : bitLen a ≤ bitLen b :=
  (bitLen_le_iff a _).2 (lt_of_le_of_lt h (lt_pow_bitLen b))

theorem bitLen_mul_pow (n E : Nat) (h : n ≠ 0) : bitLen (n * 2 ^ E) = bitLen n + E := by
  apply le_antisymm
  · rw [bitLen_le_iff, pow_add]
    exact Nat.mul_lt_mul_of_lt_of_le (lt_pow_bitLen n) (le_refl _) (by positivity)
  · have h1 := pow_bitLen_le n h
    have h2 := bitLen_pos n h
    have h3 : bitLen n + E - 1 < bitLen (n * 2 ^ E) := by
      rw [lt_bitLen_iff]
      have e : bitLen n + E - 1 = (bitLen n - 1) + E := by omega
      rw [e, pow_add]
      exact Nat.mul_le_mul_right _ h1
    omega

theorem roundHalfEven_ge (X s : Nat) : X / 2 ^ s ≤ roundHalfEven X s := by
  unfold roundHalfEven; split_ifs <;> omega

theorem roundHalfEven_le (X s : Nat) : roundHalfEven X s ≤ X / 2 ^ s + 1 := by
  unfold roundHalfEven; split_ifs <;> omega

theorem roundHalfEven_of_lt_half (X s : Nat) (h : 2 * (X % 2 ^ s) < 2 ^ s) :
    roundHalfEven X s = X / 2 ^ s := by
  unfold roundHalfEven; rw [if_pos h]

theorem roundHalfEven_exact (c s : Nat) : roundHalfEven (c * 2 ^ s) s = c := by
  have hp : 0 < 2 ^ s := by positivity
  rw [roundHalfEven_of_lt_half]
  · exact Nat.mul_div_cancel c hp
  · rw [Nat.mul_mod_left]; omega

theorem roundHalfEven_mono (X Y s : Nat) (h : X ≤ Y) :
    roundHalfEven X s ≤ roundHalfEven Y s := by
  have hp : 0 < 2 ^ s := by positivity
  have hd : X / 2 ^ s ≤ Y / 2 ^ s := Nat.div_le_div_right h
  rcases Nat.lt_or_ge (X / 2 ^ s) (Y / 2 ^ s) with hlt | hge
  · calc roundHalfEven X s ≤ X / 2 ^ s + 1 := roundHalfEven_le X s
      _ ≤ Y / 2 ^ s := hlt
      _ ≤ roundHalfEven Y s := roundHalfEven_ge Y s
  · have heq : X / 2 ^ s = Y / 2 ^ s := le_antisymm hd hge
    have hm : X % 2 ^ s ≤ Y % 2 ^ s := by
      have h1 := Nat.div_add_mod X (2 ^ s)
      have h2 := Nat.div_add_mod Y (2 ^ s)
      rw [heq] at h1
      omega
    unfold roundHalfEven
    rw [heq]
    split_ifs <;> omega

theorem roundHalfEven_mul_le (X c s : Nat) (h : X ≤ c * 2 ^ s) :
    roundHalfEven X s ≤ c := by
  have := roundHalfEven_mono X (c * 2 ^ s) s h
  rwa [roundHalfEven_exact] at this

theorem roundHalfEven_mul_ge (X c s : Nat) (h : c * 2 ^ s ≤ X) :
    c ≤ roundHalfEven X s := by
  have := roundHalfEven_mono (c * 2 ^ s) X s h
  rwa [roundHalfEven_exact] at this

theorem roundHalfEven_mul_pow (X s E : Nat) :
    roundHalfEven (X * 2 ^ E) (s + E) = roundHalfEven X s := by
  have hp : 0 < 2 ^ E := by positivity
  have hd : X * 2 ^ E / 2 ^ (s + E) = X / 2 ^ s := by
    rw [pow_add, Nat.mul_div_mul_right _ _ hp]
  have hm : X * 2 ^ E % 2 ^ (s + E) = (X % 2 ^ s) * 2 ^ E := by
    rw [pow_add, Nat.mul_mod_mul_right]
  unfold roundHalfEven
  rw [hd, hm, pow_add]
  have e1 : (2 * (X % 2 ^ s * 2 ^ E) < 2 ^ s * 2 ^ E) ↔ (2 * (X % 2 ^ s) < 2 ^ s) := by
    rw [← Nat.mul_assoc]
    exact Nat.mul_lt_mul_right hp
  have e2 : (2 ^ s * 2 ^ E < 2 * (X % 2 ^ s * 2 ^ E)) ↔ (2 ^ s < 2 * (X % 2 ^ s)) := by
    rw [← Nat.mul_assoc]
    exact Nat.mul_lt_mul_right hp
  simp only [e1, e2]

theorem val_round (X E b : Nat) : (round X E b).val = rndQ (X * 2 ^ E) b := by
  unfold round val rndQ
  dsimp only
  by_cases h0 : X = 0
  · subst h0
    simp [roundHalfEven, bitLen_zero]
  · rw [bitLen_mul_pow X E h0]
    congr 1
    rcases Nat.le_total E (b + (bitLen X + E - (b + 53))) with hle | hge
    · have e1 : E - (b + (bitLen X + E - (b + 53))) = 0 := by omega
      obtain ⟨s, hs⟩ : ∃ s, b + (bitLen X + E - (b + 53)) = s + E := ⟨_, (Nat.sub_add_cancel hle).symm⟩
      rw [e1, hs, roundHalfEven_mul_pow]
      simp
    · have e1 : b + (bitLen X + E - (b + 53)) - E = 0 := by omega
      obtain ⟨t, ht⟩ : ∃ t, E = t + (b + (bitLen X + E - (b + 53))) := ⟨_, (Nat.sub_add_cancel hge).symm⟩
      rw [e1]
      have e2 : E - (b + (bitLen X + E - (b + 53))) = t := by omega
      rw [e2]
      have e3 : X * 2 ^ E = (X * 2 ^ t) * 2 ^ (b + (bitLen X + E - (b + 53))) := by
        rw [Nat.mul_assoc, ← pow_add, ← ht]
      rw [e3, roundHalfEven_exact]
      have := roundHalfEven_exact (X * 2 ^ t) 0
      simpa using this

theorem val_ofNat (n : Nat) : (ofNat n).val = rndQ (n * 2 ^ 1074) 0 := val_round n 1074 0

theorem val_mul (x y : F64) : (mul x y).val = rndQ (x.val * y.val) 1074 := by
  unfold mul
  rw [val_round]
  congr 1
  unfold val
  rw [pow_add]
  ring

theorem lt_iff_val (x y : F64) : lt x y = true ↔ x.val < y.val := by
  unfold lt val
  rw [decide_eq_true_eq]
  rcases Nat.le_total x.e y.e with h | h
  · obtain ⟨d, hd⟩ : ∃ d, y.e = x.e + d := ⟨_, (Nat.add_sub_cancel' h).symm⟩
    have e1 : x.e - y.e = 0 := by omega
    have e2 : y.e - x.e = d := by omega
    rw [e1, e2, hd, pow_add, pow_zero, Nat.mul_one, ← Nat.mul_assoc, Nat.mul_comm (y.m) (2 ^ x.e),
      Nat.mul_assoc, Nat.mul_comm x.m]
    exact (Nat.mul_lt_mul_left (by positivity)).symm
  · obtain ⟨d, hd⟩ : ∃ d, x.e = y.e + d := ⟨_, (Nat.add_sub_cancel' h).symm⟩
    have e1 : y.e - x.e = 0 := by omega
    have e2 : x.e - y.e = d := by omega
    rw [e1, e2, hd, pow_add, pow_zero, Nat.mul_one, ← Nat.mul_assoc, Nat.mul_comm (x.m) (2 ^ y.e),
      Nat.mul_assoc, Nat.mul_comm y.m]
    exact (Nat.mul_lt_mul_left (by positivity)).symm

theorem lt_false_iff_val (x y : F64) : lt x y = false ↔ y.val ≤ x.val := by
  rw [← not_lt, ← lt_iff_val]
  simp

theorem le_iff_val (x y : F64) : le x y = true ↔ x.val ≤ y.val := by
  unfold le val
  rw [decide_eq_true_eq]
  rcases Nat.le_total x.e y.e with h | h
  · obtain ⟨d, hd⟩ : ∃ d, y.e = x.e + d := ⟨_, (Nat.add_sub_cancel' h).symm⟩
    have e1 : x.e - y.e = 0 := by omega
    have e2 : y.e - x.e = d := by omega
    rw [e1, e2, hd, pow_add, pow_zero, Nat.mul_one, ← Nat.mul_assoc, Nat.mul_comm (y.m) (2 ^ x.e),
      Nat.mul_assoc, Nat.mul_comm x.m]
    exact (mul_le_mul_left (by positivity)).symm
  · obtain ⟨d, hd⟩ : ∃ d, x.e = y.e + d := ⟨_, (Nat.add_sub_cancel' h).symm⟩
    have e1 : y.e - x.e = 0 := by omega
    have e2 : x.e - y.e = d := by omega
    rw [e1, e2, hd, pow_add, pow_zero, Nat.mul_one, ← Nat.mul_assoc, Nat.mul_comm (x.m) (2 ^ y.e),
      Nat.mul_assoc, Nat.mul_comm y.m]
    exact (mul_le_mul_left (by positivity)).symm

/-- Rounding is monotone. -/
theorem rndQ_mono (V W b : Nat) (h : V ≤ W) : rndQ V b ≤ rndQ W b := by
  have hb := bitLen_mono V W h
  unfold rndQ
  rcases Nat.lt_or_ge (bitLen V - (b + 53)) (bitLen W - (b + 53)) with hlt | hge
  · -- different binades: the power of two between them is on both grids
    have hW : 2 ^ (bitLen W - 1) ≤ W := pow_bitLen_le W (by
      intro h0; subst h0; simp [bitLen_zero] at hlt)
    have hV : V < 2 ^ (bitLen W - 1) :=
      lt_of_lt_of_le (lt_pow_bitLen V) (Nat.pow_le_pow_right (by omega) (by omega))
    obtain ⟨eW, heW⟩ : ∃ eW, bitLen W - (b + 53) = eW := ⟨_, rfl⟩
    obtain ⟨eV, heV⟩ : ∃ eV, bitLen V - (b + 53) = eV := ⟨_, rfl⟩
    rw [heW, heV] at hlt ⊢
    have hB : bitLen W - 1 = 52 + (b + eW) := by omega
    rw [hB] at hW hV
    -- lower bound of the rounding of W
    have h1 : 2 ^ 52 ≤ roundHalfEven W (b + eW) :=
      roundHalfEven_mul_ge W (2 ^ 52) (b + eW) (by rw [← pow_add]; exact hW)
    -- upper bound of the rounding of V
    have h2 : roundHalfEven V (b + eV) ≤ 2 ^ (52 + (eW - eV)) := by
      apply roundHalfEven_mul_le
      rw [← pow_add]
      have : 52 + (eW - eV) + (b + eV) = 52 + (b + eW) := by omega
      rw [this]
      exact le_of_lt hV
    calc roundHalfEven V (b + eV) * 2 ^ eV ≤ 2 ^ (52 + (eW - eV)) * 2 ^ eV :=
          Nat.mul_le_mul_right _ h2
      _ = 2 ^ 52 * 2 ^ eW := by
          rw [← pow_add, ← pow_add]
          congr 1
          omega
      _ ≤ roundHalfEven W (b + eW) * 2 ^ eW := Nat.mul_le_mul_right _ h1
  · have heq : bitLen V - (b + 53) = bitLen W - (b + 53) := by omega
    rw [heq]
    exact Nat.mul_le_mul_right _ (roundHalfEven_mono V W _ h)

theorem val_ofNat_mono (a b : Nat) (h : a ≤ b) : (ofNat a).val ≤ (ofNat b).val := by
  rw [val_ofNat, val_ofNat]
  exact rndQ_mono _ _ _ (Nat.mul_le_mul_right _ h)

theorem val_ofNat_zero : (ofNat 0).val = 0 := by
  rw [val_ofNat, Nat.zero_mul]
  simp [rndQ, roundHalfEven]

theorem toNat_eq (x : F64) : toNat x = x.val / 2 ^ 1074 := by
  unfold toNat val
  rcases Nat.le_total x.e 1074 with h | h
  · obtain ⟨d, hd⟩ : ∃ d, 1074 = x.e + d := ⟨_, (Nat.add_sub_cancel' h).symm⟩
    have e1 : x.e - 1074 = 0 := by omega
    have e2 : 1074 - x.e = d := by omega
    rw [e1, e2, hd, pow_zero, Nat.mul_one, pow_add, Nat.mul_comm (2 ^ x.e) (2 ^ d),
      Nat.mul_div_mul_right _ _ (by positivity)]
  · obtain ⟨d, hd⟩ : ∃ d, x.e = 1074 + d := ⟨_, (Nat.add_sub_cancel' h).symm⟩
    have e1 : 1074 - x.e = 0 := by omega
    have e2 : x.e - 1074 = d := by omega
    rw [e1, e2, hd, pow_zero, Nat.div_one, pow_add, Nat.mul_comm (2 ^ 1074) (2 ^ d),
      ← Nat.mul_assoc, Nat.mul_div_cancel _ (by positivity)]

/-- Rounding a value that has at most 53 significant bits is exact. -/
theorem rndQ_exact (m k b : Nat) (hm : m < 2 ^ 53) : rndQ (m * 2 ^ k * 2 ^ b) b = m * 2 ^ k := by
  by_cases h0 : m = 0
  · subst h0
    simp [rndQ, roundHalfEven, bitLen_zero]
  · unfold rndQ
    have hb : bitLen (m * 2 ^ k * 2 ^ b) = bitLen m + (k + b) := by
      rw [Nat.mul_assoc, ← pow_add, bitLen_mul_pow m _ h0]
    rw [hb]
    have hm53 : bitLen m ≤ 53 := (bitLen_le_iff m 53).2 hm
    obtain ⟨e, he⟩ : ∃ e, bitLen m + (k + b) - (b + 53) = e := ⟨_, rfl⟩
    rw [he]
    have hek : e ≤ k := by omega
    obtain ⟨d, hd⟩ : ∃ d, k = d + e := ⟨_, (Nat.sub_add_cancel hek).symm⟩
    have e1 : m * 2 ^ k * 2 ^ b = (m * 2 ^ d) * 2 ^ (b + e) := by
      rw [hd, pow_add, pow_add]; ring
    rw [e1, roundHalfEven_exact, hd, pow_add]
    ring

theorem rndQ_exact_le (m k b : Nat) (hm : m ≤ 2 ^ 53) :
    rndQ (m * 2 ^ k * 2 ^ b) b = m * 2 ^ k := by
  rcases Nat.lt_or_ge m (2 ^ 53) with h | h
  · exact rndQ_exact m k b h
  · have e : m = 2 ^ 53 := le_antisymm hm h
    have e1 : m * 2 ^ k = 2 ^ 52 * 2 ^ (k + 1) := by
      rw [e, ← pow_add, ← pow_add]; congr 1; omega
    rw [e1]
    exact rndQ_exact (2 ^ 52) (k + 1) b (by norm_num)

/-- The conversion of an integer: the integer itself below `2^53`, else the integer
rounded to 53 bits. -/
theorem rndQ_ofNat (D c : Nat) :
    rndQ (D * 2 ^ (53 + c)) 0 =
      (if bitLen D ≤ 53 then D
        else roundHalfEven D (bitLen D - 53) * 2 ^ (bitLen D - 53)) * 2 ^ (53 + c) := by
  by_cases h0 : D = 0
  · subst h0
    simp [rndQ, roundHalfEven, bitLen_zero]
  · by_cases h1 : bitLen D ≤ 53
    · rw [if_pos h1]
      have := rndQ_exact D (53 + c) 0 ((bitLen_le_iff D 53).1 h1)
      simpa using this
    · rw [if_neg h1]
      unfold rndQ
      rw [bitLen_mul_pow D _ h0]
      have e : bitLen D + (53 + c) - (0 + 53) = (bitLen D - 53) + (53 + c) := by omega
      rw [e, Nat.zero_add, roundHalfEven_mul_pow, pow_add, Nat.mul_assoc]

/-- A representable value below 1 is at most `1 - 2^(-53)`. -/
theorem val_le_of_lt_one (r : F64) (c : Nat) (hr : r.Representable)
    (h1 : r.val < 2 ^ (53 + c)) : r.val ≤ (2 ^ 53 - 1) * 2 ^ c := by
  unfold Representable at hr
  unfold val at h1 ⊢
  rcases Nat.le_total r.e c with h | h
  · calc r.m * 2 ^ r.e ≤ (2 ^ 53 - 1) * 2 ^ r.e := Nat.mul_le_mul_right _ (by omega)
      _ ≤ (2 ^ 53 - 1) * 2 ^ c := Nat.mul_le_mul_left _ (Nat.pow_le_pow_right (by omega) h)
  · obtain ⟨d, hd⟩ : ∃ d, r.e = d + c := ⟨_, (Nat.sub_add_cancel h).symm⟩
    rw [hd, pow_add, ← Nat.mul_assoc] at h1 ⊢
    rw [pow_add] at h1
    have h2 : r.m * 2 ^ d < 2 ^ 53 := Nat.lt_of_mul_lt_mul_right h1
    exact Nat.mul_le_mul_right _ (by omega)

/-- The product of a float64 below 1 and the conversion of the integer `D`, rounded,
is at most `D`. -/
theorem rndQ_mul_ofNat_le (rv D c : Nat) (hr : rv ≤ (2 ^ 53 - 1) * 2 ^ c) :
    rndQ (rv * rndQ (D * 2 ^ (53 + c)) 0) (53 + c) ≤ D * 2 ^ (53 + c) := by
  have hT : (2 ^ 53 - 1) * 2 ^ c ≤ 2 ^ (53 + c) := by
    rw [pow_add]; exact Nat.mul_le_mul_right _ (by omega)
  rw [rndQ_ofNat]
  by_cases h1 : bitLen D ≤ 53
  · -- the conversion is exact
    rw [if_pos h1]
    have hD : D < 2 ^ 53 := (bitLen_le_iff D 53).1 h1
    calc rndQ (rv * (D * 2 ^ (53 + c))) (53 + c)
        ≤ rndQ (D * 2 ^ (53 + c) * 2 ^ (53 + c)) (53 + c) := by
          apply rndQ_mono
          rw [Nat.mul_comm rv]
          exact Nat.mul_le_mul_left _ (le_trans hr hT)
      _ = D * 2 ^ (53 + c) := rndQ_exact D _ _ hD
  · rw [if_neg h1]
    obtain ⟨s, hs⟩ : ∃ s, bitLen D = 53 + s := ⟨bitLen D - 53, by omega⟩
    have es : bitLen D - 53 = s := by omega
    rw [es]
    have hDlt : D < 2 ^ (53 + s) := by rw [← hs]; exact lt_pow_bitLen D
    have hDge : 2 ^ (52 + s) ≤ D := by
      have := pow_bitLen_le D (by intro h; subst h; rw [bitLen_zero] at hs; omega)
      rwa [hs, show 53 + s - 1 = 52 + s by omega] at this
    have hp : 0 < 2 ^ s := by positivity
    have hq1 : D / 2 ^ s < 2 ^ 53 := by
      rw [Nat.div_lt_iff_lt_mul hp, ← pow_add]; exact hDlt
    have hq2 : 2 ^ 52 ≤ D / 2 ^ s := by
      rw [Nat.le_div_iff_mul_le hp, ← pow_add]; exact hDge
    have hqD : D / 2 ^ s * 2 ^ s ≤ D := Nat.div_mul_le_self D (2 ^ s)
    rcases Nat.lt_or_ge (D / 2 ^ s) (roundHalfEven D s) with hup | hdown
    · -- rounded up: the product is nearer to the float below
      have hrhe : roundHalfEven D s = D / 2 ^ s + 1 := by
        have := roundHalfEven_le D s; omega
      rw [hrhe]
      obtain ⟨q, hq⟩ : ∃ q, D / 2 ^ s = q := ⟨_, rfl⟩
      rw [hq] at hq1 hq2 hqD ⊢
      have hmono : rndQ (rv * ((q + 1) * 2 ^ s * 2 ^ (53 + c))) (53 + c)
          ≤ rndQ ((2 ^ 53 - 1) * 2 ^ c * ((q + 1) * 2 ^ s * 2 ^ (53 + c))) (53 + c) :=
        rndQ_mono _ _ _ (Nat.mul_le_mul_right _ hr)
      refine le_trans hmono ?_
      -- the value of the largest product
      have hA1 : (2 ^ 53 - 1) * (q + 1) * 2 ^ c
          = q * 2 ^ (53 + c) + (2 ^ 53 - (q + 1)) * 2 ^ c := by
        rw [pow_add]
        have h53 : (2 : Nat) ^ 53 - 1 + 1 = 2 ^ 53 := Nat.sub_add_cancel Nat.one_le_two_pow
        have hq' : 2 ^ 53 - (q + 1) + (q + 1) = 2 ^ 53 := Nat.sub_add_cancel (by omega)
        generalize (2 : Nat) ^ 53 - 1 = a at h53
        generalize (2 : Nat) ^ 53 - (q + 1) = d at hq'
        generalize (2 : Nat) ^ 53 = P at h53 hq'
        subst h53
        have : a = q + d := by omega
        subst this
        ring
      have hrem : 2 * ((2 ^ 53 - (q + 1)) * 2 ^ c) < 2 ^ (53 + c) := by
        rw [pow_add, ← Nat.mul_assoc]
        apply Nat.mul_lt_mul_of_lt_of_le _ (le_refl _) (by positivity)
        omega
      have hV : (2 ^ 53 - 1) * 2 ^ c * ((q + 1) * 2 ^ s * 2 ^ (53 + c))
          = ((2 ^ 53 - 1) * (q + 1) * 2 ^ c) * 2 ^ (s + (53 + c)) := by
        rw [pow_add 2 s]; ring
      obtain ⟨A, hA⟩ : ∃ A, (2 ^ 53 - 1) * (q + 1) * 2 ^ c = A := ⟨_, rfl⟩
      rw [hA] at hA1 hV
      have hAlo : 2 ^ (52 + (53 + c)) ≤ A := by
        rw [hA1, pow_add]
        exact le_trans (Nat.mul_le_mul_right _ hq2) (Nat.le_add_right _ _)
      have hAhi : A < 2 ^ (53 + (53 + c)) := by
        rw [hA1, pow_add 2 53 (53 + c)]
        calc q * 2 ^ (53 + c) + (2 ^ 53 - (q + 1)) * 2 ^ c
            < q * 2 ^ (53 + c) + 2 ^ (53 + c) := by omega
          _ = (q + 1) * 2 ^ (53 + c) := by ring
          _ ≤ 2 ^ 53 * 2 ^ (53 + c) := Nat.mul_le_mul_right _ (by omega)
      have hA0 : A ≠ 0 := by
        intro h; rw [h] at hAlo
        have : 0 < 2 ^ (52 + (53 + c)) := by positivity
        omega
      have hbA : bitLen A = 53 + (53 + c) := by
        apply le_antisymm
        · exact (bitLen_le_iff _ _).2 hAhi
        · have := (lt_bitLen_iff A (52 + (53 + c))).2 hAlo
          omega
      rw [hV]
      unfold rndQ
      rw [bitLen_mul_pow A _ hA0, hbA]
      have ee : 53 + (53 + c) + (s + (53 + c)) - (53 + c + 53) = s + (53 + c) := by omega
      rw [ee]
      have ee2 : 53 + c + (s + (53 + c)) = (53 + c) + (s + (53 + c)) := rfl
      rw [roundHalfEven_mul_pow]
      have hdiv : A / 2 ^ (53 + c) = q := by
        rw [hA1]
        have hpp : 0 < 2 ^ (53 + c) := by positivity
        rw [Nat.add_comm, Nat.add_mul_div_right _ _ hpp, Nat.div_eq_of_lt (by omega)]
        simp
      have hmod : A % 2 ^ (53 + c) = (2 ^ 53 - (q + 1)) * 2 ^ c := by
        rw [hA1, Nat.add_comm, Nat.add_mul_mod_self_right, Nat.mod_eq_of_lt (by omega)]
      rw [roundHalfEven_of_lt_half A (53 + c) (by rw [hmod]; exact hrem), hdiv]
      calc q * 2 ^ (s + (53 + c)) = q * 2 ^ s * 2 ^ (53 + c) := by rw [pow_add]; ring
        _ ≤ D * 2 ^ (53 + c) := Nat.mul_le_mul_right _ hqD
    · -- rounded down (or exact)
      have hrhe : roundHalfEven D s = D / 2 ^ s := le_antisymm hdown (roundHalfEven_ge D s)
      rw [hrhe]
      calc rndQ (rv * (D / 2 ^ s * 2 ^ s * 2 ^ (53 + c))) (53 + c)
          ≤ rndQ (D / 2 ^ s * 2 ^ s * 2 ^ (53 + c) * 2 ^ (53 + c)) (53 + c) := by
            apply rndQ_mono
            rw [Nat.mul_comm rv]
            exact Nat.mul_le_mul_left _ (le_trans hr hT)
        _ = D / 2 ^ s * 2 ^ s * 2 ^ (53 + c) := by
            have := rndQ_exact (D / 2 ^ s) (s + (53 + c)) (53 + c) hq1
            rw [pow_add 2 s, ← Nat.mul_assoc] at this
            exact this
        _ ≤ D * 2 ^ (53 + c) := Nat.mul_le_mul_right _ hqD

/-- The product of a float64 in `[0,1)` and `float64(D)`, truncated to an integer,
is at most `D`. -/
theorem toNat_mul_ofNat_le (r : F64) (D : Nat) (hr : r.Representable)
    (h1 : lt r one = true) : toNat (mul r (ofNat D)) ≤ D := by
  have e : (1074 : Nat) = 53 + 1021 := rfl
  have hone : one.val = 2 ^ 1074 := by
    unfold val one
    dsimp only
    rw [Nat.one_mul]
  rw [lt_iff_val, hone] at h1
  rw [toNat_eq, val_mul, val_ofNat]
  rw [e] at h1 ⊢
  have key := rndQ_mul_ofNat_le r.val D 1021 (val_le_of_lt_one r 1021 hr h1)
  exact Nat.div_le_of_le_mul (le_of_le_of_eq key (Nat.mul_comm _ _))

end F64

/-! ### snow/networking/benchlist -/

namespace Benchlist

open benchlist

theorem bench_eq (b : benchlist) (nodeID : NodeID) (now : Int) (r : F64) :
    b.bench nodeID now r = if benchOK b nodeID then benchAdd b nodeID now r else b := by
  unfold bench benchOK withinPortionFloat benchAdd
  by_cases h0 : b.vdrs.GetWeight nodeID = 0
  · rw [if_pos h0, if_neg (fun h => h.1 h0)]
  · rw [if_neg h0]
    unfold Add64
    dsimp only
    by_cases h1 : b.vdrs.SubsetWeight b.benchlistSet + b.vdrs.GetWeight nodeID < 2 ^ 64
    · rw [if_pos h1]
      dsimp only
      by_cases h2 : F64.lt (F64.mul (F64.ofNat b.vdrs.Weight) b.maxPortion)
          (F64.ofNat (b.vdrs.SubsetWeight b.benchlistSet + b.vdrs.GetWeight nodeID)) = true
      · rw [if_pos h2, if_neg]
        intro h
        rw [h2] at h
        exact absurd h.2.2 (by decide)
      · rw [if_neg h2, if_pos ⟨h0, h1, by simpa using h2⟩]
    · rw [if_neg h1, if_neg (fun h => h1 h.2.1)]

theorem RegisterFailure_eq (b : benchlist) (nodeID : NodeID) (now benchNow : Int) (r : F64) :
    b.RegisterFailure nodeID now benchNow r =
      if nodeID ∈ b.benchlistSet then b
      else if (b.threshold ≤ (b.nextStreak nodeID now).consecutive ∧
          (b.nextStreak nodeID now).firstFailure + b.minimumFailingDuration < now) ∧
          benchOK b nodeID then
        benchAdd (withStreak b nodeID now) nodeID benchNow r
      else withStreak b nodeID now := by
  unfold RegisterFailure
  by_cases hn : nodeID ∈ b.benchlistSet
  · rw [if_pos hn, if_pos hn]
  · rw [if_neg hn, if_neg hn]
    dsimp only
    by_cases hc : b.threshold ≤ (b.nextStreak nodeID now).consecutive ∧
        (b.nextStreak nodeID now).firstFailure + b.minimumFailingDuration < now
    · rw [if_pos hc, bench_eq]
      show (if benchOK (withStreak b nodeID now) nodeID
        then benchAdd (withStreak b nodeID now) nodeID benchNow r
        else withStreak b nodeID now) = _
      have e : benchOK (withStreak b nodeID now) nodeID ↔ benchOK b nodeID := Iff.rfl
      by_cases hk : benchOK b nodeID
      · rw [if_pos (e.2 hk), if_pos ⟨hc, hk⟩]
      · rw [if_neg (fun h => hk (e.1 h)), if_neg (fun h => hk h.2)]
    · rw [if_neg hc, if_neg (fun h => hc h.1)]
      rfl

theorem nextStreak_consecutive (b : benchlist) (nodeID : NodeID) (now : Int) :
    (b.nextStreak nodeID now).consecutive
      = wrapInt64 ((loadStreak b.failureStreaks nodeID).consecutive + 1) := by
  unfold nextStreak; dsimp only; split <;> rfl

theorem nextStreak_firstFailure (b : benchlist) (nodeID : NodeID) (now : Int) :
    (b.nextStreak nodeID now).firstFailure
      = (if (loadStreak b.failureStreaks nodeID).firstFailure = 0 then now
        else (loadStreak b.failureStreaks nodeID).firstFailure) := by
  unfold nextStreak; dsimp only; split <;> rfl

theorem mem_setAdd (s : List NodeID) (a x : NodeID) : x ∈ setAdd s a ↔ x ∈ s ∨ x = a := by
  unfold setAdd
  split
  · constructor
    · exact Or.inl
    · rintro (h | h)
      · exact h
      · subst h; assumption
  · simp

theorem mem_setRemove (s : List NodeID) (a x : NodeID) :
    x ∈ setRemove s a ↔ x ∈ s ∧ x ≠ a := by
  simp [setRemove]

/-- C1 (amended): for every state and every node that is not benched,
`RegisterFailure` leaves the node benched iff the failure count after the
increment is at least `threshold`, the clock is strictly after the first failure of
the streak plus `minimumFailingDuration`, the weight of the node is non-zero, the
benched weight plus the weight of the node does not overflow `uint64`, and that
sum, converted to float64, is not greater than `float64(total) * maxPortion`
computed in float64. -/
theorem RegisterFailure_benched_iff (b : benchlist) (nodeID : NodeID) (now benchNow : Int)
    (r : F64) (hn : b.IsBenched nodeID = false) :
    (b.RegisterFailure nodeID now benchNow r).IsBenched nodeID = true ↔
      b.threshold ≤ wrapInt64 ((loadStreak b.failureStreaks nodeID).consecutive + 1) ∧
      (if (loadStreak b.failureStreaks nodeID).firstFailure = 0 then now
        else (loadStreak b.failureStreaks nodeID).firstFailure) + b.minimumFailingDuration < now ∧
      b.vdrs.GetWeight nodeID ≠ 0 ∧
      b.vdrs.SubsetWeight b.benchlistSet + b.vdrs.GetWeight nodeID < 2 ^ 64 ∧
      F64.lt (F64.mul (F64.ofNat b.vdrs.Weight) b.maxPortion)
        (F64.ofNat (b.vdrs.SubsetWeight b.benchlistSet + b.vdrs.GetWeight nodeID)) = false := by
  have hn' : nodeID ∉ b.benchlistSet := by simpa [IsBenched, isBenched] using hn
  rw [← nextStreak_consecutive b nodeID now, ← nextStreak_firstFailure b nodeID now]
  unfold IsBenched isBenched
  rw [RegisterFailure_eq, if_neg hn', decide_eq_true_eq]
  constructor
  · intro h
    split at h
    · rename_i hc
      exact ⟨hc.1.1, hc.1.2, hc.2.1, hc.2.2.1, hc.2.2.2⟩
    · exact absurd h hn'
  · intro h
    rw [if_pos ⟨⟨h.1, h.2.1⟩, h.2.2.1, h.2.2.2.1, h.2.2.2.2⟩]
    exact (mem_setAdd _ _ _).2 (Or.inr rfl)

/-- Witness of `RegisterFailure_benched_iff`: node 1 in `roundingState` at time 2. -/
theorem RegisterFailure_benched_iff_witness :
    (roundingState.RegisterFailure 1 2 2 F64.half).IsBenched 1 = true := by
  refine (RegisterFailure_benched_iff roundingState 1 2 2 F64.half (by decide)).2 ?_
  decide

/-- C1 as stated, with the bound `maxPortion x total` in exact arithmetic, fails on
`roundingState`: node 1 is benched at time 2 although the benched weight `2^52+2`
is above `0.5 * (2^53+3)`; `float64(2^53+3)` is `2^53+4`. -/
theorem RegisterFailure_benched_iff_exact_counterexample :
    roundingState.IsBenched 1 = false ∧
    ¬ ((roundingState.RegisterFailure 1 2 2 F64.half).IsBenched 1 = true ↔
      roundingState.threshold
        ≤ wrapInt64 ((loadStreak roundingState.failureStreaks 1).consecutive + 1) ∧
      (if (loadStreak roundingState.failureStreaks 1).firstFailure = 0 then 2
        else (loadStreak roundingState.failureStreaks 1).firstFailure)
          + roundingState.minimumFailingDuration < 2 ∧
      roundingState.vdrs.GetWeight 1 ≠ 0 ∧
      roundingState.vdrs.SubsetWeight roundingState.benchlistSet
        + roundingState.vdrs.GetWeight 1 < 2 ^ 64 ∧
      withinPortionExact roundingState.maxPortion
        (roundingState.vdrs.SubsetWeight roundingState.benchlistSet
          + roundingState.vdrs.GetWeight 1) roundingState.vdrs.Weight) := by
  decide

theorem wrapInt64_one : wrapInt64 1 = 1 := by decide

/-- C6: `RegisterResponse(node)` deletes the failure streak of `node`, so that the
streak the next `RegisterFailure` computes for it has count 1 and the time of that
call as first failure (and it is what that call stores, unless the node is benched
then or that very call benches it); the benched set, the benched queue, the
notifications, the configuration and the streak of every other node are unchanged,
and `IsBenched` is unchanged for every node. -/
theorem RegisterResponse_frame (b : benchlist) (nodeID : NodeID) :
    (b.RegisterResponse nodeID).failureStreaks nodeID = none ∧
    (∀ now : Int, (b.RegisterResponse nodeID).nextStreak nodeID now = ⟨now, 1⟩) ∧
    (∀ (now benchNow : Int) (r : F64), b.IsBenched nodeID = false →
      ((b.RegisterResponse nodeID).RegisterFailure nodeID now benchNow r).failureStreaks nodeID
          = some ⟨now, 1⟩ ∨
      ((b.RegisterResponse nodeID).RegisterFailure nodeID now benchNow r).IsBenched nodeID
          = true) ∧
    (b.RegisterResponse nodeID).benchlistSet = b.benchlistSet ∧
    (b.RegisterResponse nodeID).benchedQueue = b.benchedQueue ∧
    (b.RegisterResponse nodeID).notifications = b.notifications ∧
    (∀ other : NodeID, other ≠ nodeID →
      (b.RegisterResponse nodeID).failureStreaks other = b.failureStreaks other) ∧
    (∀ other : NodeID, (b.RegisterResponse nodeID).IsBenched other = b.IsBenched other) := by
  have hnext : ∀ now : Int, (b.RegisterResponse nodeID).nextStreak nodeID now = ⟨now, 1⟩ := by
    intro now
    have h : loadStreak (b.RegisterResponse nodeID).failureStreaks nodeID = ⟨0, 0⟩ := by
      simp [RegisterResponse, loadStreak, deleteStreak]
    unfold nextStreak
    rw [h]
    simp [wrapInt64_one]
  refine ⟨by simp [RegisterResponse, deleteStreak], hnext, ?_, rfl, rfl, rfl, ?_, fun _ => rfl⟩
  · intro now benchNow r hnb
    have hn' : nodeID ∉ (b.RegisterResponse nodeID).benchlistSet := by
      simpa [IsBenched, isBenched, RegisterResponse] using hnb
    rw [RegisterFailure_eq, if_neg hn']
    split
    · right
      simp [IsBenched, isBenched, benchAdd, withStreak, mem_setAdd]
    · left
      simp [withStreak, storeStreak, hnext]
  · intro other hne
    simp [RegisterResponse, deleteStreak, hne]

theorem wrapInt64_two : wrapInt64 2 = 2 := by decide

/-- First failure of a node without a streak, `minimumFailingDuration = 0`: the
streak is recorded and the node is not benched, whatever the threshold. -/
theorem RegisterFailure_first (b : benchlist) (nodeID : NodeID) (now benchNow : Int) (r : F64)
    (hmin : b.minimumFailingDuration = 0) (hn : nodeID ∉ b.benchlistSet)
    (hs : b.failureStreaks nodeID = none) :
    b.RegisterFailure nodeID now benchNow r =
      { b with failureStreaks := storeStreak b.failureStreaks nodeID ⟨now, 1⟩ } := by
  have h : b.nextStreak nodeID now = ⟨now, 1⟩ := by
    unfold nextStreak loadStreak
    rw [hs]
    simp [wrapInt64_one]
  rw [RegisterFailure_eq, if_neg hn, h, if_neg]
  · unfold withStreak
    rw [h]
  · intro hc
    have := hc.1.2
    rw [hmin] at this
    simp at this

/-- Second failure of a node whose streak is one failure at the non-zero time `t`,
`threshold = 1`, `minimumFailingDuration = 0`, the clock strictly after `t`: the
node is benched when the three tests of `bench` pass. -/
theorem RegisterFailure_second (b : benchlist) (nodeID : NodeID) (t now benchNow : Int) (r : F64)
    (hthr : b.threshold = 1) (hmin : b.minimumFailingDuration = 0)
    (hn : nodeID ∉ b.benchlistSet) (hs : b.failureStreaks nodeID = some ⟨t, 1⟩)
    (ht0 : t ≠ 0) (ht : t < now) (hok : benchOK b nodeID) :
    b.RegisterFailure nodeID now benchNow r =
      { b with
        benchlistSet := b.benchlistSet ++ [nodeID]
        notifications := b.notifications ++ [Notification.Benched nodeID]
        failureStreaks := deleteStreak (storeStreak b.failureStreaks nodeID ⟨t, 2⟩) nodeID
        benchedQueue := heap.Push b.benchedQueue
          { nodeID := nodeID, benchedUntil := benchedUntilOf b.duration benchNow r, index := 0 } } := by
  have h : b.nextStreak nodeID now = ⟨t, 2⟩ := by
    unfold nextStreak loadStreak
    rw [hs]
    simp [wrapInt64_two, ht0]
  rw [RegisterFailure_eq, if_neg hn, h, if_pos]
  · unfold benchAdd withStreak setAdd
    rw [h]
    simp [hn]
  · refine ⟨⟨?_, ?_⟩, hok⟩
    · show b.threshold ≤ 2
      rw [hthr]; decide
    · show t + b.minimumFailingDuration < now
      rw [hmin]; simpa using ht

theorem SubsetWeight_nil (v : Validators) : v.SubsetWeight [] = 0 := by
  simp [Validators.SubsetWeight]

/-- C3 (amended): with `threshold = 1` and `minimumFailingDuration = 0` a single
`RegisterFailure` call for a node without a failure streak does not bench it (the
clock is not strictly after the first failure); a second call at a strictly later
clock time benches it when its weight is non-zero and the new benched stake passes
the tests of `bench`. With three such validators on a fresh benchlist, no one is
benched after one call each, and all three are after a second call each. -/
theorem threshold_one_benched_on_second_failure :
    (∀ (b : benchlist) (nodeID : NodeID) (t1 t2 bn1 bn2 : Int) (r1 r2 : F64),
      b.threshold = 1 → b.minimumFailingDuration = 0 →
      b.IsBenched nodeID = false → b.failureStreaks nodeID = none →
      b.vdrs.GetWeight nodeID ≠ 0 →
      b.vdrs.SubsetWeight b.benchlistSet + b.vdrs.GetWeight nodeID < 2 ^ 64 →
      F64.lt (F64.mul (F64.ofNat b.vdrs.Weight) b.maxPortion)
        (F64.ofNat (b.vdrs.SubsetWeight b.benchlistSet + b.vdrs.GetWeight nodeID)) = false →
      t1 ≠ 0 → t1 < t2 →
      (b.RegisterFailure nodeID t1 bn1 r1).IsBenched nodeID = false ∧
      ((b.RegisterFailure nodeID t1 bn1 r1).RegisterFailure nodeID t2 bn2 r2).IsBenched nodeID
        = true) ∧
    (∀ (vdrs : Validators) (duration : Int) (p : F64) (b0 : benchlist) (n1 n2 n3 : NodeID)
      (t1 t2 t3 u1 u2 u3 : Int) (x1 x2 x3 y1 y2 y3 : Int) (q1 q2 q3 r1 r2 r3 : F64),
      NewBenchlist vdrs 1 0 duration p = some b0 →
      n1 ≠ n2 → n1 ≠ n3 → n2 ≠ n3 →
      vdrs.GetWeight n1 ≠ 0 → vdrs.GetWeight n2 ≠ 0 → vdrs.GetWeight n3 ≠ 0 →
      vdrs.GetWeight n1 + vdrs.GetWeight n2 + vdrs.GetWeight n3 < 2 ^ 64 →
      F64.lt (F64.mul (F64.ofNat vdrs.Weight) p) (F64.ofNat (vdrs.GetWeight n1)) = false →
      F64.lt (F64.mul (F64.ofNat vdrs.Weight) p)
        (F64.ofNat (vdrs.GetWeight n1 + vdrs.GetWeight n2)) = false →
      F64.lt (F64.mul (F64.ofNat vdrs.Weight) p)
        (F64.ofNat (vdrs.GetWeight n1 + vdrs.GetWeight n2 + vdrs.GetWeight n3)) = false →
      t1 ≠ 0 → t2 ≠ 0 → t3 ≠ 0 → t1 < u1 → t2 < u2 → t3 < u3 →
      (∀ n, (run b0 [Op.RegisterFailure n1 t1 x1 q1, Op.RegisterFailure n2 t2 x2 q2,
          Op.RegisterFailure n3 t3 x3 q3]).IsBenched n = false) ∧
      (∀ n, (run b0 [Op.RegisterFailure n1 t1 x1 q1, Op.RegisterFailure n2 t2 x2 q2,
          Op.RegisterFailure n3 t3 x3 q3, Op.RegisterFailure n1 u1 y1 r1,
          Op.RegisterFailure n2 u2 y2 r2, Op.RegisterFailure n3 u3 y3 r3]).IsBenched n = true
        ↔ n = n1 ∨ n = n2 ∨ n = n3)) := by
  constructor
  · intro b nodeID t1 t2 bn1 bn2 r1 r2 hthr hmin hnb hs hw hov hp ht0 ht
    have hn : nodeID ∉ b.benchlistSet := by simpa [IsBenched, isBenched] using hnb
    rw [RegisterFailure_first b nodeID t1 bn1 r1 hmin hn hs]
    refine ⟨by simpa [IsBenched, isBenched] using hn, ?_⟩
    rw [RegisterFailure_second
      { b with failureStreaks := storeStreak b.failureStreaks nodeID ⟨t1, 1⟩ }
      nodeID t1 t2 bn2 r2 hthr hmin hn (by simp [storeStreak]) ht0 ht ⟨hw, hov, hp⟩]
    simp [IsBenched, isBenched]
  · intro vdrs duration p b0 n1 n2 n3 t1 t2 t3 u1 u2 u3 x1 x2 x3 y1 y2 y3 q1 q2 q3 r1 r2 r3
      hnew h12 h13 h23 hw1 hw2 hw3 hsum hp1 hp2 hp3 ht1 ht2 ht3 hu1 hu2 hu3
    unfold NewBenchlist at hnew
    split at hnew
    · exact absurd hnew (by simp)
    · have hb0 := (Option.some.inj hnew).symm
      subst hb0
      have hlt1 : vdrs.GetWeight n1 < 2 ^ 64 := by omega
      have hlt12 : vdrs.GetWeight n1 + vdrs.GetWeight n2 < 2 ^ 64 := by omega
      simp only [run, List.foldl, step]
      rw [RegisterFailure_first _ n1 t1 x1 q1 rfl (by simp) rfl]
      rw [RegisterFailure_first _ n2 t2 x2 q2 rfl (by simp) (by simp [storeStreak, h12.symm])]
      rw [RegisterFailure_first _ n3 t3 x3 q3 rfl (by simp)
        (by simp [storeStreak, h13.symm, h23.symm])]
      refine ⟨fun n => by simp [IsBenched, isBenched], ?_⟩
      rw [RegisterFailure_second _ n1 t1 u1 y1 r1 rfl rfl (by simp)
        (by simp [storeStreak, h13, h12]) ht1 hu1
        ⟨hw1, by simpa [-Nat.reducePow, SubsetWeight_nil] using hlt1, by
          simpa [withinPortionFloat, SubsetWeight_nil] using hp1⟩]
      have hsw1 : vdrs.SubsetWeight [n1] = vdrs.GetWeight n1 := by
        simp [-Nat.reducePow, Validators.SubsetWeight, Nat.mod_eq_of_lt hlt1]
      rw [RegisterFailure_second _ n2 t2 u2 y2 r2 rfl rfl (by simp [h12.symm])
        (by simp [storeStreak, deleteStreak, h12.symm, h23]) ht2 hu2
        ⟨hw2, by simpa [-Nat.reducePow, hsw1] using hlt12, by
          simpa [withinPortionFloat, hsw1] using hp2⟩]
      have hsw2 : vdrs.SubsetWeight [n1, n2] = vdrs.GetWeight n1 + vdrs.GetWeight n2 := by
        simp [-Nat.reducePow, Validators.SubsetWeight, Nat.mod_eq_of_lt hlt12]
      rw [RegisterFailure_second _ n3 t3 u3 y3 r3 rfl rfl (by simp [h13.symm, h23.symm])
        (by simp [storeStreak, deleteStreak, h13.symm, h23.symm]) ht3 hu3
        ⟨hw3, by simpa [-Nat.reducePow, hsw2] using hsum, by
          simpa [withinPortionFloat, hsw2] using hp3⟩]
      intro n
      simp [IsBenched, isBenched]

/-- Witness of `threshold_one_benched_on_second_failure`: node 1 of `scenarioStart`
with failures at times 5 and 6, and nodes 1, 2, 3 with failures at times 5 then 6. -/
theorem threshold_one_benched_on_second_failure_witness :
    ((scenarioStart.RegisterFailure 1 5 5 F64.half).IsBenched 1 = false ∧
      ((scenarioStart.RegisterFailure 1 5 5 F64.half).RegisterFailure 1 6 6 F64.half).IsBenched 1
        = true) ∧
    (∀ n, (run scenarioStart [Op.RegisterFailure 1 5 5 F64.half,
        Op.RegisterFailure 2 5 5 F64.half, Op.RegisterFailure 3 5 5 F64.half,
        Op.RegisterFailure 1 6 6 F64.half, Op.RegisterFailure 2 6 6 F64.half,
        Op.RegisterFailure 3 6 6 F64.half]).IsBenched n = true ↔ n = 1 ∨ n = 2 ∨ n = 3) :=
  ⟨threshold_one_benched_on_second_failure.1 scenarioStart 1 5 6 5 6 F64.half F64.half
      rfl rfl (by decide) rfl (by decide) (by decide) (by decide) (by decide) (by decide),
   (threshold_one_benched_on_second_failure.2 scenarioValidators 1000 portion99 scenarioStart
      1 2 3 5 5 5 6 6 6 5 5 5 6 6 6 F64.half F64.half F64.half F64.half F64.half F64.half
      rfl (by decide) (by decide) (by decide) (by decide) (by decide) (by decide) (by decide)
      (by decide) (by decide) (by decide) (by decide) (by decide) (by decide) (by decide)
      (by decide) (by decide)).2⟩

/-- C3 as stated fails: on the fresh benchlist `scenarioStart` (`threshold = 1`,
`minimumFailingDuration = 0`, `maxPortion = 0.99`, total weight 100) one
`RegisterFailure` call for validator 1 (weight 10, not benched, 10 is within 0.99 of
100) leaves it not benched, and after one call for each of the validators 1, 2, 3
no one of them is benched. -/
theorem single_failure_not_benched_counterexample :
    NewBenchlist scenarioValidators 1 0 1000 portion99 = some scenarioStart ∧
    scenarioStart.vdrs.GetWeight 1 ≠ 0 ∧
    scenarioStart.IsBenched 1 = false ∧
    withinPortionExact scenarioStart.maxPortion
      (scenarioStart.vdrs.SubsetWeight scenarioStart.benchlistSet
        + scenarioStart.vdrs.GetWeight 1) scenarioStart.vdrs.Weight ∧
    withinPortionFloat scenarioStart.maxPortion
      (scenarioStart.vdrs.SubsetWeight scenarioStart.benchlistSet
        + scenarioStart.vdrs.GetWeight 1) scenarioStart.vdrs.Weight ∧
    (scenarioStart.RegisterFailure 1 5 5 F64.half).IsBenched 1 = false ∧
    (run scenarioStart [Op.RegisterFailure 1 5 5 F64.half, Op.RegisterFailure 2 5 5 F64.half,
      Op.RegisterFailure 3 5 5 F64.half]).benchlistSet = [] :=
  ⟨rfl, by decide, by decide, by decide, by decide, by decide, by decide⟩

end Benchlist

namespace Benchlist

namespace benchedQueue

theorem item_eq_getElem (bq : benchedQueue) (k : Nat) (hk : k < bq.length) :
    item bq k = bq[k] := by
  unfold item
  exact List.getD_eq_getElem bq default hk

theorem item_set (bq : benchedQueue) (i k : Nat) (x : benchData) (hi : i < bq.length) :
    item (bq.set i x) k = if k = i then x else item bq k := by
  unfold item
  rw [List.getD_eq_getElem?_getD, List.getD_eq_getElem?_getD, List.getElem?_set]
  by_cases h : i = k
  · subst h
    simp [hi]
  · have h' : ¬ k = i := fun e => h e.symm
    simp [h, h']

theorem length_Swap (bq : benchedQueue) (i j : Nat) : (Swap bq i j).length = bq.length := by
  simp [Swap]

theorem item_Swap (bq : benchedQueue) (i j k : Nat) (hi : i < bq.length) (hj : j < bq.length) :
    item (Swap bq i j) k =
      if k = j then { item bq i with index := j }
      else if k = i then { item bq j with index := i }
      else item bq k := by
  unfold Swap
  rw [item_set _ _ _ _ (by simpa using hj), item_set _ _ _ _ hi]

theorem until_Swap (bq : benchedQueue) (i j k : Nat) (hi : i < bq.length) (hj : j < bq.length) :
    (item (Swap bq i j) k).benchedUntil =
      if k = j then (item bq i).benchedUntil
      else if k = i then (item bq j).benchedUntil
      else (item bq k).benchedUntil := by
  rw [item_Swap bq i j k hi hj]
  split
  · rfl
  · split <;> rfl

theorem nodeID_Swap (bq : benchedQueue) (i j k : Nat) (hi : i < bq.length) (hj : j < bq.length) :
    (item (Swap bq i j) k).nodeID =
      if k = j then (item bq i).nodeID
      else if k = i then (item bq j).nodeID
      else (item bq k).nodeID := by
  rw [item_Swap bq i j k hi hj]
  split
  · rfl
  · split <;> rfl

theorem index_Swap (bq : benchedQueue) (i j k : Nat) (hi : i < bq.length) (hj : j < bq.length) :
    (item (Swap bq i j) k).index =
      if k = j then j else if k = i then i else (item bq k).index := by
  rw [item_Swap bq i j k hi hj]
  split
  · rfl
  · split <;> rfl

theorem swapIdx_lt (i j a m : Nat) (hi : i < m) (hj : j < m) (ha : a < m) :
    swapIdx i j a < m := by
  unfold swapIdx; split_ifs <;> omega

theorem swapIdx_inj (i j a b : Nat) (h : swapIdx i j a = swapIdx i j b) : a = b := by
  unfold swapIdx at h; split_ifs at h <;> omega

theorem swapIdx_swapIdx (i j a : Nat) : swapIdx i j (swapIdx i j a) = a := by
  unfold swapIdx; split_ifs <;> omega

theorem nodeID_Swap_idx (bq : benchedQueue) (i j k : Nat) (hi : i < bq.length)
    (hj : j < bq.length) :
    (item (Swap bq i j) k).nodeID = (item bq (swapIdx i j k)).nodeID := by
  rw [nodeID_Swap bq i j k hi hj]; unfold swapIdx; split_ifs <;> rfl

theorem until_Swap_idx (bq : benchedQueue) (i j k : Nat) (hi : i < bq.length)
    (hj : j < bq.length) :
    (item (Swap bq i j) k).benchedUntil = (item bq (swapIdx i j k)).benchedUntil := by
  rw [until_Swap bq i j k hi hj]; unfold swapIdx; split_ifs <;> rfl

theorem Holds_Swap (bq : benchedQueue) (i j m : Nat) (n : NodeID) (t : Int)
    (hi : i < m) (hj : j < m) (hm : m ≤ bq.length) :
    Holds (Swap bq i j) m n t ↔ Holds bq m n t := by
  have hi' : i < bq.length := by omega
  have hj' : j < bq.length := by omega
  constructor
  · rintro ⟨a, ha, h1, h2⟩
    rw [nodeID_Swap_idx bq i j a hi' hj'] at h1
    rw [until_Swap_idx bq i j a hi' hj'] at h2
    exact ⟨swapIdx i j a, swapIdx_lt i j a m hi hj ha, h1, h2⟩
  · rintro ⟨a, ha, h1, h2⟩
    refine ⟨swapIdx i j a, swapIdx_lt i j a m hi hj ha, ?_, ?_⟩
    · rw [nodeID_Swap_idx bq i j _ hi' hj', swapIdx_swapIdx]; exact h1
    · rw [until_Swap_idx bq i j _ hi' hj', swapIdx_swapIdx]; exact h2

theorem IdsInj_Swap (bq : benchedQueue) (i j m : Nat)
    (hi : i < m) (hj : j < m) (hm : m ≤ bq.length) (h : IdsInj bq m) :
    IdsInj (Swap bq i j) m := by
  have hi' : i < bq.length := by omega
  have hj' : j < bq.length := by omega
  intro a b ha hb hab
  rw [nodeID_Swap_idx bq i j a hi' hj', nodeID_Swap_idx bq i j b hi' hj'] at hab
  exact swapIdx_inj i j a b
    (h _ _ (swapIdx_lt i j a m hi hj ha) (swapIdx_lt i j b m hi hj hb) hab)

theorem IndexOK_Swap (bq : benchedQueue) (i j : Nat) (hi : i < bq.length) (hj : j < bq.length)
    (h : IndexOK bq) : IndexOK (Swap bq i j) := by
  intro a ha
  rw [length_Swap] at ha
  rw [index_Swap bq i j a hi hj]
  split
  · omega
  · split
    · omega
    · exact h a ha

theorem item_Swap_of_ne (bq : benchedQueue) (i j k : Nat) (hi : i < bq.length)
    (hj : j < bq.length) (hki : k ≠ i) (hkj : k ≠ j) : item (Swap bq i j) k = item bq k := by
  rw [item_Swap bq i j k hi hj, if_neg hkj, if_neg hki]

end benchedQueue

end Benchlist

namespace Benchlist

namespace heap

open benchedQueue

theorem downAux_succ (fuel : Nat) (bq : benchedQueue) (i n : Nat) :
    downAux (fuel + 1) bq i n =
      if n ≤ 2 * i + 1 then (bq, i)
      else if Less bq (minChild bq i n) i = false then (bq, i)
      else downAux fuel (Swap bq i (minChild bq i n)) (minChild bq i n) n := rfl

theorem upAux_succ (fuel : Nat) (bq : benchedQueue) (j : Nat) :
    upAux (fuel + 1) bq j =
      if (j - 1) / 2 = j ∨ Less bq j ((j - 1) / 2) = false then bq
      else upAux fuel (Swap bq ((j - 1) / 2) j) ((j - 1) / 2) := rfl

theorem Less_iff (bq : benchedQueue) (i j : Nat) :
    Less bq i j = true ↔ (item bq i).benchedUntil < (item bq j).benchedUntil := by
  simp [Less]

theorem Less_false_iff (bq : benchedQueue) (i j : Nat) :
    Less bq i j = false ↔ (item bq j).benchedUntil ≤ (item bq i).benchedUntil := by
  simp [Less]

theorem minChild_spec (bq : benchedQueue) (i n : Nat) (h1 : ¬ n ≤ 2 * i + 1) :
    minChild bq i n < n ∧ (minChild bq i n = 2 * i + 1 ∨ minChild bq i n = 2 * i + 2) ∧
    (item bq (minChild bq i n)).benchedUntil ≤ (item bq (2 * i + 1)).benchedUntil ∧
    (2 * i + 2 < n →
      (item bq (minChild bq i n)).benchedUntil ≤ (item bq (2 * i + 2)).benchedUntil) := by
  unfold minChild
  by_cases hc : 2 * i + 1 + 1 < n ∧ Less bq (2 * i + 1 + 1) (2 * i + 1) = true
  · rw [if_pos hc]
    have := (Less_iff _ _ _).1 hc.2
    exact ⟨hc.1, Or.inr rfl, le_of_lt this, fun _ => le_refl _⟩
  · rw [if_neg hc]
    refine ⟨by omega, Or.inl rfl, le_refl _, fun h2 => ?_⟩
    have h3 : ¬ Less bq (2 * i + 1 + 1) (2 * i + 1) = true := fun h => hc ⟨h2, h⟩
    exact (Less_false_iff _ _ _).1 (by simpa using h3)

theorem upAux_ind (Q : benchedQueue → Prop) (n : Nat)
    (hQ : ∀ bq i j, Q bq → i < n → j < n → Q (Swap bq i j)) :
    ∀ (fuel : Nat) (bq : benchedQueue) (j : Nat), j < n → Q bq → Q (upAux fuel bq j) := by
  intro fuel
  induction fuel with
  | zero => intro bq j _ h; exact h
  | succ fuel ih =>
    intro bq j hj h
    rw [upAux_succ]
    split
    · exact h
    · exact ih _ _ (by omega) (hQ _ _ _ h (by omega) hj)

theorem downAux_ind (Q : benchedQueue → Prop) (n : Nat)
    (hQ : ∀ bq i j, Q bq → i < n → j < n → Q (Swap bq i j)) :
    ∀ (fuel : Nat) (bq : benchedQueue) (i : Nat), i < n → Q bq → Q (downAux fuel bq i n).1 := by
  intro fuel
  induction fuel with
  | zero => intro bq i _ h; exact h
  | succ fuel ih =>
    intro bq i hi h
    rw [downAux_succ]
    by_cases h1 : n ≤ 2 * i + 1
    · rw [if_pos h1]; exact h
    · rw [if_neg h1]
      have hj := (minChild_spec bq i n h1).1
      split
      · exact h
      · exact ih _ _ hj (hQ _ _ _ h hi hj)

/-- Enough iterations: more of them do not change the result of `up`. -/
theorem upAux_fuel : ∀ (fuel : Nat) (bq : benchedQueue) (j : Nat), j ≤ fuel →
    ∀ more, upAux (fuel + more) bq j = upAux fuel bq j := by
  intro fuel
  induction fuel with
  | zero =>
    intro bq j hj more
    have : j = 0 := by omega
    subst this
    cases more with
    | zero => rfl
    | succ more => simp [upAux]
  | succ fuel ih =>
    intro bq j hj more
    have e : fuel + 1 + more = (fuel + more) + 1 := by omega
    rw [e, upAux_succ, upAux_succ]
    split
    · rfl
    · rename_i h
      apply ih
      have : (j - 1) / 2 ≠ j := fun e => h (Or.inl e)
      omega

/-- Enough iterations: more of them do not change the result of `down`. -/
theorem downAux_fuel : ∀ (fuel : Nat) (bq : benchedQueue) (i n : Nat), n ≤ i + fuel →
    ∀ more, downAux (fuel + more) bq i n = downAux fuel bq i n := by
  intro fuel
  induction fuel with
  | zero =>
    intro bq i n hn more
    cases more with
    | zero => rfl
    | succ more =>
      have h : n ≤ 2 * i + 1 := by omega
      simp [downAux, h]
  | succ fuel ih =>
    intro bq i n hn more
    have e : fuel + 1 + more = (fuel + more) + 1 := by omega
    rw [e, downAux_succ, downAux_succ]
    by_cases h1 : n ≤ 2 * i + 1
    · rw [if_pos h1, if_pos h1]
    · rw [if_neg h1, if_neg h1]
      split
      · rfl
      · apply ih
        have := (minChild_spec bq i n h1).2.1
        omega

theorem downAux_heap : ∀ (fuel : Nat) (bq : benchedQueue) (i n : Nat),
    n ≤ bq.length → n ≤ i + fuel → DownInv bq i n → HeapUpTo (downAux fuel bq i n).1 n := by
  intro fuel
  induction fuel with
  | zero =>
    intro bq i n _ hf hinv k hk0 hkn
    exact hinv.1 k hk0 hkn (by omega)
  | succ fuel ih =>
    intro bq i n hlen hf hinv
    rw [downAux_succ]
    by_cases h1 : n ≤ 2 * i + 1
    · rw [if_pos h1]
      intro k hk0 hkn
      exact hinv.1 k hk0 hkn (by omega)
    · rw [if_neg h1]
      obtain ⟨hjn, hjc, hj1, hj2⟩ := minChild_spec bq i n h1
      generalize minChild bq i n = j at hjn hjc hj1 hj2 ⊢
      by_cases hl : Less bq j i = false
      · rw [if_pos hl]
        have hl' := (Less_false_iff _ _ _).1 hl
        intro k hk0 hkn
        by_cases hp : (k - 1) / 2 = i
        · rw [hp]
          have hk : k = 2 * i + 1 ∨ k = 2 * i + 2 := by omega
          rcases hk with hk | hk
          · subst hk; exact le_trans hl' hj1
          · subst hk; exact le_trans hl' (hj2 hkn)
        · exact hinv.1 k hk0 hkn hp
      · rw [if_neg hl]
        have hl' : (item bq j).benchedUntil < (item bq i).benchedUntil := by
          have : Less bq j i = true := by simpa using hl
          exact (Less_iff _ _ _).1 this
        have hi' : i < bq.length := by omega
        have hj' : j < bq.length := by omega
        have hij : i ≠ j := by omega
        apply ih
        · rw [length_Swap]; exact hlen
        · omega
        · constructor
          · intro k hk0 hkn hpk
            rw [until_Swap bq i j _ hi' hj', until_Swap bq i j _ hi' hj']
            by_cases hp : (k - 1) / 2 = i
            · have hk : k = 2 * i + 1 ∨ k = 2 * i + 2 := by omega
              rw [hp, if_neg hij, if_pos rfl]
              by_cases hkj : k = j
              · rw [if_pos hkj]; exact le_of_lt hl'
              · rw [if_neg hkj, if_neg (by omega)]
                rcases hk with hk | hk
                · subst hk; exact hj1
                · subst hk; exact hj2 hkn
            · rw [if_neg hpk, if_neg hp]
              have hkj : k ≠ j := by omega
              rw [if_neg hkj]
              by_cases hki : k = i
              · rw [if_pos hki]
                subst hki
                exact hinv.2 hk0 j (by omega) hjn (by omega)
              · rw [if_neg hki]
                exact hinv.1 k hk0 hkn hp
          · intro _ k hk0 hkn hpk
            rw [until_Swap bq i j _ hi' hj', until_Swap bq i j _ hi' hj']
            have e : (j - 1) / 2 = i := by omega
            rw [e, if_neg hij, if_pos rfl, if_neg (by omega), if_neg (by omega)]
            have := hinv.1 k hk0 hkn (by omega)
            rw [hpk] at this
            exact this

theorem upAux_heap : ∀ (fuel : Nat) (bq : benchedQueue) (j n : Nat),
    n ≤ bq.length → j < n → j ≤ fuel → UpInv bq j n → HeapUpTo (upAux fuel bq j) n := by
  intro fuel
  induction fuel with
  | zero =>
    intro bq j n _ _ hf hinv k hk0 hkn
    exact hinv.1 k hk0 hkn (by omega)
  | succ fuel ih =>
    intro bq j n hlen hjn hf hinv
    rw [upAux_succ]
    by_cases h1 : (j - 1) / 2 = j ∨ Less bq j ((j - 1) / 2) = false
    · rw [if_pos h1]
      intro k hk0 hkn
      by_cases hkj : k = j
      · subst hkj
        rcases h1 with h1 | h1
        · omega
        · exact (Less_false_iff _ _ _).1 h1
      · exact hinv.1 k hk0 hkn hkj
    · rw [if_neg h1]
      have hj0 : 0 < j := by
        rcases Nat.eq_zero_or_pos j with h | h
        · exact absurd (Or.inl (by omega)) h1
        · exact h
      have hl' : (item bq j).benchedUntil < (item bq ((j - 1) / 2)).benchedUntil := by
        have : Less bq j ((j - 1) / 2) = true := by
          have := fun h => h1 (Or.inr h)
          simpa using this
        exact (Less_iff _ _ _).1 this
      have hi' : (j - 1) / 2 < bq.length := by omega
      have hj' : j < bq.length := by omega
      have hij : (j - 1) / 2 ≠ j := by omega
      apply ih
      · rw [length_Swap]; exact hlen
      · omega
      · omega
      · constructor
        · intro k hk0 hkn hki
          rw [until_Swap bq _ j _ hi' hj', until_Swap bq _ j _ hi' hj']
          by_cases hkj : k = j
          · subst hkj
            rw [if_pos rfl, if_neg hij, if_pos rfl]
            exact le_of_lt hl'
          · rw [if_neg hkj, if_neg hki]
            by_cases hp : (k - 1) / 2 = j
            · rw [if_pos hp]
              exact hinv.2 hj0 k hk0 hkn hp
            · rw [if_neg hp]
              by_cases hp2 : (k - 1) / 2 = (j - 1) / 2
              · rw [if_pos hp2]
                have := hinv.1 k hk0 hkn hkj
                rw [hp2] at this
                exact le_trans (le_of_lt hl') this
              · rw [if_neg hp2]
                exact hinv.1 k hk0 hkn hkj
        · intro hi0 k hk0 hkn hpk
          rw [until_Swap bq _ j _ hi' hj', until_Swap bq _ j _ hi' hj']
          have hpi : ((j - 1) / 2 - 1) / 2 ≠ j := by omega
          have hpi2 : ((j - 1) / 2 - 1) / 2 ≠ (j - 1) / 2 := by omega
          rw [if_neg hpi, if_neg hpi2]
          have hparent := hinv.1 ((j - 1) / 2) hi0 (by omega) hij
          by_cases hkj : k = j
          · rw [if_pos hkj]
            exact hparent
          · rw [if_neg hkj, if_neg (by omega)]
            have := hinv.1 k hk0 hkn hkj
            rw [hpk] at this
            exact le_trans hparent this

end heap

end Benchlist

namespace Benchlist

namespace benchedQueue

theorem item_Push (bq : benchedQueue) (x : benchData) (k : Nat) :
    item (Push bq x) k = if k = bq.length then { x with index := bq.length } else item bq k := by
  unfold item Push
  rw [List.getD_eq_getElem?_getD, List.getD_eq_getElem?_getD, List.getElem?_append]
  by_cases h1 : k < bq.length
  · rw [if_pos h1, if_neg (by omega)]
  · rw [if_neg h1]
    by_cases h2 : k = bq.length
    · subst h2; simp
    · rw [if_neg h2, List.getElem?_eq_none (show bq.length ≤ k by omega)]
      have : ([{ x with index := bq.length }] : List benchData)[k - bq.length]? = none := by
        apply List.getElem?_eq_none
        simp only [List.length_singleton]
        omega
      rw [this]

theorem length_Push (bq : benchedQueue) (x : benchData) :
    (Push bq x).length = bq.length + 1 := by
  simp [Push]

theorem length_Pop (bq : benchedQueue) : (Pop bq).length = bq.length - 1 := by
  simp [Pop]

theorem item_Pop (bq : benchedQueue) (k : Nat) (hk : k < bq.length - 1) :
    item (Pop bq) k = item bq k := by
  unfold item Pop
  rw [List.getD_eq_getElem?_getD, List.getD_eq_getElem?_getD, List.getElem?_dropLast, if_pos hk]

theorem QueueOK_nil : QueueOK [] :=
  ⟨fun a _ ha => absurd ha (by simp), fun a ha => absurd ha (by simp),
   fun k _ hk => absurd hk (by simp)⟩

/-- The first entry of a heap ends first. -/
theorem HeapUpTo_root_le (bq : benchedQueue) (n : Nat) (h : HeapUpTo bq n) :
    ∀ k, k < n → (item bq 0).benchedUntil ≤ (item bq k).benchedUntil := by
  intro k
  induction k using Nat.strong_induction_on with
  | _ k ih =>
    intro hk
    rcases Nat.eq_zero_or_pos k with h0 | h0
    · subst h0; exact le_refl _
    · exact le_trans (ih ((k - 1) / 2) (by omega) (by omega)) (h k h0 hk)

end benchedQueue

end Benchlist

namespace Benchlist

namespace heap

open benchedQueue

theorem up_zero (bq : benchedQueue) : up bq 0 = bq := rfl

/-- `heap.Push` adds the entry and keeps the queue a well-formed heap. -/
theorem Push_spec (bq : benchedQueue) (x : benchData) (hq : QueueOK bq)
    (hx : ∀ a, a < bq.length → (item bq a).nodeID ≠ x.nodeID) :
    (Push bq x).length = bq.length + 1 ∧ QueueOK (Push bq x) ∧
    ∀ n t, Holds (Push bq x) (bq.length + 1) n t ↔
      (Holds bq bq.length n t ∨ (n = x.nodeID ∧ t = x.benchedUntil)) := by
  have hlen1 := length_Push bq x
  -- the queue after Go `Push`
  have hids1 : IdsInj (benchedQueue.Push bq x) (bq.length + 1) := by
    intro a b ha hb hab
    rw [item_Push, item_Push] at hab
    by_cases e1 : a = bq.length <;> by_cases e2 : b = bq.length
    · omega
    · rw [if_pos e1, if_neg e2] at hab
      exact absurd hab.symm (hx b (by omega))
    · rw [if_neg e1, if_pos e2] at hab
      exact absurd hab (hx a (by omega))
    · rw [if_neg e1, if_neg e2] at hab
      exact hq.ids a b (by omega) (by omega) hab
  have hidx1 : IndexOK (benchedQueue.Push bq x) := by
    intro a ha
    rw [hlen1] at ha
    rw [item_Push]
    by_cases e1 : a = bq.length
    · rw [if_pos e1, e1]
    · rw [if_neg e1]; exact hq.index a (by omega)
  have hholds1 : ∀ n t, Holds (benchedQueue.Push bq x) (bq.length + 1) n t ↔
      (Holds bq bq.length n t ∨ (n = x.nodeID ∧ t = x.benchedUntil)) := by
    intro n t
    constructor
    · rintro ⟨a, ha, h1, h2⟩
      rw [item_Push] at h1 h2
      by_cases e1 : a = bq.length
      · rw [if_pos e1] at h1 h2
        exact Or.inr ⟨h1.symm, h2.symm⟩
      · rw [if_neg e1] at h1 h2
        exact Or.inl ⟨a, by omega, h1, h2⟩
    · rintro (⟨a, ha, h1, h2⟩ | ⟨h1, h2⟩)
      · refine ⟨a, by omega, ?_, ?_⟩
        · rw [item_Push, if_neg (by omega)]; exact h1
        · rw [item_Push, if_neg (by omega)]; exact h2
      · refine ⟨bq.length, by omega, ?_, ?_⟩
        · rw [item_Push, if_pos rfl]; exact h1.symm
        · rw [item_Push, if_pos rfl]; exact h2.symm
  have hup1 : UpInv (benchedQueue.Push bq x) bq.length (bq.length + 1) := by
    constructor
    · intro k hk0 hkn hk
      rw [item_Push, item_Push, if_neg (by omega), if_neg hk]
      exact hq.heap k hk0 (by omega)
    · intro _ k hk0 hkn hp
      omega
  -- the loop of `up` keeps all of it
  have key := upAux_ind
    (fun q => q.length = bq.length + 1 ∧ IdsInj q (bq.length + 1) ∧ IndexOK q ∧
      ∀ n t, Holds q (bq.length + 1) n t ↔ Holds (benchedQueue.Push bq x) (bq.length + 1) n t)
    (bq.length + 1)
    (by
      intro q i j ⟨h1, h2, h3, h4⟩ hi hj
      refine ⟨by rw [length_Swap]; exact h1, IdsInj_Swap q i j _ hi hj (by omega) h2,
        IndexOK_Swap q i j (by omega) (by omega) h3, fun n t => ?_⟩
      rw [Holds_Swap q i j _ n t hi hj (by omega)]
      exact h4 n t)
    bq.length (benchedQueue.Push bq x) bq.length (by omega)
    ⟨hlen1, hids1, hidx1, fun _ _ => Iff.rfl⟩
  have hheap := upAux_heap bq.length (benchedQueue.Push bq x) bq.length (bq.length + 1)
    (by omega) (by omega) (le_refl _) hup1
  have e : Push bq x = upAux bq.length (benchedQueue.Push bq x) bq.length := by
    unfold Push up Len
    rw [hlen1]
    rfl
  rw [e]
  obtain ⟨k1, k2, k3, k4⟩ := key
  refine ⟨k1, ⟨by rw [k1]; exact k2, k3, by rw [k1]; exact hheap⟩, fun n t => ?_⟩
  rw [k4 n t]
  exact hholds1 n t

/-- `heap.Remove` at position 0 removes the first entry and keeps the queue a
well-formed heap. -/
theorem Remove_zero_spec (bq : benchedQueue) (hq : QueueOK bq) (hne : 0 < bq.length) :
    (Remove bq 0).length = bq.length - 1 ∧ QueueOK (Remove bq 0) ∧
    ∀ n t, Holds (Remove bq 0) (bq.length - 1) n t ↔
      (Holds bq bq.length n t ∧ n ≠ (item bq 0).nodeID) := by
  by_cases h1 : bq.length - 1 = 0
  · -- a single entry
    have e : Remove bq 0 = Pop bq := by
      unfold Remove Len
      dsimp only
      rw [if_neg (by simpa using h1)]
    rw [e]
    have hl : (Pop bq).length = 0 := by rw [length_Pop]; exact h1
    refine ⟨by rw [length_Pop], ⟨fun a _ ha => by omega, fun a ha => by omega,
      fun k _ hk => by omega⟩, fun n t => ?_⟩
    constructor
    · rintro ⟨a, ha, _⟩; omega
    · rintro ⟨⟨a, ha, h2, _⟩, h3⟩
      have : a = 0 := by omega
      subst this
      exact absurd h2.symm h3
  · have hn : bq.length - 1 < bq.length := by omega
    have e : Remove bq 0 = Pop (downAux (bq.length - 1) (Swap bq 0 (bq.length - 1)) 0
        (bq.length - 1)).1 := by
      unfold Remove Len down
      dsimp only
      rw [if_pos h1]
      split <;> rfl
    -- the queue after the first `Swap`
    have hit : ∀ k, item (Swap bq 0 (bq.length - 1)) k =
        if k = bq.length - 1 then { item bq 0 with index := bq.length - 1 }
        else if k = 0 then { item bq (bq.length - 1) with index := 0 }
        else item bq k := fun k => item_Swap bq 0 _ k hne hn
    have hholds1 : ∀ n t, Holds (Swap bq 0 (bq.length - 1)) (bq.length - 1) n t ↔
        (Holds bq bq.length n t ∧ n ≠ (item bq 0).nodeID) := by
      intro n t
      constructor
      · rintro ⟨a, ha, h2, h3⟩
        rw [hit] at h2 h3
        rw [if_neg (by omega)] at h2 h3
        by_cases e0 : a = 0
        · rw [if_pos e0] at h2 h3
          refine ⟨⟨bq.length - 1, hn, h2, h3⟩, fun h => ?_⟩
          have := hq.ids (bq.length - 1) 0 hn hne (by rw [← h]; exact h2)
          omega
        · rw [if_neg e0] at h2 h3
          refine ⟨⟨a, by omega, h2, h3⟩, fun h => ?_⟩
          have := hq.ids a 0 (by omega) hne (by rw [← h]; exact h2)
          omega
      · rintro ⟨⟨a, ha, h2, h3⟩, h4⟩
        have ha0 : a ≠ 0 := by
          intro h; subst h; exact h4 h2.symm
        by_cases e1 : a = bq.length - 1
        · refine ⟨0, by omega, ?_, ?_⟩
          · rw [hit, if_neg (by omega), if_pos rfl, ← e1]; exact h2
          · rw [hit, if_neg (by omega), if_pos rfl, ← e1]; exact h3
        · refine ⟨a, by omega, ?_, ?_⟩
          · rw [hit, if_neg e1, if_neg ha0]; exact h2
          · rw [hit, if_neg e1, if_neg ha0]; exact h3
    have hids1 : IdsInj (Swap bq 0 (bq.length - 1)) (bq.length - 1) := by
      intro a b ha hb hab
      exact IdsInj_Swap bq 0 (bq.length - 1) bq.length hne hn (le_refl _) hq.ids a b
        (by omega) (by omega) hab
    have hidx1 : IndexOK (Swap bq 0 (bq.length - 1)) := IndexOK_Swap bq 0 _ hne hn hq.index
    have hdown1 : DownInv (Swap bq 0 (bq.length - 1)) 0 (bq.length - 1) := by
      constructor
      · intro k hk0 hkn hp
        rw [hit, hit, if_neg (by omega), if_neg hp, if_neg (by omega), if_neg (by omega)]
        exact hq.heap k hk0 (by omega)
      · intro h; omega
    have key := downAux_ind
      (fun q => q.length = bq.length ∧ IdsInj q (bq.length - 1) ∧ IndexOK q ∧
        ∀ n t, Holds q (bq.length - 1) n t ↔
          Holds (Swap bq 0 (bq.length - 1)) (bq.length - 1) n t)
      (bq.length - 1)
      (by
        intro q i j ⟨k1, k2, k3, k4⟩ hi hj
        refine ⟨by rw [length_Swap]; exact k1, IdsInj_Swap q i j _ hi hj (by omega) k2,
          IndexOK_Swap q i j (by omega) (by omega) k3, fun n t => ?_⟩
        rw [Holds_Swap q i j _ n t hi hj (by omega)]
        exact k4 n t)
      (bq.length - 1) (Swap bq 0 (bq.length - 1)) 0 (by omega)
      ⟨length_Swap _ _ _, hids1, hidx1, fun _ _ => Iff.rfl⟩
    have hheap := downAux_heap (bq.length - 1) (Swap bq 0 (bq.length - 1)) 0 (bq.length - 1)
      (by rw [length_Swap]; omega) (by omega) hdown1
    rw [e]
    generalize (downAux (bq.length - 1) (Swap bq 0 (bq.length - 1)) 0 (bq.length - 1)).1 = q
      at key hheap
    obtain ⟨k1, k2, k3, k4⟩ := key
    have hl : (Pop q).length = bq.length - 1 := by rw [length_Pop, k1]
    have hitem : ∀ k, k < bq.length - 1 → item (Pop q) k = item q k :=
      fun k hk => item_Pop q k (by rw [k1]; exact hk)
    refine ⟨hl, ⟨?_, ?_, ?_⟩, fun n t => ?_⟩
    · rw [hl]
      intro a b ha hb hab
      rw [hitem a ha, hitem b hb] at hab
      exact k2 a b ha hb hab
    · intro a ha
      rw [hl] at ha
      rw [hitem a ha]
      exact k3 a (by omega)
    · rw [hl]
      intro k hk0 hkn
      rw [hitem k hkn, hitem _ (by omega)]
      exact hheap k hk0 hkn
    · rw [← hholds1 n t, ← k4 n t]
      constructor
      · rintro ⟨a, ha, h2, h3⟩
        rw [hitem a ha] at h2 h3
        exact ⟨a, ha, h2, h3⟩
      · rintro ⟨a, ha, h2, h3⟩
        refine ⟨a, ha, ?_, ?_⟩
        · rw [hitem a ha]; exact h2
        · rw [hitem a ha]; exact h3

end heap

end Benchlist

namespace Benchlist

theorem withinPortionFloat_mono (p : F64) (x y total : Nat) (h : x ≤ y)
    (hy : withinPortionFloat p y total) : withinPortionFloat p x total := by
  unfold withinPortionFloat at hy ⊢
  rw [F64.lt_false_iff_val] at hy ⊢
  exact le_trans (F64.val_ofNat_mono x y h) hy

theorem withinPortionFloat_zero (p : F64) (total : Nat) : withinPortionFloat p 0 total := by
  unfold withinPortionFloat
  rw [F64.lt_false_iff_val, F64.val_ofNat_zero]
  exact Nat.zero_le _

end Benchlist

namespace Benchlist

open benchlist benchedQueue

theorem alternation_succ (k : Nat) :
    alternation (k + 1) = alternation k ++ [decide (k % 2 = 0)] := by
  simp [alternation, List.range_succ]

theorem length_alternation (k : Nat) : (alternation k).length = k := by
  simp [alternation]

theorem notesOf_append (n : NodeID) (l1 l2 : List Notification) :
    notesOf n (l1 ++ l2) = notesOf n l1 ++ notesOf n l2 := by
  simp [notesOf, List.filterMap_append]

theorem notesOf_Benched (n m : NodeID) :
    notesOf n [Notification.Benched m] = if m = n then [true] else [] := by
  unfold notesOf
  by_cases h : m = n <;> simp [List.filterMap_cons, h]

theorem notesOf_Unbenched (n m : NodeID) :
    notesOf n [Notification.Unbenched m] = if m = n then [false] else [] := by
  unfold notesOf
  by_cases h : m = n <;> simp [List.filterMap_cons, h]

theorem SubsetWeight_eq_sum (v : Validators) (s : List NodeID)
    (h : (s.map v.GetWeight).sum < 2 ^ 64) : v.SubsetWeight s = (s.map v.GetWeight).sum :=
  Nat.mod_eq_of_lt h

theorem sum_filter_le (f : NodeID → Nat) (p : NodeID → Bool) (s : List NodeID) :
    ((s.filter p).map f).sum ≤ (s.map f).sum := by
  induction s with
  | nil => simp
  | cons a s ih =>
    rw [List.filter_cons]
    split
    · simp only [List.map_cons, List.sum_cons]; omega
    · simp only [List.map_cons, List.sum_cons]; omega

theorem Inv_fresh (validators : Validators) (threshold minimumFailingDuration duration : Int)
    (maxPortion : F64) (b0 : benchlist)
    (h : NewBenchlist validators threshold minimumFailingDuration duration maxPortion = some b0) :
    Inv b0 := by
  unfold NewBenchlist at h
  split at h
  · exact absurd h (by simp)
  · have e := (Option.some.inj h).symm
    subst e
    refine ⟨QueueOK_nil, List.nodup_nil, fun n => ?_, by simp, ?_, fun n => ?_⟩
    · constructor
      · intro h; exact absurd h (List.not_mem_nil n)
      · rintro ⟨t, a, ha, _⟩; exact absurd ha (by simp)
    · rw [SubsetWeight_nil]; exact withinPortionFloat_zero _ _
    · simp [notesOf, alternation]

theorem Inv_benchAdd (b : benchlist) (nodeID : NodeID) (now : Int) (r : F64) (hinv : Inv b)
    (hn : nodeID ∉ b.benchlistSet) (hok : benchOK b nodeID) :
    Inv (benchAdd b nodeID now r) := by
  obtain ⟨hq, hnd, hmem, hw, hp, hnotes⟩ := hinv
  have hx : ∀ a, a < b.benchedQueue.length → (item b.benchedQueue a).nodeID ≠ nodeID := by
    intro a ha e
    exact hn ((hmem nodeID).2 ⟨_, a, ha, e, rfl⟩)
  obtain ⟨hlen, hq', hholds⟩ := heap.Push_spec b.benchedQueue
    { nodeID := nodeID, benchedUntil := benchedUntilOf b.duration now r, index := 0 } hq hx
  have hset : setAdd b.benchlistSet nodeID = b.benchlistSet ++ [nodeID] := by
    unfold setAdd; rw [if_neg hn]
  have hsw := SubsetWeight_eq_sum b.vdrs b.benchlistSet hw
  obtain ⟨hw0, hov, hport⟩ := hok
  rw [hsw] at hov hport
  have hsum : ((b.benchlistSet ++ [nodeID]).map b.vdrs.GetWeight).sum
      = (b.benchlistSet.map b.vdrs.GetWeight).sum + b.vdrs.GetWeight nodeID := by
    simp
  unfold Inv benchAdd
  dsimp only
  rw [hset]
  refine ⟨hq', ?_, fun n => ?_, by rw [hsum]; exact hov, ?_, fun n => ?_⟩
  · exact List.Nodup.append hnd (List.nodup_singleton _) (by simpa using hn)
  · rw [hlen]
    constructor
    · intro h
      rcases List.mem_append.1 h with h | h
      · obtain ⟨t, ht⟩ := (hmem n).1 h
        exact ⟨t, (hholds n t).2 (Or.inl ht)⟩
      · have : n = nodeID := by simpa using h
        exact ⟨_, (hholds n _).2 (Or.inr ⟨this, rfl⟩)⟩
    · rintro ⟨t, ht⟩
      rcases (hholds n t).1 ht with h | ⟨h, _⟩
      · exact List.mem_append.2 (Or.inl ((hmem n).2 ⟨t, h⟩))
      · exact List.mem_append.2 (Or.inr (by simp [h]))
  · rw [SubsetWeight_eq_sum _ _ (by rw [hsum]; exact hov), hsum]
    exact hport
  · rw [notesOf_append, notesOf_Benched]
    obtain ⟨h1, h2⟩ := hnotes n
    by_cases e : nodeID = n
    · subst e
      rw [if_pos rfl]
      have hk : (notesOf nodeID b.notifications).length % 2 = 0 := by
        have := mt h2.2 hn
        omega
      constructor
      · rw [List.length_append, List.length_singleton, alternation_succ, ← h1, hk]
        rfl
      · rw [List.length_append, List.length_singleton]
        constructor
        · intro _; omega
        · intro _; exact List.mem_append.2 (Or.inr (by simp))
    · rw [if_neg e, List.append_nil]
      refine ⟨h1, ?_⟩
      rw [← h2]
      constructor
      · intro h
        rcases List.mem_append.1 h with h | h
        · exact h
        · exact absurd (by simpa using h : n = nodeID).symm e
      · intro h; exact List.mem_append.2 (Or.inl h)

/-- Removing the first entry of the queue keeps the invariant; the entries left are
those of the other nodes. -/
theorem Inv_remove_head (b : benchlist) (hinv : Inv b) (hne : 0 < b.benchedQueue.length) :
    Inv (b.remove (item b.benchedQueue 0)) ∧
    (b.remove (item b.benchedQueue 0)).benchedQueue.length = b.benchedQueue.length - 1 ∧
    (∀ n t, Holds (b.remove (item b.benchedQueue 0)).benchedQueue
        (b.benchedQueue.length - 1) n t ↔
      (Holds b.benchedQueue b.benchedQueue.length n t ∧
        n ≠ (item b.benchedQueue 0).nodeID)) ∧
    (item b.benchedQueue 0).nodeID ∈ b.benchlistSet := by
  obtain ⟨hq, hnd, hmem, hw, hp, hnotes⟩ := hinv
  have hidx : (item b.benchedQueue 0).index = 0 := hq.index 0 hne
  obtain ⟨hlen, hq', hholds⟩ := heap.Remove_zero_spec b.benchedQueue hq hne
  have hin : (item b.benchedQueue 0).nodeID ∈ b.benchlistSet :=
    (hmem _).2 ⟨_, 0, hne, rfl, rfl⟩
  have hle := sum_filter_le b.vdrs.GetWeight
    (fun x => decide (x ≠ (item b.benchedQueue 0).nodeID)) b.benchlistSet
  have hw' : ((setRemove b.benchlistSet (item b.benchedQueue 0).nodeID).map
      b.vdrs.GetWeight).sum < 2 ^ 64 := lt_of_le_of_lt hle hw
  refine ⟨?_, ?_, ?_, hin⟩
  · unfold Inv remove
    dsimp only
    rw [hidx]
    refine ⟨hq', ?_, fun n => ?_, hw', ?_, fun n => ?_⟩
    · exact List.Nodup.filter _ hnd
    · rw [mem_setRemove, hlen, hmem n]
      constructor
      · rintro ⟨⟨t, ht⟩, hne'⟩
        exact ⟨t, (hholds n t).2 ⟨ht, hne'⟩⟩
      · rintro ⟨t, ht⟩
        have := (hholds n t).1 ht
        exact ⟨⟨t, this.1⟩, this.2⟩
    · rw [SubsetWeight_eq_sum _ _ hw']
      rw [SubsetWeight_eq_sum _ _ hw] at hp
      exact withinPortionFloat_mono _ _ _ _ hle hp
    · rw [notesOf_append, notesOf_Unbenched, mem_setRemove]
      obtain ⟨h1, h2⟩ := hnotes n
      by_cases e : (item b.benchedQueue 0).nodeID = n
      · rw [if_pos e]
        have hk : (notesOf n b.notifications).length % 2 = 1 := h2.1 (e ▸ hin)
        constructor
        · rw [List.length_append, List.length_singleton, alternation_succ, ← h1, hk]
          rfl
        · rw [List.length_append, List.length_singleton]
          constructor
          · intro h; exact absurd e.symm h.2
          · intro h; omega
      · rw [if_neg e, List.append_nil]
        refine ⟨h1, ?_⟩
        rw [← h2]
        constructor
        · intro h; exact h.1
        · intro h; exact ⟨h, fun e' => e e'.symm⟩
  · show (heap.Remove b.benchedQueue (item b.benchedQueue 0).index).length = _
    rw [hidx]; exact hlen
  · intro n t
    show Holds (heap.Remove b.benchedQueue (item b.benchedQueue 0).index) _ n t ↔ _
    rw [hidx]; exact hholds n t

theorem Holds_iff_mem (bq : benchedQueue) (n : NodeID) (t : Int) :
    Holds bq bq.length n t ↔ ∃ d, d ∈ bq ∧ d.nodeID = n ∧ d.benchedUntil = t := by
  constructor
  · rintro ⟨a, ha, h1, h2⟩
    refine ⟨item bq a, ?_, h1, h2⟩
    rw [item_eq_getElem bq a ha]
    exact List.getElem_mem ha
  · rintro ⟨d, hd, h1, h2⟩
    obtain ⟨a, ha, e⟩ := List.mem_iff_getElem.1 hd
    refine ⟨a, ha, ?_, ?_⟩
    · rw [item_eq_getElem bq a ha, e]; exact h1
    · rw [item_eq_getElem bq a ha, e]; exact h2

/-- The loop of `update`, run on a state that satisfies the invariant with at least
as many iterations as the queue has entries: the invariant holds afterwards, the
entries left are those that end strictly after `now`, one `Unbenched` was notified
for each node that left the benched set and nothing else, and nothing else changed. -/
theorem updateAux_spec : ∀ (fuel : Nat) (b : benchlist) (now : Int), Inv b →
    b.benchedQueue.length ≤ fuel →
    Inv (updateAux fuel b now) ∧
    (∀ n t, Holds (updateAux fuel b now).benchedQueue (updateAux fuel b now).benchedQueue.length n t
      ↔ (Holds b.benchedQueue b.benchedQueue.length n t ∧ now < t)) ∧
    (∃ suffix, (updateAux fuel b now).notifications = b.notifications ++ suffix ∧
      ∀ m, List.count (Notification.Benched m) suffix = 0 ∧
        List.count (Notification.Unbenched m) suffix =
          if m ∈ b.benchlistSet ∧ m ∉ (updateAux fuel b now).benchlistSet then 1 else 0) ∧
    (updateAux fuel b now).failureStreaks = b.failureStreaks ∧
    (updateAux fuel b now).vdrs = b.vdrs ∧
    (updateAux fuel b now).maxPortion = b.maxPortion := by
  intro fuel
  induction fuel with
  | zero =>
    intro b now hinv hlen
    have e0 : updateAux 0 b now = b := rfl
    rw [e0]
    refine ⟨hinv, fun n t => ?_, ⟨[], by simp, fun m => ?_⟩, rfl, rfl, rfl⟩
    · constructor
      · rintro ⟨a, ha, _⟩; omega
      · rintro ⟨h, _⟩; exact h
    · refine ⟨rfl, ?_⟩
      rw [if_neg (fun h => h.2 h.1)]
      rfl
  | succ fuel ih =>
    intro b now hinv hlen
    have hstay : b.nextToLeave now = none → (∀ n t, Holds b.benchedQueue b.benchedQueue.length n t
        → now < t) →
        Inv (updateAux (fuel + 1) b now) ∧
        (∀ n t, Holds (updateAux (fuel + 1) b now).benchedQueue
            (updateAux (fuel + 1) b now).benchedQueue.length n t
          ↔ (Holds b.benchedQueue b.benchedQueue.length n t ∧ now < t)) ∧
        (∃ suffix, (updateAux (fuel + 1) b now).notifications = b.notifications ++ suffix ∧
          ∀ m, List.count (Notification.Benched m) suffix = 0 ∧
            List.count (Notification.Unbenched m) suffix =
              if m ∈ b.benchlistSet ∧ m ∉ (updateAux (fuel + 1) b now).benchlistSet
              then 1 else 0) ∧
        (updateAux (fuel + 1) b now).failureStreaks = b.failureStreaks ∧
        (updateAux (fuel + 1) b now).vdrs = b.vdrs ∧
        (updateAux (fuel + 1) b now).maxPortion = b.maxPortion := by
      intro hnone hall
      have e : updateAux (fuel + 1) b now = b := by
        unfold updateAux; rw [hnone]
      rw [e]
      refine ⟨hinv, fun n t => ⟨fun h => ⟨h, hall n t h⟩, fun h => h.1⟩,
        ⟨[], by simp, fun m => ⟨rfl, ?_⟩⟩, rfl, rfl, rfl⟩
      rw [if_neg (fun h => h.2 h.1)]
      rfl
    by_cases h0 : b.benchedQueue.Len = 0
    · apply hstay
      · unfold nextToLeave; rw [if_pos h0]
      · rintro n t ⟨a, ha, _⟩
        unfold Len at h0
        omega
    · have hne : 0 < b.benchedQueue.length := by
        unfold Len at h0; omega
      by_cases h1 : now < (item b.benchedQueue 0).benchedUntil
      · apply hstay
        · unfold nextToLeave; rw [if_neg h0]; dsimp only; rw [if_pos h1]
        · rintro n t ⟨a, ha, _, h3⟩
          have := HeapUpTo_root_le _ _ (InvF.queue hinv).heap a ha
          rw [h3] at this
          exact lt_of_lt_of_le h1 this
      · have e : updateAux (fuel + 1) b now
            = updateAux fuel (b.remove (item b.benchedQueue 0)) now := by
          conv_lhs => unfold updateAux
          have : b.nextToLeave now = some (item b.benchedQueue 0) := by
            unfold nextToLeave; rw [if_neg h0]; dsimp only; rw [if_neg h1]
          rw [this]
        obtain ⟨hinv1, hlen1, hholds1, hin⟩ := Inv_remove_head b hinv hne
        obtain ⟨k1, k2, ⟨suffix, k3, k4⟩, k5, k6, k7⟩ :=
          ih (b.remove (item b.benchedQueue 0)) now hinv1 (by rw [hlen1]; omega)
        rw [e]
        have hchar : ∀ n t, Holds (updateAux fuel (b.remove (item b.benchedQueue 0)) now).benchedQueue
            (updateAux fuel (b.remove (item b.benchedQueue 0)) now).benchedQueue.length n t
            ↔ (Holds b.benchedQueue b.benchedQueue.length n t ∧ now < t) := by
          intro n t
          rw [k2 n t, hlen1, hholds1 n t]
          constructor
          · rintro ⟨⟨h2, _⟩, h3⟩; exact ⟨h2, h3⟩
          · rintro ⟨h2, h3⟩
            refine ⟨⟨h2, fun hn => ?_⟩, h3⟩
            obtain ⟨a, ha, h4, h5⟩ := h2
            have := (InvF.queue hinv).ids a 0 ha hne (by rw [h4, hn])
            subst this
            omega
        refine ⟨k1, hchar, ⟨Notification.Unbenched (item b.benchedQueue 0).nodeID :: suffix,
          ?_, fun m => ?_⟩, k5, k6, k7⟩
        · rw [k3]
          show (b.notifications ++ [_]) ++ suffix = _
          simp
        · obtain ⟨c1, c2⟩ := k4 m
          have hsub : m ∈ (updateAux fuel (b.remove (item b.benchedQueue 0)) now).benchlistSet →
              m ∈ (b.remove (item b.benchedQueue 0)).benchlistSet := by
            intro hm
            obtain ⟨t, ht⟩ := (InvF.members k1 m).1 hm
            have := (k2 m t).1 ht
            exact (InvF.members hinv1 m).2 ⟨t, this.1⟩
          have hset1 : ∀ x, x ∈ (b.remove (item b.benchedQueue 0)).benchlistSet ↔
              (x ∈ b.benchlistSet ∧ x ≠ (item b.benchedQueue 0).nodeID) :=
            fun x => mem_setRemove _ _ _
          constructor
          · rw [List.count_cons, c1]
            simp
          · rw [List.count_cons, c2]
            by_cases hm : m = (item b.benchedQueue 0).nodeID
            · have hnot1 : m ∉ (b.remove (item b.benchedQueue 0)).benchlistSet :=
                fun h => ((hset1 m).1 h).2 hm
              have hnot2 := mt hsub hnot1
              rw [if_neg (fun h => hnot1 h.1)]
              subst hm
              rw [if_pos (show _ ∧ _ from ⟨hin, hnot2⟩)]
              simp
            · have hiff : (m ∈ (b.remove (item b.benchedQueue 0)).benchlistSet) ↔
                  m ∈ b.benchlistSet := by
                rw [hset1 m]
                exact ⟨fun h => h.1, fun h => ⟨h, hm⟩⟩
              have hz : (if (Notification.Unbenched (item b.benchedQueue 0).nodeID
                  == Notification.Unbenched m) = true then 1 else 0) = 0 := by
                rw [if_neg]
                simp
                exact fun h => hm h.symm
              rw [hz, Nat.add_zero]
              simp only [hiff]

theorem update_spec (b : benchlist) (now : Int) (hinv : Inv b) :
    Inv (b.update now) ∧
    (∀ n t, Holds (b.update now).benchedQueue (b.update now).benchedQueue.length n t
      ↔ (Holds b.benchedQueue b.benchedQueue.length n t ∧ now < t)) ∧
    (∃ suffix, (b.update now).notifications = b.notifications ++ suffix ∧
      ∀ m, List.count (Notification.Benched m) suffix = 0 ∧
        List.count (Notification.Unbenched m) suffix =
          if m ∈ b.benchlistSet ∧ m ∉ (b.update now).benchlistSet then 1 else 0) ∧
    (b.update now).failureStreaks = b.failureStreaks ∧
    (b.update now).vdrs = b.vdrs ∧
    (b.update now).maxPortion = b.maxPortion :=
  updateAux_spec b.benchedQueue.length b now hinv (le_refl _)

theorem Inv_RegisterFailure (b : benchlist) (nodeID : NodeID) (now benchNow : Int) (r : F64)
    (hinv : Inv b) : Inv (b.RegisterFailure nodeID now benchNow r) := by
  rw [RegisterFailure_eq]
  split
  · exact hinv
  · rename_i hn
    split
    · rename_i hc
      exact Inv_benchAdd (withStreak b nodeID now) nodeID benchNow r hinv hn hc.2
    · exact hinv

theorem Inv_step (b : benchlist) (op : Op) (hinv : Inv b) : Inv (step b op) := by
  cases op with
  | RegisterFailure nodeID now benchNow r => exact Inv_RegisterFailure b nodeID now benchNow r hinv
  | RegisterResponse nodeID => exact hinv
  | update now => exact (update_spec b now hinv).1

theorem Inv_run (ops : List Op) : ∀ (b : benchlist), Inv b → Inv (run b ops) := by
  induction ops with
  | nil => intro b h; exact h
  | cons op ops ih => intro b h; exact ih _ (Inv_step b op h)

theorem run_append (b : benchlist) (ops1 ops2 : List Op) :
    run b (ops1 ++ ops2) = run (run b ops1) ops2 := by
  simp [run, List.foldl_append]

theorem step_config (b : benchlist) (op : Op) (hinv : Inv b) :
    (step b op).vdrs = b.vdrs ∧ (step b op).maxPortion = b.maxPortion := by
  cases op with
  | RegisterFailure nodeID now benchNow r =>
    show (b.RegisterFailure nodeID now benchNow r).vdrs = _ ∧
      (b.RegisterFailure nodeID now benchNow r).maxPortion = _
    rw [RegisterFailure_eq]
    split
    · exact ⟨rfl, rfl⟩
    · split <;> exact ⟨rfl, rfl⟩
  | RegisterResponse nodeID => exact ⟨rfl, rfl⟩
  | update now =>
    have := update_spec b now hinv
    exact ⟨this.2.2.2.2.1, this.2.2.2.2.2⟩

theorem run_config (ops : List Op) : ∀ (b : benchlist), Inv b →
    (run b ops).vdrs = b.vdrs ∧ (run b ops).maxPortion = b.maxPortion := by
  induction ops with
  | nil => intro b _; exact ⟨rfl, rfl⟩
  | cons op ops ih =>
    intro b h
    have h1 := step_config b op h
    have h2 := ih (step b op) (Inv_step b op h)
    exact ⟨h2.1.trans h1.1, h2.2.trans h1.2⟩

theorem fresh_config (validators : Validators) (threshold minimumFailingDuration duration : Int)
    (maxPortion : F64) (b0 : benchlist)
    (h : NewBenchlist validators threshold minimumFailingDuration duration maxPortion = some b0) :
    b0.vdrs = validators ∧ b0.maxPortion = maxPortion := by
  unfold NewBenchlist at h
  split at h
  · exact absurd h (by simp)
  · have e := (Option.some.inj h).symm
    subst e
    exact ⟨rfl, rfl⟩

/-- C2 (amended): with a fixed validator set, in every state reachable from a
freshly constructed benchlist by `RegisterFailure`, `RegisterResponse` and `update`
calls, the total weight of the benched validators fits in a `uint64` and, converted
to float64, is not greater than `float64(total weight) * maxPortion` computed in
float64; a failing validator whose benching would make it greater is not benched. -/
theorem benched_weight_within_portion (validators : Validators)
    (threshold minimumFailingDuration duration : Int) (maxPortion : F64) (b0 : benchlist)
    (ops : List Op)
    (h : NewBenchlist validators threshold minimumFailingDuration duration maxPortion = some b0) :
    (run b0 ops).vdrs = validators ∧ (run b0 ops).maxPortion = maxPortion ∧
    (((run b0 ops).benchlistSet.map validators.GetWeight).sum < 2 ^ 64) ∧
    F64.lt (F64.mul (F64.ofNat validators.Weight) maxPortion)
      (F64.ofNat (((run b0 ops).benchlistSet.map validators.GetWeight).sum)) = false ∧
    (∀ (nodeID : NodeID) (now benchNow : Int) (r : F64),
      (run b0 ops).IsBenched nodeID = false →
      F64.lt (F64.mul (F64.ofNat validators.Weight) maxPortion)
        (F64.ofNat (((run b0 ops).benchlistSet.map validators.GetWeight).sum
          + validators.GetWeight nodeID)) = true →
      ((run b0 ops).RegisterFailure nodeID now benchNow r).IsBenched nodeID = false) := by
  have hinv0 := Inv_fresh _ _ _ _ _ _ h
  have hc0 := fresh_config _ _ _ _ _ _ h
  have hinv := Inv_run ops b0 hinv0
  have hc := run_config ops b0 hinv0
  have hv : (run b0 ops).vdrs = validators := hc.1.trans hc0.1
  have hp : (run b0 ops).maxPortion = maxPortion := hc.2.trans hc0.2
  have hw := InvF.weight hinv
  have hport := InvF.portion hinv
  rw [SubsetWeight_eq_sum _ _ hw] at hport
  unfold withinPortionFloat at hport
  rw [hv] at hw
  rw [hv, hp] at hport
  refine ⟨hv, hp, hw, hport, ?_⟩
  intro nodeID now benchNow r hnb hlt
  have hn : nodeID ∉ (run b0 ops).benchlistSet := by simpa [IsBenched, isBenched] using hnb
  unfold IsBenched isBenched
  rw [RegisterFailure_eq, if_neg hn, if_neg]
  · simpa [withStreak] using hn
  · rintro ⟨_, _, _, h3⟩
    unfold withinPortionFloat at h3
    rw [hv, hp, SubsetWeight_eq_sum _ _ hw, hlt] at h3
    exact absurd h3 (by decide)

/-- Two entries of the queue of a reachable state for the same node are equal. -/
theorem queue_entry_unique (b : benchlist) (hinv : Inv b) (d d' : benchData)
    (hd : d ∈ b.benchedQueue) (hd' : d' ∈ b.benchedQueue) (hid : d.nodeID = d'.nodeID) :
    d = d' := by
  obtain ⟨a, ha, e⟩ := List.mem_iff_getElem.1 hd
  obtain ⟨a', ha', e'⟩ := List.mem_iff_getElem.1 hd'
  have := (InvF.queue hinv).ids a a' ha ha' (by
    rw [item_eq_getElem _ a ha, item_eq_getElem _ a' ha', e, e']; exact hid)
  subst this
  rw [← e, ← e']

/-- C4: in every state reachable from a freshly constructed benchlist, every
benched node has exactly one entry in the benched queue, and after `update` runs
with clock time `now` a node is benched iff it was benched before the call and its
`benchedUntil` is strictly after `now`; the entries of the queue after the call are
those of before that end strictly after `now`. -/
theorem update_unbenches_expired (validators : Validators)
    (threshold minimumFailingDuration duration : Int) (maxPortion : F64) (b0 : benchlist)
    (ops : List Op) (now : Int)
    (h : NewBenchlist validators threshold minimumFailingDuration duration maxPortion = some b0) :
    (∀ n, (run b0 ops).IsBenched n = true ↔ ∃ d, d ∈ (run b0 ops).benchedQueue ∧ d.nodeID = n) ∧
    (∀ d d', d ∈ (run b0 ops).benchedQueue → d' ∈ (run b0 ops).benchedQueue →
      d.nodeID = d'.nodeID → d = d') ∧
    (∀ n, ((run b0 ops).update now).IsBenched n = true ↔
      ((run b0 ops).IsBenched n = true ∧
        ∃ d, d ∈ (run b0 ops).benchedQueue ∧ d.nodeID = n ∧ now < d.benchedUntil)) ∧
    (∀ n t, (∃ d, d ∈ ((run b0 ops).update now).benchedQueue ∧ d.nodeID = n ∧ d.benchedUntil = t) ↔
      ((∃ d, d ∈ (run b0 ops).benchedQueue ∧ d.nodeID = n ∧ d.benchedUntil = t) ∧ now < t)) := by
  have hinv := Inv_run ops b0 (Inv_fresh _ _ _ _ _ _ h)
  obtain ⟨hinv', hholds, _⟩ := update_spec (run b0 ops) now hinv
  have hmem : ∀ n, (run b0 ops).IsBenched n = true ↔
      ∃ d, d ∈ (run b0 ops).benchedQueue ∧ d.nodeID = n := by
    intro n
    unfold IsBenched isBenched
    rw [decide_eq_true_eq, InvF.members hinv n]
    constructor
    · rintro ⟨t, ht⟩
      obtain ⟨d, hd, h1, _⟩ := (Holds_iff_mem _ _ _).1 ht
      exact ⟨d, hd, h1⟩
    · rintro ⟨d, hd, h1⟩
      exact ⟨d.benchedUntil, (Holds_iff_mem _ _ _).2 ⟨d, hd, h1, rfl⟩⟩
  have hq : ∀ n t,
      (∃ d, d ∈ ((run b0 ops).update now).benchedQueue ∧ d.nodeID = n ∧ d.benchedUntil = t) ↔
      ((∃ d, d ∈ (run b0 ops).benchedQueue ∧ d.nodeID = n ∧ d.benchedUntil = t) ∧ now < t) := by
    intro n t
    rw [← Holds_iff_mem, ← Holds_iff_mem]
    exact hholds n t
  refine ⟨hmem, fun d d' => queue_entry_unique _ hinv d d', fun n => ?_, hq⟩
  unfold IsBenched isBenched
  rw [decide_eq_true_eq, decide_eq_true_eq, InvF.members hinv' n]
  constructor
  · rintro ⟨t, ht⟩
    have := (hholds n t).1 ht
    obtain ⟨d, hd, h1, h2⟩ := (Holds_iff_mem _ _ _).1 this.1
    exact ⟨(InvF.members hinv n).2 ⟨t, this.1⟩, d, hd, h1, by rw [h2]; exact this.2⟩
  · rintro ⟨_, d, hd, h1, h2⟩
    exact ⟨d.benchedUntil, (hholds n _).2 ⟨(Holds_iff_mem _ _ _).2 ⟨d, hd, h1, rfl⟩, h2⟩⟩

theorem getLast?_alternation (k : Nat) :
    (alternation k).getLast? = some true ↔ k % 2 = 1 := by
  cases k with
  | zero => simp [alternation]
  | succ k =>
    rw [alternation_succ, List.getLast?_append]
    simp
    omega

theorem step_notifications (b : benchlist) (op : Op) (hinv : Inv b) :
    ∃ suffix, (step b op).notifications = b.notifications ++ suffix ∧
      ∀ m, List.count (Notification.Benched m) suffix =
          (if m ∉ b.benchlistSet ∧ m ∈ (step b op).benchlistSet then 1 else 0) ∧
        List.count (Notification.Unbenched m) suffix =
          (if m ∈ b.benchlistSet ∧ m ∉ (step b op).benchlistSet then 1 else 0) := by
  have hsame : ∀ m, (0 : Nat) = (if m ∉ b.benchlistSet ∧ m ∈ b.benchlistSet then 1 else 0) ∧
      (0 : Nat) = (if m ∈ b.benchlistSet ∧ m ∉ b.benchlistSet then 1 else 0) := by
    intro m
    rw [if_neg (fun h => h.1 h.2), if_neg (fun h => h.2 h.1)]
    exact ⟨rfl, rfl⟩
  cases op with
  | RegisterFailure nodeID now benchNow r =>
    show ∃ suffix, (b.RegisterFailure nodeID now benchNow r).notifications = _ ∧
      ∀ m, _ = (if m ∉ b.benchlistSet ∧
          m ∈ (b.RegisterFailure nodeID now benchNow r).benchlistSet then 1 else 0) ∧
        _ = (if m ∈ b.benchlistSet ∧
          m ∉ (b.RegisterFailure nodeID now benchNow r).benchlistSet then 1 else 0)
    rw [RegisterFailure_eq]
    split
    · exact ⟨[], by simp, fun m => by simp⟩
    · rename_i hn
      split
      · refine ⟨[Notification.Benched nodeID], rfl, fun m => ?_⟩
        show _ = (if m ∉ b.benchlistSet ∧ m ∈ setAdd b.benchlistSet nodeID then 1 else 0) ∧
          _ = (if m ∈ b.benchlistSet ∧ m ∉ setAdd b.benchlistSet nodeID then 1 else 0)
        constructor
        · by_cases hm : m = nodeID
          · subst hm
            rw [if_pos (show _ ∧ _ from ⟨hn, (mem_setAdd _ _ _).2 (Or.inr rfl)⟩)]
            simp
          · rw [if_neg]
            · rw [List.count_singleton]
              simp
              exact fun h => hm h.symm
            · rintro ⟨h1, h2⟩
              rcases (mem_setAdd _ _ _).1 h2 with h3 | h3
              · exact h1 h3
              · exact hm h3
        · rw [if_neg (fun h => h.2 ((mem_setAdd _ _ _).2 (Or.inl h.1)))]
          simp
      · exact ⟨[], by simp [withStreak], fun m => by simp [withStreak]⟩
  | RegisterResponse nodeID =>
    exact ⟨[], by simp [step, RegisterResponse], fun m => by
      simp [step, RegisterResponse]⟩
  | update now =>
    obtain ⟨hinv', hholds, ⟨suffix, h1, h2⟩, _⟩ := update_spec b now hinv
    refine ⟨suffix, h1, fun m => ⟨?_, (h2 m).2⟩⟩
    rw [(h2 m).1, if_neg]
    rintro ⟨h3, h4⟩
    obtain ⟨t, ht⟩ := (InvF.members hinv' m).1 h4
    exact h3 ((InvF.members hinv m).2 ⟨t, ((hholds m t).1 ht).1⟩)

/-- C7: in every state reachable from a freshly constructed benchlist, a call
(`RegisterFailure`, `RegisterResponse` or `update`) notifies `Benched` exactly once
for every node that enters the benched set in it, `Unbenched` exactly once for every
node that leaves it, and nothing else; the notifications about every node alternate
`Benched`, `Unbenched`, `Benched`, ... starting with `Benched`, and a node is benched
iff the last notification about it is `Benched`. -/
theorem notifications_follow_benched_set (validators : Validators)
    (threshold minimumFailingDuration duration : Int) (maxPortion : F64) (b0 : benchlist)
    (ops : List Op) (op : Op)
    (h : NewBenchlist validators threshold minimumFailingDuration duration maxPortion = some b0) :
    (∃ suffix, (step (run b0 ops) op).notifications = (run b0 ops).notifications ++ suffix ∧
      ∀ m, List.count (Notification.Benched m) suffix =
          (if (run b0 ops).IsBenched m = false ∧ (step (run b0 ops) op).IsBenched m = true
            then 1 else 0) ∧
        List.count (Notification.Unbenched m) suffix =
          (if (run b0 ops).IsBenched m = true ∧ (step (run b0 ops) op).IsBenched m = false
            then 1 else 0)) ∧
    (∀ n, notesOf n (run b0 ops).notifications
      = alternation (notesOf n (run b0 ops).notifications).length) ∧
    (∀ n, (run b0 ops).IsBenched n = true ↔
      (notesOf n (run b0 ops).notifications).getLast? = some true) := by
  have hinv := Inv_run ops b0 (Inv_fresh _ _ _ _ _ _ h)
  refine ⟨?_, fun n => (InvF.notes hinv n).1, fun n => ?_⟩
  · obtain ⟨suffix, h1, h2⟩ := step_notifications (run b0 ops) op hinv
    refine ⟨suffix, h1, fun m => ?_⟩
    simpa [IsBenched, isBenched] using h2 m
  · obtain ⟨h1, h2⟩ := InvF.notes hinv n
    rw [h1, getLast?_alternation, ← h2]
    simp [IsBenched, isBenched]

end Benchlist

namespace Benchlist

open benchlist

/-- Witness of `benched_weight_within_portion`: the scenario with three benched
validators of weight 10 out of 100, `maxPortion = 0.99`. -/
theorem benched_weight_within_portion_witness :
    ((run scenarioStart scenarioOps).benchlistSet.map scenarioValidators.GetWeight).sum
      < 2 ^ 64 ∧
    F64.lt (F64.mul (F64.ofNat scenarioValidators.Weight) portion99)
      (F64.ofNat (((run scenarioStart scenarioOps).benchlistSet.map
        scenarioValidators.GetWeight).sum)) = false :=
  ⟨(benched_weight_within_portion scenarioValidators 1 0 1000 portion99 scenarioStart
      scenarioOps rfl).2.2.1,
   (benched_weight_within_portion scenarioValidators 1 0 1000 portion99 scenarioStart
      scenarioOps rfl).2.2.2.1⟩

/-- C2 as stated, with the bound `maxPortion x total` in exact arithmetic, fails:
from the fresh benchlist `roundingStart` two failures of validator 1 bench it, and
the benched weight `2^52+2` is above `0.5 * (2^53+3)`: the benching of validator 1
pushed the benched weight above that bound and was done all the same. -/
theorem benched_weight_exact_counterexample :
    NewBenchlist ⟨[(1, 2 ^ 52 + 2), (2, 2 ^ 52 + 1)]⟩ 1 0 1000 F64.half = some roundingStart ∧
    (run roundingStart [Op.RegisterFailure 1 1 1 F64.half,
      Op.RegisterFailure 1 2 2 F64.half]).benchlistSet = [1] ∧
    ¬ withinPortionExact roundingStart.maxPortion
      (((run roundingStart [Op.RegisterFailure 1 1 1 F64.half,
        Op.RegisterFailure 1 2 2 F64.half]).benchlistSet.map
          roundingStart.vdrs.GetWeight).sum)
      roundingStart.vdrs.Weight :=
  ⟨rfl, by decide, by decide⟩

/-- Witness of `update_unbenches_expired`: in the scenario the validators 1, 2, 3
are benched until 756, 631 and 506; after `update` at time 631 validator 1 is still
benched and validator 2 is not. -/
theorem update_unbenches_expired_witness :
    (((run scenarioStart scenarioOps).update 631).IsBenched 1 = true ↔
      ((run scenarioStart scenarioOps).IsBenched 1 = true ∧
        ∃ d, d ∈ (run scenarioStart scenarioOps).benchedQueue ∧ d.nodeID = 1 ∧
          631 < d.benchedUntil)) ∧
    (((run scenarioStart scenarioOps).update 631).IsBenched 2 = true ↔
      ((run scenarioStart scenarioOps).IsBenched 2 = true ∧
        ∃ d, d ∈ (run scenarioStart scenarioOps).benchedQueue ∧ d.nodeID = 2 ∧
          631 < d.benchedUntil)) :=
  ⟨(update_unbenches_expired scenarioValidators 1 0 1000 portion99 scenarioStart
      scenarioOps 631 rfl).2.2.1 1,
   (update_unbenches_expired scenarioValidators 1 0 1000 portion99 scenarioStart
      scenarioOps 631 rfl).2.2.1 2⟩

/-- Witness of `notifications_follow_benched_set`: validator 1 in the scenario. -/
theorem notifications_follow_benched_set_witness :
    (run scenarioStart scenarioOps).IsBenched 1 = true ↔
      (notesOf 1 (run scenarioStart scenarioOps).notifications).getLast? = some true :=
  (notifications_follow_benched_set scenarioValidators 1 0 1000 portion99 scenarioStart
    scenarioOps (Op.update 631) rfl).2.2 1

end Benchlist

namespace Benchlist

open benchlist benchedQueue

theorem updateAux_duration : ∀ (fuel : Nat) (b : benchlist) (now : Int),
    (updateAux fuel b now).duration = b.duration := by
  intro fuel
  induction fuel with
  | zero => intro b now; rfl
  | succ fuel ih =>
    intro b now
    unfold updateAux
    split
    · rfl
    · rw [ih]; rfl

theorem step_duration (b : benchlist) (op : Op) : (step b op).duration = b.duration := by
  cases op with
  | RegisterFailure nodeID now benchNow r =>
    show (b.RegisterFailure nodeID now benchNow r).duration = _
    rw [RegisterFailure_eq]
    split
    · rfl
    · split <;> rfl
  | RegisterResponse nodeID => rfl
  | update now => exact updateAux_duration _ b now

theorem run_duration (ops : List Op) : ∀ (b : benchlist), (run b ops).duration = b.duration := by
  induction ops with
  | nil => intro b; rfl
  | cons op ops ih =>
    intro b
    exact (ih (step b op)).trans (step_duration b op)

/-- The end of the benching computed by `bench` is between `now + duration/2` and
`now + duration`. -/
theorem benchedUntilOf_bounds (duration now : Int) (r : F64) (hd : 0 ≤ duration)
    (hr : r.Representable) (h1 : F64.lt r F64.one = true) :
    now + duration / 2 ≤ benchedUntilOf duration now r ∧
    benchedUntilOf duration now r ≤ now + duration := by
  have ht : Int.tdiv duration 2 = duration / 2 := Int.tdiv_eq_ediv hd (by decide)
  unfold benchedUntilOf
  dsimp only
  rw [ht]
  have hle := F64.toNat_mul_ofNat_le r (now + duration - (now + duration / 2)).natAbs hr h1
  have hnn : 0 ≤ now + duration - (now + duration / 2) := by omega
  rw [if_neg (not_lt.2 hnn)]
  have hcast : (((now + duration - (now + duration / 2)).natAbs : Nat) : Int)
      = now + duration - (now + duration / 2) := Int.natAbs_of_nonneg hnn
  have hle' : ((F64.toNat (F64.mul r
      (F64.ofNat (now + duration - (now + duration / 2)).natAbs)) : Nat) : Int)
      ≤ now + duration - (now + duration / 2) := by
    rw [← hcast]
    exact Int.ofNat_le.2 hle
  constructor
  · have : (0 : Int) ≤ ((F64.toNat (F64.mul r
        (F64.ofNat (now + duration - (now + duration / 2)).natAbs)) : Nat) : Int) :=
      Int.ofNat_nonneg _
    omega
  · omega

/-- C5: in every state reachable from a freshly constructed benchlist with a
non-negative `duration`, when `bench` adds a node (not benched before) at clock
time `now` with a random draw `r` in `[0,1)`, the queue holds an entry for the node
and the `benchedUntil` of every entry for the node satisfies
`now + duration/2 <= benchedUntil <= now + duration`. -/
theorem bench_benchedUntil_bounds (validators : Validators)
    (threshold minimumFailingDuration duration : Int) (maxPortion : F64) (b0 : benchlist)
    (ops : List Op) (nodeID : NodeID) (now : Int) (r : F64)
    (h : NewBenchlist validators threshold minimumFailingDuration duration maxPortion = some b0)
    (hd : 0 ≤ duration) (hr : r.Representable) (h1 : F64.lt r F64.one = true)
    (hnb : (run b0 ops).IsBenched nodeID = false)
    (hadd : ((run b0 ops).bench nodeID now r).IsBenched nodeID = true) :
    (∃ d, d ∈ ((run b0 ops).bench nodeID now r).benchedQueue ∧ d.nodeID = nodeID) ∧
    (∀ d, d ∈ ((run b0 ops).bench nodeID now r).benchedQueue → d.nodeID = nodeID →
      now + duration / 2 ≤ d.benchedUntil ∧ d.benchedUntil ≤ now + duration) := by
  have hinv := Inv_run ops b0 (Inv_fresh _ _ _ _ _ _ h)
  have hdur : (run b0 ops).duration = duration := by
    rw [run_duration]
    unfold NewBenchlist at h
    split at h
    · exact absurd h (by simp)
    · have e := (Option.some.inj h).symm
      subst e
      rfl
  have hn : nodeID ∉ (run b0 ops).benchlistSet := by simpa [IsBenched, isBenched] using hnb
  rw [bench_eq] at hadd ⊢
  by_cases hok : benchOK (run b0 ops) nodeID
  · rw [if_pos hok]
    have hx : ∀ a, a < (run b0 ops).benchedQueue.length →
        (item (run b0 ops).benchedQueue a).nodeID ≠ nodeID := by
      intro a ha e
      exact hn ((InvF.members hinv nodeID).2 ⟨_, a, ha, e, rfl⟩)
    obtain ⟨hlen, _, hholds⟩ := heap.Push_spec (run b0 ops).benchedQueue
      { nodeID := nodeID, benchedUntil := benchedUntilOf (run b0 ops).duration now r, index := 0 }
      (InvF.queue hinv) hx
    have hq : (benchAdd (run b0 ops) nodeID now r).benchedQueue = heap.Push (run b0 ops).benchedQueue
      { nodeID := nodeID, benchedUntil := benchedUntilOf (run b0 ops).duration now r,
        index := 0 } := rfl
    rw [hq]
    constructor
    · have := (hholds nodeID (benchedUntilOf (run b0 ops).duration now r)).2 (Or.inr ⟨rfl, rfl⟩)
      rw [← hlen] at this
      obtain ⟨d, hd1, hd2, _⟩ := (Holds_iff_mem _ _ _).1 this
      exact ⟨d, hd1, hd2⟩
    · intro d hd1 hd2
      have := (Holds_iff_mem _ nodeID d.benchedUntil).2 ⟨d, hd1, hd2, rfl⟩
      rw [hlen] at this
      rcases (hholds nodeID d.benchedUntil).1 this with h3 | ⟨_, h3⟩
      · exact absurd ((InvF.members hinv nodeID).2 ⟨_, h3⟩) hn
      · rw [h3]
        show now + duration / 2 ≤ benchedUntilOf (run b0 ops).duration now r ∧ _
        rw [hdur]
        exact benchedUntilOf_bounds duration now r hd hr h1
  · rw [if_neg hok] at hadd
    rw [hnb] at hadd
    exact absurd hadd (by decide)

/-- Witness of `bench_benchedUntil_bounds`: after validator 1 was benched, benching
validator 2 at time 10 with the draw `0.5` stores the entry with `benchedUntil = 760`. -/
theorem bench_benchedUntil_bounds_witness :
    (⟨760, 2, 1⟩ : benchData) ∈ ((run scenarioStart [Op.RegisterFailure 1 5 5 F64.half,
        Op.RegisterFailure 1 6 6 F64.half]).bench 2 10 F64.half).benchedQueue ∧
    10 + (1000 : Int) / 2 ≤ (⟨760, 2, 1⟩ : benchData).benchedUntil ∧
    (⟨760, 2, 1⟩ : benchData).benchedUntil ≤ 10 + 1000 :=
  ⟨by decide,
   (bench_benchedUntil_bounds scenarioValidators 1 0 1000 portion99 scenarioStart
    [Op.RegisterFailure 1 5 5 F64.half, Op.RegisterFailure 1 6 6 F64.half]
    2 10 F64.half rfl (by decide) (by decide) (by decide) (by decide) (by decide)).2
    ⟨760, 2, 1⟩ (by decide) rfl⟩

end Benchlist

/-! ### vms/proposervm/tree -/

namespace Tree

theorem mapGet_mapDelete {β : Type} (m : List (ID × β)) (k' k : ID) :
    mapGet (mapDelete m k') k = if k = k' then none else mapGet m k := by
  induction m with
  | nil => simp [mapDelete, mapGet]
  | cons e m ih =>
    obtain ⟨a, v⟩ := e
    unfold mapDelete at ih ⊢
    rw [List.filter_cons]
    by_cases h1 : a = k'
    · subst h1
      simp only [ne_eq, not_true_eq_false, decide_False, Bool.false_eq_true, ↓reduceIte]
      rw [ih]
      by_cases h2 : k = a
      · simp [h2]
      · simp [h2, mapGet]
    · simp only [ne_eq, h1, not_false_eq_true, decide_True, ↓reduceIte]
      simp only [mapGet]
      rw [ih]
      by_cases h2 : k = a
      · have : ¬ k = k' := fun e => h1 (h2 ▸ e)
        simp [h2, this, h1]
      · simp [h2]

theorem mapGet_append {β : Type} (m1 m2 : List (ID × β)) (k : ID) :
    mapGet (m1 ++ m2) k = match mapGet m1 k with
      | some v => some v
      | none => mapGet m2 k := by
  induction m1 with
  | nil => simp [mapGet]
  | cons e m ih =>
    obtain ⟨a, v⟩ := e
    simp only [List.cons_append, mapGet]
    by_cases h : k = a
    · simp [h]
    · simp [h, ih]

theorem mapGet_mapSet {β : Type} (m : List (ID × β)) (k' k : ID) (v : β) :
    mapGet (mapSet m k' v) k = if k = k' then some v else mapGet m k := by
  unfold mapSet
  rw [mapGet_append, mapGet_mapDelete]
  by_cases h : k = k'
  · simp [h, mapGet]
  · simp only [h, if_false]
    cases mapGet m k <;> simp [mapGet, h]

theorem mapGet_some_mem {β : Type} (m : List (ID × β)) (k : ID) (v : β)
    (h : mapGet m k = some v) : (k, v) ∈ m := by
  induction m with
  | nil => simp [mapGet] at h
  | cons e m ih =>
    obtain ⟨a, w⟩ := e
    simp only [mapGet] at h
    by_cases h1 : k = a
    · rw [if_pos h1] at h
      have := Option.some.inj h
      subst this; subst h1
      exact List.mem_cons_self _ _
    · rw [if_neg h1] at h
      exact List.mem_cons_of_mem _ (ih h)

theorem mapGet_of_mem {β : Type} (m : List (ID × β)) (k : ID) (v : β)
    (hk : (m.map Prod.fst).Nodup) (h : (k, v) ∈ m) : mapGet m k = some v := by
  induction m with
  | nil => exact absurd h (List.not_mem_nil _)
  | cons e m ih =>
    obtain ⟨a, w⟩ := e
    simp only [List.map_cons, List.nodup_cons] at hk
    simp only [mapGet]
    rcases List.mem_cons.1 h with h1 | h1
    · have e1 : k = a := congrArg Prod.fst h1
      have e2 : v = w := congrArg Prod.snd h1
      rw [if_pos e1, e2]
    · have : k ≠ a := by
        intro e1
        apply hk.1
        rw [← e1]
        exact List.mem_map.2 ⟨(k, v), h1, rfl⟩
      rw [if_neg this]
      exact ih hk.2 h1

theorem mapGet_none_of_not_mem {β : Type} (m : List (ID × β)) (k : ID)
    (h : k ∉ m.map Prod.fst) : mapGet m k = none := by
  cases hg : mapGet m k with
  | none => rfl
  | some v =>
    exact absurd (List.mem_map.2 ⟨(k, v), mapGet_some_mem m k v hg, rfl⟩) h

theorem mapDelete_sublist {β : Type} (m : List (ID × β)) (k : ID) :
    List.Sublist (mapDelete m k) m := List.filter_sublist m

theorem keys_mapDelete_nodup {β : Type} (m : List (ID × β)) (k : ID)
    (h : (m.map Prod.fst).Nodup) : ((mapDelete m k).map Prod.fst).Nodup :=
  List.Nodup.sublist (List.Sublist.map _ (mapDelete_sublist m k)) h

theorem mem_mapDelete {β : Type} (m : List (ID × β)) (k : ID) (e : ID × β) :
    e ∈ mapDelete m k ↔ e ∈ m ∧ e.1 ≠ k := by
  simp [mapDelete]

theorem keys_mapSet_nodup {β : Type} (m : List (ID × β)) (k : ID) (v : β)
    (h : (m.map Prod.fst).Nodup) : ((mapSet m k v).map Prod.fst).Nodup := by
  unfold mapSet
  rw [List.map_append]
  apply List.Nodup.append (keys_mapDelete_nodup m k h) (by simp)
  intro a ha hb
  have hb' : a = k := by simpa using hb
  obtain ⟨e, he, rfl⟩ := List.mem_map.1 ha
  exact ((mem_mapDelete m k e).1 he).2 hb'

theorem mem_mapSet {β : Type} (m : List (ID × β)) (k : ID) (v : β) (e : ID × β) :
    e ∈ mapSet m k v ↔ (e ∈ m ∧ e.1 ≠ k) ∨ e = (k, v) := by
  unfold mapSet
  rw [List.mem_append, mem_mapDelete]
  simp

theorem mapDelete_eq_self {β : Type} (m : List (ID × β)) (k : ID)
    (h : k ∉ m.map Prod.fst) : mapDelete m k = m := by
  unfold mapDelete
  rw [List.filter_eq_self]
  intro e he
  have : e.1 ≠ k := fun e1 => h (List.mem_map.2 ⟨e, he, e1⟩)
  simpa using this

theorem WF_nil : WF [] :=
  ⟨List.nodup_nil, fun _ _ h => absurd h (List.not_mem_nil _)⟩

theorem WF_sublist (n1 n2 : List (ID × List (ID × Block))) (hs : List.Sublist n1 n2)
    (h : WF n2) : WF n1 :=
  ⟨List.Nodup.sublist (List.Sublist.map _ hs) h.keys,
   fun k c hm => h.inner k c (hs.subset hm)⟩

theorem WF_Add (t : tree) (blk : Block) (h : WF t.nodes) : WF (t.Add blk).nodes := by
  unfold tree.Add
  dsimp only
  constructor
  · exact keys_mapSet_nodup _ _ _ h.keys
  · intro k c hm
    rcases (mem_mapSet _ _ _ _).1 hm with ⟨h1, _⟩ | h1
    · exact h.inner k c h1
    · have e1 : k = blk.parent := congrArg Prod.fst h1
      have e2 : c = _ := congrArg Prod.snd h1
      subst e1
      rw [e2]
      have hc : ((match mapGet t.nodes blk.parent with
          | some c => c
          | none => []).map Prod.fst).Nodup ∧
          ∀ i x, (i, x) ∈ (match mapGet t.nodes blk.parent with
            | some c => c
            | none => []) → x.id = i ∧ x.parent = blk.parent := by
        cases hg : mapGet t.nodes blk.parent with
        | none => exact ⟨List.nodup_nil, fun _ _ h => absurd h (List.not_mem_nil _)⟩
        | some c' => exact h.inner _ c' (mapGet_some_mem _ _ _ hg)
      constructor
      · exact keys_mapSet_nodup _ _ _ hc.1
      · intro i x hx
        rcases (mem_mapSet _ _ _ _).1 hx with ⟨h2, _⟩ | h2
        · exact hc.2 i x h2
        · have e3 : i = blk.id := congrArg Prod.fst h2
          have e4 : x = blk := congrArg Prod.snd h2
          subst e3; subst e4
          exact ⟨rfl, rfl⟩

theorem allBlocks_cons (e : ID × List (ID × Block)) (nodes : List (ID × List (ID × Block))) :
    allBlocks (e :: nodes) = e.2.map Prod.snd ++ allBlocks nodes := by
  simp [allBlocks]

theorem mem_allBlocks (nodes : List (ID × List (ID × Block))) (x : Block) :
    x ∈ allBlocks nodes ↔ ∃ k c i, (k, c) ∈ nodes ∧ (i, x) ∈ c := by
  unfold allBlocks
  rw [List.mem_flatMap]
  constructor
  · rintro ⟨⟨k, c⟩, h1, h2⟩
    obtain ⟨⟨i, y⟩, h3, h4⟩ := List.mem_map.1 h2
    simp only at h4
    subst h4
    exact ⟨k, c, i, h1, h3⟩
  · rintro ⟨k, c, i, h1, h2⟩
    exact ⟨(k, c), h1, List.mem_map.2 ⟨(i, x), h2, rfl⟩⟩

/-- Taking the children of `k` out of the tree. -/
theorem allBlocks_split (nodes : List (ID × List (ID × Block))) (k : ID)
    (hk : (nodes.map Prod.fst).Nodup) :
    (allBlocks nodes).Perm
      ((match mapGet nodes k with
        | some c => c
        | none => []).map Prod.snd ++ allBlocks (mapDelete nodes k)) := by
  induction nodes with
  | nil => simp [allBlocks, mapGet, mapDelete]
  | cons e nodes ih =>
    obtain ⟨a, c⟩ := e
    simp only [List.map_cons, List.nodup_cons] at hk
    by_cases h : a = k
    · subst h
      have e1 : mapGet ((a, c) :: nodes) a = some c := by simp [mapGet]
      have e2 : mapDelete ((a, c) :: nodes) a = nodes := by
        have := mapDelete_eq_self nodes a hk.1
        unfold mapDelete at this ⊢
        rw [List.filter_cons]
        simpa using this
      rw [e1, e2, allBlocks_cons]
    · have h' : ¬ k = a := fun e => h e.symm
      have e1 : mapGet ((a, c) :: nodes) k = mapGet nodes k := by simp [mapGet, h']
      have e2 : mapDelete ((a, c) :: nodes) k = (a, c) :: mapDelete nodes k := by
        unfold mapDelete
        rw [List.filter_cons]
        simp [h]
      rw [e1, e2, allBlocks_cons, allBlocks_cons]
      refine (List.Perm.append_left _ (ih hk.2)).trans ?_
      rw [← List.append_assoc, ← List.append_assoc]
      exact List.Perm.append_right _ List.perm_append_comm

theorem size_cons (e : ID × List (ID × Block)) (nodes : List (ID × List (ID × Block))) :
    tree.size (e :: nodes) = e.2.length + tree.size nodes := by
  simp [tree.size]

theorem size_eq_length_allBlocks (nodes : List (ID × List (ID × Block))) :
    tree.size nodes = (allBlocks nodes).length := by
  induction nodes with
  | nil => rfl
  | cons e nodes ih => rw [size_cons, allBlocks_cons, List.length_append, List.length_map, ih]

/-- The blocks stored in a well-formed tree are distinct. -/
theorem allBlocks_nodup (nodes : List (ID × List (ID × Block))) (h : WF nodes) :
    (allBlocks nodes).Nodup := by
  induction nodes with
  | nil => exact List.nodup_nil
  | cons e nodes ih =>
    obtain ⟨a, c⟩ := e
    rw [allBlocks_cons]
    have hw : WF nodes := WF_sublist _ _ (List.sublist_cons_self _ _) h
    have hk := h.keys
    simp only [List.map_cons, List.nodup_cons] at hk
    have hc := h.inner a c (List.mem_cons_self _ _)
    refine List.Nodup.append ?_ (ih hw) ?_
    · -- the children of one parent have distinct IDs
      have hinj : ∀ e1 ∈ c, ∀ e2 ∈ c, e1.2 = e2.2 → e1 = e2 := by
        intro e1 h1 e2 h2 heq
        have i1 := (hc.2 e1.1 e1.2 h1).1
        have i2 := (hc.2 e2.1 e2.2 h2).1
        exact Prod.ext (by rw [← i1, ← i2, heq]) heq
      exact (List.nodup_map_iff_inj_on (List.Nodup.of_map _ hc.1)).2 hinj
    · intro x hx1 hx2
      obtain ⟨⟨i, y⟩, h1, h2⟩ := List.mem_map.1 hx1
      simp only at h2
      subst h2
      obtain ⟨k', c', i', h3, h4⟩ := (mem_allBlocks nodes y).1 hx2
      have p1 := (hc.2 i y h1).2
      have p2 := (h.inner k' c' (List.mem_cons_of_mem _ h3)).2 i' y h4
      apply hk.1
      rw [← p1, p2.2]
      exact List.mem_map.2 ⟨(k', c'), h3, rfl⟩

theorem Closure_mem (nodes : List (ID × List (ID × Block))) (stack : List Block) (x : Block)
    (h : Closure nodes stack x) : x ∈ stack ∨ x ∈ allBlocks nodes := by
  cases h with
  | base _ h1 => exact Or.inl h1
  | step y _ _ h2 =>
    obtain ⟨c, i, h3, h4⟩ := h2
    exact Or.inr ((mem_allBlocks _ _).2 ⟨_, c, i, mapGet_some_mem _ _ _ h3, h4⟩)

theorem rejectLoop_sublist (pick : List Block → List Block) :
    ∀ (fuel : Nat) (nodes : List (ID × List (ID × Block))) (stack : List Block)
      (calls : List Call), List.Sublist (tree.rejectLoop pick fuel nodes stack calls).1 nodes := by
  intro fuel
  induction fuel with
  | zero => intro nodes stack calls; exact List.Sublist.refl _
  | succ fuel ih =>
    intro nodes stack calls
    unfold tree.rejectLoop
    split
    · exact List.Sublist.refl _
    · dsimp only
      split
      · exact List.Sublist.refl _
      · exact (ih _ _ _).trans (mapDelete_sublist _ _)

/-- One iteration of the loop: the state after it. -/
theorem rejectLoop_step (pick : List Block → List Block) (fuel : Nat)
    (nodes : List (ID × List (ID × Block))) (rest : List Block) (child : Block)
    (calls : List Call) (hr : child.rejectErr = false) :
    tree.rejectLoop pick (fuel + 1) nodes (rest ++ [child]) calls =
      tree.rejectLoop pick fuel (mapDelete nodes child.id)
        (rest ++ mapValues pick (match mapGet nodes child.id with
          | some c => c
          | none => []))
        (calls ++ [Call.Reject child]) := by
  conv_lhs => unfold tree.rejectLoop
  rw [List.getLast?_concat, List.dropLast_concat]
  simp only [hr, Bool.false_eq_true, if_false]

/-- The loop of `Accept`, when every `Reject` succeeds and the iterations are enough:
it rejects once each block of the closure, and deletes the entries of their IDs. -/
theorem rejectLoop_spec (pick : List Block → List Block) (hpick : ∀ l, (pick l).Perm l) :
    ∀ (fuel : Nat) (nodes : List (ID × List (ID × Block))) (stack : List Block)
      (calls : List Call),
      WF nodes → (stack ++ allBlocks nodes).Nodup →
      (∀ x, x ∈ stack ++ allBlocks nodes → x.rejectErr = false) →
      stack.length + tree.size nodes ≤ fuel →
      ∃ L : List Block,
        (tree.rejectLoop pick fuel nodes stack calls).2 = (calls ++ L.map Call.Reject, false) ∧
        L.Nodup ∧ (∀ x, x ∈ L ↔ Closure nodes stack x) ∧
        (∀ k, mapGet (tree.rejectLoop pick fuel nodes stack calls).1 k =
          if k ∈ L.map Block.id then none else mapGet nodes k) := by
  intro fuel
  induction fuel with
  | zero =>
    intro nodes stack calls _ _ _ hf
    have hs : stack = [] := List.eq_nil_of_length_eq_zero (by omega)
    subst hs
    refine ⟨[], by simp [tree.rejectLoop], List.nodup_nil, fun x => ?_, fun k => by
      simp [tree.rejectLoop]⟩
    constructor
    · intro h; exact absurd h (List.not_mem_nil _)
    · intro h
      have hsz : allBlocks nodes = [] :=
        List.eq_nil_of_length_eq_zero (by rw [← size_eq_length_allBlocks]; omega)
      rcases Closure_mem _ _ _ h with h1 | h1
      · exact h1
      · rw [hsz] at h1; exact h1
  | succ fuel ih =>
    intro nodes stack calls hwf hnd hrej hf
    rcases List.eq_nil_or_concat stack with hs | ⟨rest, child, hs⟩
    · subst hs
      refine ⟨[], by simp [tree.rejectLoop], List.nodup_nil, fun x => ?_, fun k => by
        simp [tree.rejectLoop]⟩
      constructor
      · intro h; exact absurd h (List.not_mem_nil _)
      · intro h
        exfalso
        induction h with
        | base _ h1 => exact absurd h1 (List.not_mem_nil _)
        | step _ _ _ _ ih' => exact ih'
    · rw [List.concat_eq_append] at hs
      subst hs
      have hchild : child.rejectErr = false := hrej child (by simp)
      rw [rejectLoop_step pick fuel nodes rest child calls hchild]
      obtain ⟨kids, hkids⟩ : ∃ kids, kids = (match mapGet nodes child.id with
          | some c => c
          | none => []) := ⟨_, rfl⟩
      rw [← hkids]
      have hsplit := allBlocks_split nodes child.id hwf.keys
      rw [← hkids] at hsplit
      have hvals : (mapValues pick kids).Perm (kids.map Prod.snd) := hpick _
      -- the blocks of the new state are those of the old one but `child`
      have hperm : ((rest ++ [child]) ++ allBlocks nodes).Perm
          (child :: ((rest ++ mapValues pick kids) ++ allBlocks (mapDelete nodes child.id))) := by
        have h1 : ((rest ++ [child]) ++ allBlocks nodes).Perm
            (child :: (rest ++ allBlocks nodes)) := by
          rw [List.append_assoc]
          exact List.perm_middle
        refine h1.trans (List.Perm.cons _ ?_)
        rw [List.append_assoc]
        exact List.Perm.append_left _ (hsplit.trans (List.Perm.append_right _ hvals.symm))
      have hnd' := (List.Perm.nodup_iff hperm).1 hnd
      rw [List.nodup_cons] at hnd'
      have hwf' : WF (mapDelete nodes child.id) := WF_sublist _ _ (mapDelete_sublist _ _) hwf
      have hrej' : ∀ x, x ∈ (rest ++ mapValues pick kids) ++ allBlocks (mapDelete nodes child.id) →
          x.rejectErr = false := by
        intro x hx
        exact hrej x (hperm.symm.subset (List.mem_cons_of_mem _ hx))
      have hlen : (rest ++ mapValues pick kids).length + tree.size (mapDelete nodes child.id)
          ≤ fuel := by
        have := hperm.length_eq
        simp only [List.length_append, List.length_cons, List.length_singleton,
          ← size_eq_length_allBlocks] at this hf ⊢
        omega
      obtain ⟨L, h1, h2, h3, h4⟩ := ih (mapDelete nodes child.id) (rest ++ mapValues pick kids)
        (calls ++ [Call.Reject child]) hwf' hnd'.2 hrej' hlen
      have hkidsmem : ∀ x, x ∈ mapValues pick kids ↔
          ∃ c i, mapGet nodes child.id = some c ∧ (i, x) ∈ c := by
        intro x
        rw [hvals.mem_iff, hkids]
        cases hg : mapGet nodes child.id with
        | none => simp
        | some c =>
          constructor
          · intro h5
            obtain ⟨⟨i, y⟩, h6, h7⟩ := List.mem_map.1 h5
            simp only at h7; subst h7
            exact ⟨c, i, rfl, h6⟩
          · rintro ⟨c', i, h5, h6⟩
            have := Option.some.inj h5
            subst this
            exact List.mem_map.2 ⟨(i, x), h6, rfl⟩
      have hclos : ∀ x, Closure nodes (rest ++ [child]) x ↔
          (x = child ∨ Closure (mapDelete nodes child.id) (rest ++ mapValues pick kids) x) := by
        intro x
        constructor
        · intro h
          induction h with
          | base x hx =>
            rcases List.mem_append.1 hx with h5 | h5
            · exact Or.inr (Closure.base x (List.mem_append.2 (Or.inl h5)))
            · exact Or.inl (by simpa using h5)
          | step y x _ hyx ih' =>
            right
            by_cases hid : y.id = child.id
            · rw [hid] at hyx
              exact Closure.base x (List.mem_append.2 (Or.inr ((hkidsmem x).2 hyx)))
            · have hy : Closure (mapDelete nodes child.id) (rest ++ mapValues pick kids) y := by
                rcases ih' with h5 | h5
                · exact absurd (congrArg Block.id h5) hid
                · exact h5
              refine Closure.step y x hy ?_
              obtain ⟨c, i, h6, h7⟩ := hyx
              exact ⟨c, i, by rw [mapGet_mapDelete, if_neg hid]; exact h6, h7⟩
        · rintro (h | h)
          · subst h
            exact Closure.base _ (by simp)
          · induction h with
            | base x hx =>
              rcases List.mem_append.1 hx with h5 | h5
              · exact Closure.base x (List.mem_append.2 (Or.inl h5))
              · exact Closure.step child x (Closure.base _ (by simp)) ((hkidsmem x).1 h5)
            | step y x _ hyx ih' =>
              refine Closure.step y x ih' ?_
              obtain ⟨c, i, h6, h7⟩ := hyx
              rw [mapGet_mapDelete] at h6
              by_cases hid : y.id = child.id
              · rw [if_pos hid] at h6; exact absurd h6 (by simp)
              · rw [if_neg hid] at h6; exact ⟨c, i, h6, h7⟩
      refine ⟨child :: L, ?_, ?_, ?_, ?_⟩
      · rw [h1]; simp
      · rw [List.nodup_cons]
        refine ⟨fun hin => ?_, h2⟩
        have := Closure_mem _ _ _ ((h3 child).1 hin)
        exact hnd'.1 (List.mem_append.2 this)
      · intro x
        rw [hclos x, List.mem_cons, h3 x]
      · intro k
        rw [h4 k, mapGet_mapDelete]
        by_cases hk : k = child.id
        · simp [hk]
        · simp only [List.map_cons, List.mem_cons, hk, false_or, if_false]

theorem storedUnder_iff (t : tree) (hwf : WF t.nodes) (k : ID) (x : Block) :
    StoredUnder t k x ↔ ∃ c i, mapGet t.nodes k = some c ∧ (i, x) ∈ c := by
  constructor
  · rintro ⟨c, h1, h2⟩
    exact ⟨c, x.id, h1, mapGet_some_mem _ _ _ h2⟩
  · rintro ⟨c, i, h1, h2⟩
    have hc := hwf.inner k c (mapGet_some_mem _ _ _ h1)
    have hi := (hc.2 i x h2).1
    subst hi
    exact ⟨c, h1, mapGet_of_mem _ _ _ hc.1 h2⟩

theorem storedUnder_fields (t : tree) (hwf : WF t.nodes) (k : ID) (x : Block)
    (h : StoredUnder t k x) : x.parent = k := by
  obtain ⟨c, h1, h2⟩ := h
  exact ((hwf.inner k c (mapGet_some_mem _ _ _ h1)).2 x.id x (mapGet_some_mem _ _ _ h2)).2

theorem mem_allBlocks_iff (t : tree) (hwf : WF t.nodes) (x : Block) :
    x ∈ allBlocks t.nodes ↔ ∃ k, StoredUnder t k x := by
  rw [mem_allBlocks]
  constructor
  · rintro ⟨k, c, i, h1, h2⟩
    exact ⟨k, (storedUnder_iff t hwf k x).2 ⟨c, i, mapGet_of_mem _ _ _ hwf.keys h1, h2⟩⟩
  · rintro ⟨k, h⟩
    obtain ⟨c, i, h1, h2⟩ := (storedUnder_iff t hwf k x).1 h
    exact ⟨k, c, i, mapGet_some_mem _ _ _ h1, h2⟩

theorem Accept_nodes_sublist (pick : List Block → List Block) (t : tree) (blk : Block) :
    List.Sublist (tree.Accept pick t blk).t.nodes t.nodes := by
  unfold tree.Accept
  split
  · exact List.Sublist.refl _
  · exact (rejectLoop_sublist pick _ _ _ _).trans (mapDelete_sublist _ _)

theorem WF_step (pick : List Block → List Block) (t : tree) (op : Op) (h : WF t.nodes) :
    WF (step pick t op).nodes := by
  cases op with
  | Add blk => exact WF_Add t blk h
  | Accept blk => exact WF_sublist _ _ (Accept_nodes_sublist pick t blk) h

theorem WF_foldl (pick : List Block → List Block) (ops : List Op) :
    ∀ t : tree, WF t.nodes → WF (ops.foldl (step pick) t).nodes := by
  induction ops with
  | nil => intro t h; exact h
  | cons op ops ih => intro t h; exact ih _ (WF_step pick t op h)

theorem WF_run (pick : List Block → List Block) (ops : List Op) : WF (run pick ops).nodes :=
  WF_foldl pick ops New WF_nil

theorem mem_allBlocks_Add (t : tree) (blk x : Block) (h : x ∈ allBlocks (t.Add blk).nodes) :
    x ∈ allBlocks t.nodes ∨ x = blk := by
  obtain ⟨k, c, i, h1, h2⟩ := (mem_allBlocks _ _).1 h
  unfold tree.Add at h1
  dsimp only at h1
  rcases (mem_mapSet _ _ _ _).1 h1 with ⟨h3, _⟩ | h3
  · exact Or.inl ((mem_allBlocks _ _).2 ⟨k, c, i, h3, h2⟩)
  · have e2 : c = _ := congrArg Prod.snd h3
    rw [e2] at h2
    rcases (mem_mapSet _ _ _ _).1 h2 with ⟨h4, _⟩ | h4
    · left
      cases hg : mapGet t.nodes blk.parent with
      | none => rw [hg] at h4; exact absurd h4 (List.not_mem_nil _)
      | some c' =>
        rw [hg] at h4
        exact (mem_allBlocks _ _).2 ⟨_, c', i, mapGet_some_mem _ _ _ hg, h4⟩
    · exact Or.inr (congrArg Prod.snd h4)

theorem mem_allBlocks_foldl (pick : List Block → List Block) (ops : List Op) :
    ∀ (t : tree) (x : Block), x ∈ allBlocks (ops.foldl (step pick) t).nodes →
      x ∈ allBlocks t.nodes ∨ Op.Add x ∈ ops := by
  induction ops with
  | nil => intro t x h; exact Or.inl h
  | cons op ops ih =>
    intro t x h
    rcases ih _ x h with h1 | h1
    · cases op with
      | Add blk =>
        rcases mem_allBlocks_Add t blk x h1 with h2 | h2
        · exact Or.inl h2
        · subst h2; exact Or.inr (List.mem_cons_self _ _)
      | Accept blk =>
        left
        obtain ⟨k, c, i, h3, h4⟩ := (mem_allBlocks _ _).1 h1
        exact (mem_allBlocks _ _).2 ⟨k, c, i, (Accept_nodes_sublist pick t blk).subset h3, h4⟩
    · exact Or.inr (List.mem_cons_of_mem _ h1)

/-- The blocks stored in the tree were added to it. -/
theorem stored_was_added (pick : List Block → List Block) (ops : List Op) (k : ID) (x : Block)
    (h : StoredUnder (run pick ops) k x) : Op.Add x ∈ ops := by
  have := (mem_allBlocks_iff _ (WF_run pick ops) x).2 ⟨k, h⟩
  rcases mem_allBlocks_foldl pick ops New x this with h1 | h1
  · exact absurd h1 (List.not_mem_nil _)
  · exact h1

/-- `Accept` on a well-formed tree, when the `Accept` of the block and the `Reject`
of every stored block succeed. -/
theorem Accept_spec (pick : List Block → List Block) (hpick : ∀ l, (pick l).Perm l)
    (t : tree) (blk : Block) (hwf : WF t.nodes) (hacc : blk.acceptErr = false)
    (hrej : ∀ x, x ∈ allBlocks t.nodes → x.rejectErr = false) :
    ∃ L : List Block,
      (tree.Accept pick t blk).calls = Call.Accept blk :: L.map Call.Reject ∧
      (tree.Accept pick t blk).err = false ∧ L.Nodup ∧
      (∀ x, x ∈ L ↔ Rejected t blk x) ∧
      (∀ k, mapGet (tree.Accept pick t blk).t.nodes k =
        if k = blk.parent ∨ k ∈ L.map Block.id then none else mapGet t.nodes k) := by
  obtain ⟨kids, hkids⟩ : ∃ kids, kids = (match mapGet t.nodes blk.parent with
      | some c => c
      | none => []) := ⟨_, rfl⟩
  have hsplit := allBlocks_split t.nodes blk.parent hwf.keys
  rw [← hkids] at hsplit
  have hvals : (mapValues pick (mapDelete kids blk.id)).Perm
      ((mapDelete kids blk.id).map Prod.snd) := hpick _
  have hsub : List.Sublist
      ((mapDelete kids blk.id).map Prod.snd ++ allBlocks (mapDelete t.nodes blk.parent))
      (kids.map Prod.snd ++ allBlocks (mapDelete t.nodes blk.parent)) :=
    List.Sublist.append_right (List.Sublist.map _ (mapDelete_sublist _ _)) _
  have hnd0 : (kids.map Prod.snd ++ allBlocks (mapDelete t.nodes blk.parent)).Nodup :=
    (List.Perm.nodup_iff hsplit).1 (allBlocks_nodup _ hwf)
  have hnd : (mapValues pick (mapDelete kids blk.id)
      ++ allBlocks (mapDelete t.nodes blk.parent)).Nodup :=
    (List.Perm.nodup_iff (List.Perm.append_right _ hvals)).2 (List.Nodup.sublist hsub hnd0)
  have hrej' : ∀ x, x ∈ mapValues pick (mapDelete kids blk.id)
      ++ allBlocks (mapDelete t.nodes blk.parent) → x.rejectErr = false := by
    intro x hx
    apply hrej
    apply hsplit.symm.subset
    apply hsub.subset
    exact (List.Perm.append_right _ hvals).subset hx
  obtain ⟨L, h1, h2, h3, h4⟩ := rejectLoop_spec pick hpick
    ((mapValues pick (mapDelete kids blk.id)).length + tree.size (mapDelete t.nodes blk.parent))
    (mapDelete t.nodes blk.parent) (mapValues pick (mapDelete kids blk.id)) [Call.Accept blk]
    (WF_sublist _ _ (mapDelete_sublist _ _) hwf) hnd hrej' (le_refl _)
  have hres : tree.Accept pick t blk =
      ⟨⟨(tree.rejectLoop pick ((mapValues pick (mapDelete kids blk.id)).length
          + tree.size (mapDelete t.nodes blk.parent)) (mapDelete t.nodes blk.parent)
          (mapValues pick (mapDelete kids blk.id)) [Call.Accept blk]).1⟩,
        (tree.rejectLoop pick ((mapValues pick (mapDelete kids blk.id)).length
          + tree.size (mapDelete t.nodes blk.parent)) (mapDelete t.nodes blk.parent)
          (mapValues pick (mapDelete kids blk.id)) [Call.Accept blk]).2.1,
        (tree.rejectLoop pick ((mapValues pick (mapDelete kids blk.id)).length
          + tree.size (mapDelete t.nodes blk.parent)) (mapDelete t.nodes blk.parent)
          (mapValues pick (mapDelete kids blk.id)) [Call.Accept blk]).2.2⟩ := by
    unfold tree.Accept
    rw [hacc, hkids]
    simp
  rw [hres]
  dsimp only
  rw [h1]
  -- the siblings
  have hbase : ∀ x, x ∈ mapValues pick (mapDelete kids blk.id) ↔
      (StoredUnder t blk.parent x ∧ x.id ≠ blk.id) := by
    intro x
    rw [hvals.mem_iff, storedUnder_iff t hwf]
    constructor
    · intro h5
      obtain ⟨⟨i, y⟩, h6, h7⟩ := List.mem_map.1 h5
      have hxy : y = x := h7
      rw [hxy] at h6
      have h8 := (mem_mapDelete _ _ _).1 h6
      cases hg : mapGet t.nodes blk.parent with
      | none =>
        rw [hg] at hkids
        rw [hkids] at h8
        exact absurd h8.1 (List.not_mem_nil _)
      | some c =>
        rw [hg] at hkids
        rw [hkids] at h8
        have hi := ((hwf.inner _ c (mapGet_some_mem _ _ _ hg)).2 i x h8.1).1
        exact ⟨⟨c, i, rfl, h8.1⟩, by rw [hi]; exact h8.2⟩
    · rintro ⟨⟨c, i, h5, h6⟩, h7⟩
      rw [h5] at hkids
      have hi := ((hwf.inner _ c (mapGet_some_mem _ _ _ h5)).2 i x h6).1
      refine List.mem_map.2 ⟨(i, x), (mem_mapDelete _ _ _).2 ⟨by rw [hkids]; exact h6, ?_⟩, rfl⟩
      show i ≠ blk.id
      rw [← hi]; exact h7
  have hstep : ∀ (y x : Block), (∃ c i, mapGet (mapDelete t.nodes blk.parent) y.id = some c ∧ (i, x) ∈ c) ↔
      (y.id ≠ blk.parent ∧ StoredUnder t y.id x) := by
    intro y x
    rw [storedUnder_iff t hwf]
    constructor
    · rintro ⟨c, i, h5, h6⟩
      rw [mapGet_mapDelete] at h5
      by_cases hy : y.id = blk.parent
      · rw [if_pos hy] at h5; exact absurd h5 (by simp)
      · rw [if_neg hy] at h5; exact ⟨hy, c, i, h5, h6⟩
    · rintro ⟨hy, c, i, h5, h6⟩
      exact ⟨c, i, by rw [mapGet_mapDelete, if_neg hy]; exact h5, h6⟩
  refine ⟨L, rfl, rfl, h2, fun x => ?_, fun k => ?_⟩
  · rw [h3 x]
    constructor
    · intro h
      induction h with
      | base x hx => exact Rejected.sibling x ((hbase x).1 hx).1 ((hbase x).1 hx).2
      | step y x _ hyx ih =>
        have := (hstep y x).1 hyx
        exact Rejected.child y x ih this.1 this.2
    · intro h
      induction h with
      | sibling x h5 h6 => exact Closure.base x ((hbase x).2 ⟨h5, h6⟩)
      | child y x _ h5 h6 ih => exact Closure.step y x ih ((hstep y x).2 ⟨h5, h6⟩)
  · rw [h4 k, mapGet_mapDelete]
    by_cases hk : k = blk.parent
    · simp [hk]
    · simp [hk]

theorem Rejected_reachable (t : tree) (blk x : Block) (h : Rejected t blk x) :
    Reachable t blk x := by
  induction h with
  | sibling x h1 h2 => exact Reachable.sibling x h1 h2
  | child y x _ _ h2 ih => exact Reachable.child y x ih h2

theorem Reachable_rejected (t : tree) (blk x : Block)
    (hp : ∀ y, Reachable t blk y → y.id ≠ blk.parent) (h : Reachable t blk x) :
    Rejected t blk x := by
  induction h with
  | sibling x h1 h2 => exact Rejected.sibling x h1 h2
  | child y x hy h2 ih => exact Rejected.child y x ih (hp y hy) h2

/-- Whatever the IDs of the blocks are: on a tree built by `Add` (and `Accept`) calls,
when the `Accept` of `blk` and the `Reject` of every added block succeed, `Accept(blk)`
calls `Accept` on `blk` and then `Reject` exactly once on every sibling of `blk` and on
every block stored under a rejected block whose ID is not the ID of the parent of
`blk`, and on no other block; `blk` is not rejected. When no reachable block has the ID of the parent
of `blk`, the rejected blocks are the blocks reachable from the siblings. The blocks
stored under an ID that is neither the parent of `blk` nor the ID of a rejected block
stay in the tree; so when no rejected block has the ID of `blk` (and `blk` is not its
own parent) the blocks stored under `blk` are not rejected and stay in the tree. -/
theorem Accept_rejects_closure (pick : List Block → List Block) (ops : List Op)
    (blk : Block) (hpick : ∀ l, (pick l).Perm l) (hacc : blk.acceptErr = false)
    (hrej : ∀ x, Op.Add x ∈ ops → x.rejectErr = false) :
    ∃ L : List Block,
      (tree.Accept pick (run pick ops) blk).calls = Call.Accept blk :: L.map Call.Reject ∧
      (tree.Accept pick (run pick ops) blk).err = false ∧
      L.Nodup ∧
      (∀ x, x ∈ L ↔ Rejected (run pick ops) blk x) ∧
      blk ∉ L ∧
      ((∀ y, Reachable (run pick ops) blk y → y.id ≠ blk.parent) →
        ∀ x, x ∈ L ↔ Reachable (run pick ops) blk x) ∧
      (∀ k, k ≠ blk.parent → (∀ x, x ∈ L → x.id ≠ k) →
        mapGet (tree.Accept pick (run pick ops) blk).t.nodes k = mapGet (run pick ops).nodes k) ∧
      ((∀ x, x ∈ L → x.id ≠ blk.id) → blk.id ≠ blk.parent →
        ∀ y, StoredUnder (run pick ops) blk.id y →
          y ∉ L ∧ StoredUnder (tree.Accept pick (run pick ops) blk).t blk.id y) := by
  have hwf := WF_run pick ops
  have hrej' : ∀ x, x ∈ allBlocks (run pick ops).nodes → x.rejectErr = false := by
    intro x hx
    obtain ⟨k, hk⟩ := (mem_allBlocks_iff _ hwf x).1 hx
    exact hrej x (stored_was_added pick ops k x hk)
  obtain ⟨L, h1, h2, h3, h4, h5⟩ := Accept_spec pick hpick (run pick ops) blk hwf hacc hrej'
  have hframe : ∀ k, k ≠ blk.parent → (∀ x, x ∈ L → x.id ≠ k) →
      mapGet (tree.Accept pick (run pick ops) blk).t.nodes k = mapGet (run pick ops).nodes k := by
    intro k hk hL
    rw [h5 k, if_neg]
    rintro (h | h)
    · exact hk h
    · obtain ⟨x, hx, hxk⟩ := List.mem_map.1 h
      exact hL x hx hxk
  refine ⟨L, h1, h2, h3, h4, ?_, ?_, hframe, ?_⟩
  · intro hin
    cases (h4 blk).1 hin with
    | sibling _ _ hne => exact hne rfl
    | child y _ _ hne hs => exact hne (storedUnder_fields _ hwf _ _ hs).symm
  · intro hp x
    rw [h4 x]
    exact ⟨Rejected_reachable _ _ _, Reachable_rejected _ _ _ hp⟩
  · intro hL hne y hy
    have hpar := storedUnder_fields _ hwf _ _ hy
    constructor
    · intro hin
      cases (h4 y).1 hin with
      | sibling _ hs _ => exact hne ((storedUnder_fields _ hwf _ _ hs).symm.trans hpar).symm
      | child z _ hz _ hs =>
        exact hL z ((h4 z).2 hz) ((storedUnder_fields _ hwf _ _ hs).symm.trans hpar)
    · obtain ⟨c, hc1, hc2⟩ := hy
      exact ⟨c, by rw [hframe blk.id hne hL]; exact hc1, hc2⟩

theorem storedUnder_unique (t : tree) (k : ID) (y z : Block) (hy : StoredUnder t k y)
    (hz : StoredUnder t k z) (h : y.id = z.id) : y = z := by
  obtain ⟨c, h1, h2⟩ := hy
  obtain ⟨c', h3, h4⟩ := hz
  rw [h1] at h3
  rw [← Option.some.inj h3, ← h] at h4
  rw [h2] at h4
  exact Option.some.inj h4

theorem Reachable_rank (pick : List Block → List Block) (ops : List Op) (blk : Block)
    (rank : ID → Nat) (hrank : ∀ x, Op.Add x ∈ ops → rank x.parent < rank x.id)
    (y : Block) (h : Reachable (run pick ops) blk y) : rank blk.parent < rank y.id := by
  have hwf := WF_run pick ops
  induction h with
  | sibling x h1 _ =>
    have := hrank x (stored_was_added pick ops _ x h1)
    rw [storedUnder_fields _ hwf _ _ h1] at this
    exact this
  | child y x _ h2 ih =>
    have := hrank x (stored_was_added pick ops _ x h2)
    rw [storedUnder_fields _ hwf _ _ h2] at this
    omega

theorem Descendant_rank (pick : List Block → List Block) (ops : List Op) (blk : Block)
    (rank : ID → Nat) (hrank : ∀ x, Op.Add x ∈ ops → rank x.parent < rank x.id)
    (y : Block) (h : Descendant (run pick ops) blk y) : rank blk.id < rank y.id := by
  have hwf := WF_run pick ops
  induction h with
  | child x h1 =>
    have := hrank x (stored_was_added pick ops _ x h1)
    rw [storedUnder_fields _ hwf _ _ h1] at this
    exact this
  | step y x _ h2 ih =>
    have := hrank x (stored_was_added pick ops _ x h2)
    rw [storedUnder_fields _ hwf _ _ h2] at this
    omega

theorem Reachable_stored (t : tree) (hwf : WF t.nodes) (blk y : Block)
    (h : Reachable t blk y) : StoredUnder t y.parent y := by
  cases h with
  | sibling _ h1 _ => rw [storedUnder_fields _ hwf _ _ h1]; exact h1
  | child z _ _ h2 => rw [storedUnder_fields _ hwf _ _ h2]; exact h2

theorem Descendant_stored (t : tree) (hwf : WF t.nodes) (blk y : Block)
    (h : Descendant t blk y) : StoredUnder t y.parent y := by
  cases h with
  | child _ h1 => rw [storedUnder_fields _ hwf _ _ h1]; exact h1
  | step z _ _ h2 => rw [storedUnder_fields _ hwf _ _ h2]; exact h2

/-- C8: on a tree built by `Add` (and `Accept`) calls, when the `Accept` of `blk` and
the `Reject` of every added block succeed, `Accept(blk)` calls `Accept` on `blk` and
then `Reject` exactly once on every other block stored under the parent of `blk` (its
siblings) and on every block reachable from the siblings through the stored
parent-to-child relation, and on no other block; `blk` is not rejected, and the blocks
stored under `blk` are not rejected and stay in the tree; so do all the descendants of
`blk`. The IDs are those of blocks: a parent ranks before its children (`rank` is the
height), and an added block that has the ID of `blk` has the parent of `blk`; for the
descendants beyond the children, two added blocks with one ID have one parent. -/
theorem Accept_rejects_conflicting (pick : List Block → List Block) (ops : List Op)
    (blk : Block) (rank : ID → Nat) (hpick : ∀ l, (pick l).Perm l)
    (hacc : blk.acceptErr = false)
    (hrej : ∀ x, Op.Add x ∈ ops → x.rejectErr = false)
    (hrank : ∀ x, (x = blk ∨ Op.Add x ∈ ops) → rank x.parent < rank x.id)
    (hid : ∀ x, Op.Add x ∈ ops → x.id = blk.id → x.parent = blk.parent) :
    ∃ L : List Block,
      (tree.Accept pick (run pick ops) blk).calls = Call.Accept blk :: L.map Call.Reject ∧
      (tree.Accept pick (run pick ops) blk).err = false ∧
      L.Nodup ∧
      (∀ x, x ∈ L ↔ Reachable (run pick ops) blk x) ∧
      blk ∉ L ∧
      (∀ y, StoredUnder (run pick ops) blk.id y →
        y ∉ L ∧ StoredUnder (tree.Accept pick (run pick ops) blk).t blk.id y) ∧
      ((∀ x y, Op.Add x ∈ ops → Op.Add y ∈ ops → x.id = y.id → x.parent = y.parent) →
        ∀ y, Descendant (run pick ops) blk y →
          y ∉ L ∧ StoredUnder (tree.Accept pick (run pick ops) blk).t y.parent y) := by
  have hwf := WF_run pick ops
  have hrank' : ∀ x, Op.Add x ∈ ops → rank x.parent < rank x.id :=
    fun x hx => hrank x (Or.inr hx)
  obtain ⟨L, h1, h2, h3, h4, h5, h6, h7, h8⟩ :=
    Accept_rejects_closure pick ops blk hpick hacc hrej
  have hp : ∀ y, Reachable (run pick ops) blk y → y.id ≠ blk.parent := by
    intro y hy
    have := Reachable_rank pick ops blk rank hrank' y hy
    intro e
    rw [e] at this
    exact absurd this (lt_irrefl _)
  have hLR := h6 hp
  have hself : blk.id ≠ blk.parent := by
    have := hrank blk (Or.inl rfl)
    intro e
    rw [e] at this
    exact absurd this (lt_irrefl _)
  have hLid : ∀ x, x ∈ L → x.id ≠ blk.id := by
    intro x hx hxid
    cases (h4 x).1 hx with
    | sibling _ _ hne => exact hne hxid
    | child y _ hy hne hs =>
      have hadd := stored_was_added pick ops _ x hs
      have hpar := storedUnder_fields _ hwf _ _ hs
      exact hne (hpar.symm.trans (hid x hadd hxid))
  refine ⟨L, h1, h2, h3, hLR, h5, h8 hLid hself, ?_⟩
  intro hglobal
  have hnot : ∀ y, Descendant (run pick ops) blk y → y ∉ L := by
    intro y hy
    induction hy with
    | child x hs =>
      exact (h8 hLid hself x hs).1
    | step z x hz hs ih =>
      intro hin
      have hpar := storedUnder_fields _ hwf _ _ hs
      cases (h4 x).1 hin with
      | sibling _ hs' _ =>
        have hpar' := storedUnder_fields _ hwf _ _ hs'
        have h9 := Descendant_rank pick ops blk rank hrank' z hz
        have h10 := hrank blk (Or.inl rfl)
        rw [← hpar', hpar] at h10
        omega
      | child y _ hy _ hs' =>
        have hpar' := storedUnder_fields _ hwf _ _ hs'
        have hyz : y.id = z.id := hpar'.symm.trans hpar
        have hyL : y ∈ L := (h4 y).2 hy
        have hyst := Reachable_stored _ hwf blk y ((hLR y).1 hyL)
        have hzst := Descendant_stored _ hwf blk z hz
        have hpp : y.parent = z.parent :=
          hglobal y z (stored_was_added pick ops _ y hyst) (stored_was_added pick ops _ z hzst) hyz
        rw [hpp] at hyst
        have := storedUnder_unique _ _ y z hyst hzst hyz
        rw [this] at hyL
        exact ih hyL
  intro y hy
  refine ⟨hnot y hy, ?_⟩
  cases hy with
  | child _ hs =>
    rw [storedUnder_fields _ hwf _ _ hs]
    exact (h8 hLid hself y hs).2
  | step z _ hz hs =>
    rw [storedUnder_fields _ hwf _ _ hs]
    have hzrank := Descendant_rank pick ops blk rank hrank' z hz
    have hbrank := hrank blk (Or.inl rfl)
    have hzne : z.id ≠ blk.parent := by
      intro e
      rw [e] at hzrank
      omega
    have hzL : ∀ w, w ∈ L → w.id ≠ z.id := by
      intro w hw hwz
      have hwst := Reachable_stored _ hwf blk w ((hLR w).1 hw)
      have hzst := Descendant_stored _ hwf blk z hz
      have hpp : w.parent = z.parent :=
        hglobal w z (stored_was_added pick ops _ w hwst) (stored_was_added pick ops _ z hzst) hwz
      rw [hpp] at hwst
      have := storedUnder_unique _ _ w z hwst hzst hwz
      rw [this] at hw
      exact hnot z hz hw
    obtain ⟨c, hc1, hc2⟩ := hs
    exact ⟨c, by rw [h7 z.id hzne hzL]; exact hc1, hc2⟩

theorem forkOps_reject (x : Block) (h : Op.Add x ∈ forkOps) : x.rejectErr = false := by
  simp only [forkOps, List.mem_cons, Op.Add.injEq, List.mem_singleton, List.not_mem_nil,
    or_false] at h
  rcases h with h | h | h | h <;> rw [h]

theorem forkOps_rank (x : Block) (h : x = ⟨1, 0, 0, false, false⟩ ∨ Op.Add x ∈ forkOps) :
    x.parent < x.id := by
  simp only [forkOps, List.mem_cons, Op.Add.injEq, List.mem_singleton, List.not_mem_nil,
    or_false] at h
  rcases h with h | h | h | h | h <;> rw [h] <;> decide

theorem forkOps_id (x : Block) (h : Op.Add x ∈ forkOps) (hx : x.id = 1) : x.parent = 0 := by
  simp only [forkOps, List.mem_cons, Op.Add.injEq, List.mem_singleton, List.not_mem_nil,
    or_false] at h
  rcases h with h | h | h | h <;> rw [h] at hx ⊢ <;> first | rfl | exact absurd hx (by decide)

/-- Witness of `Accept_rejects_conflicting`: accepting `(ID 1, parent 0)` in the
fork, where the rank of an ID is the ID; the order of `maps.Values` is the order of the
entries. -/
theorem Accept_rejects_conflicting_witness :
    ∃ L : List Block,
      (tree.Accept id (run id forkOps) ⟨1, 0, 0, false, false⟩).calls
        = Call.Accept ⟨1, 0, 0, false, false⟩ :: L.map Call.Reject ∧
      (tree.Accept id (run id forkOps) ⟨1, 0, 0, false, false⟩).err = false ∧ L.Nodup ∧
      (⟨1, 0, 0, false, false⟩ : Block) ∉ L ∧
      (⟨3, 1, 0, false, false⟩ : Block) ∉ L ∧
      StoredUnder (tree.Accept id (run id forkOps) ⟨1, 0, 0, false, false⟩).t 1
        ⟨3, 1, 0, false, false⟩ := by
  obtain ⟨L, h1, h2, h3, _, h5, h6, _⟩ := Accept_rejects_conflicting id forkOps
    ⟨1, 0, 0, false, false⟩ (fun k => k) (fun l => List.Perm.refl l) rfl forkOps_reject
    forkOps_rank forkOps_id
  have hs : StoredUnder (run id forkOps) 1 ⟨3, 1, 0, false, false⟩ :=
    ⟨[(3, ⟨3, 1, 0, false, false⟩)], by decide, by decide⟩
  exact ⟨L, h1, h2, h3, h5, (h6 _ hs).1, (h6 _ hs).2⟩

/-- The hypothesis on the IDs is needed: when a block ID occurs under two parents, as in
the tree built by `collisionOps`, where no `Accept` or `Reject` fails, `Accept` of
`(ID 1, parent 0)` rejects `(ID 3, parent 1)`, a block stored under the accepted
block, which does not stay in the tree. -/
theorem Accept_rejects_child_of_colliding_ID :
    StoredUnder (run id collisionOps) 1 ⟨3, 1, 0, false, false⟩ ∧
    (tree.Accept id (run id collisionOps) ⟨1, 0, 0, false, false⟩).calls =
      [Call.Accept ⟨1, 0, 0, false, false⟩, Call.Reject ⟨2, 0, 0, false, false⟩,
       Call.Reject ⟨1, 2, 0, false, false⟩, Call.Reject ⟨3, 1, 0, false, false⟩] ∧
    (tree.Accept id (run id collisionOps) ⟨1, 0, 0, false, false⟩).err = false ∧
    tree.Get (tree.Accept id (run id collisionOps) ⟨1, 0, 0, false, false⟩).t
      ⟨3, 1, 0, false, false⟩ = none := by
  refine ⟨⟨[(3, ⟨3, 1, 0, false, false⟩)], by decide, by decide⟩, by decide, by decide,
    by decide⟩

theorem size_mapDelete (nodes : List (ID × List (ID × Block))) (k : ID)
    (hk : (nodes.map Prod.fst).Nodup) :
    (match mapGet nodes k with
      | some c => c
      | none => []).length + tree.size (mapDelete nodes k) = tree.size nodes := by
  have h := (allBlocks_split nodes k hk).length_eq
  rw [List.length_append, List.length_map, ← size_eq_length_allBlocks,
    ← size_eq_length_allBlocks] at h
  exact h.symm

/-- The loop of `Accept`, whatever the `Reject` calls return: it calls `Reject` on the
blocks of a list `L`; it deletes the entries of the IDs of the blocks whose `Reject`
succeeded and no other entry; every block of `L` comes from `childrenToReject` or was
stored under the ID of a block of `L` whose `Reject` succeeded; and when no error is
returned, every `Reject` succeeded. -/
theorem rejectLoop_frame (pick : List Block → List Block) (hpick : ∀ l, (pick l).Perm l) :
    ∀ (fuel : Nat) (nodes : List (ID × List (ID × Block))) (stack : List Block)
      (calls : List Call),
      (nodes.map Prod.fst).Nodup → stack.length + tree.size nodes ≤ fuel →
      ∃ L : List Block,
        (tree.rejectLoop pick fuel nodes stack calls).2.1 = calls ++ L.map Call.Reject ∧
        (∀ k, (∃ x, x ∈ L ∧ x.rejectErr = false ∧ x.id = k) →
          mapGet (tree.rejectLoop pick fuel nodes stack calls).1 k = none) ∧
        (∀ k, ¬ (∃ x, x ∈ L ∧ x.rejectErr = false ∧ x.id = k) →
          mapGet (tree.rejectLoop pick fuel nodes stack calls).1 k = mapGet nodes k) ∧
        (∀ x, x ∈ L → x ∈ stack ∨ ∃ y, y ∈ L ∧ y.rejectErr = false ∧
          ∃ c i, mapGet nodes y.id = some c ∧ (i, x) ∈ c) ∧
        ((tree.rejectLoop pick fuel nodes stack calls).2.2 = false →
          ∀ x, x ∈ L → x.rejectErr = false) ∧
        ((tree.rejectLoop pick fuel nodes stack calls).2.2 = true →
          ∃ x, x ∈ L ∧ x.rejectErr = true) := by
  intro fuel
  induction fuel with
  | zero =>
    intro nodes stack calls _ hf
    refine ⟨[], by simp [tree.rejectLoop], ?_, ?_, ?_, ?_, ?_⟩
    · rintro k ⟨x, hx, _⟩; exact absurd hx (List.not_mem_nil _)
    · intro k _; simp [tree.rejectLoop]
    · intro x hx; exact absurd hx (List.not_mem_nil _)
    · intro _ x hx; exact absurd hx (List.not_mem_nil _)
    · intro h; simp [tree.rejectLoop] at h
  | succ fuel ih =>
    intro nodes stack calls hk hf
    rcases List.eq_nil_or_concat stack with hs | ⟨rest, child, hs⟩
    · subst hs
      refine ⟨[], by simp [tree.rejectLoop], ?_, ?_, ?_, ?_, ?_⟩
      · rintro k ⟨x, hx, _⟩; exact absurd hx (List.not_mem_nil _)
      · intro k _; simp [tree.rejectLoop]
      · intro x hx; exact absurd hx (List.not_mem_nil _)
      · intro _ x hx; exact absurd hx (List.not_mem_nil _)
      · intro h; simp [tree.rejectLoop] at h
    · rw [List.concat_eq_append] at hs
      subst hs
      by_cases hr : child.rejectErr = true
      · have e : tree.rejectLoop pick (fuel + 1) nodes (rest ++ [child]) calls
            = (nodes, calls ++ [Call.Reject child], true) := by
          conv_lhs => unfold tree.rejectLoop
          rw [List.getLast?_concat]
          simp only [hr, if_true]
        rw [e]
        refine ⟨[child], rfl, ?_, ?_, ?_, ?_, ?_⟩
        · rintro k ⟨x, hx, hx2, _⟩
          rw [List.mem_singleton] at hx
          rw [hx, hr] at hx2
          exact absurd hx2 (by simp)
        · intro k _; rfl
        · intro x hx
          rw [List.mem_singleton] at hx
          exact Or.inl (by rw [hx]; simp)
        · intro h; exact absurd h (by simp)
        · intro _; exact ⟨child, List.mem_singleton.2 rfl, hr⟩
      · have hr' : child.rejectErr = false := by simpa using hr
        rw [rejectLoop_step pick fuel nodes rest child calls hr']
        obtain ⟨kids, hkids⟩ : ∃ kids, kids = (match mapGet nodes child.id with
            | some c => c
            | none => []) := ⟨_, rfl⟩
        rw [← hkids]
        have hsz := size_mapDelete nodes child.id hk
        rw [← hkids] at hsz
        have hlen : (mapValues pick kids).length = kids.length := by
          unfold mapValues
          rw [(hpick _).length_eq, List.length_map]
        have hfuel : (rest ++ mapValues pick kids).length
            + tree.size (mapDelete nodes child.id) ≤ fuel := by
          rw [List.length_append, hlen]
          rw [List.length_append, List.length_singleton] at hf
          omega
        obtain ⟨L, h1, h2, h3, h4, h5, h6⟩ := ih (mapDelete nodes child.id)
          (rest ++ mapValues pick kids) (calls ++ [Call.Reject child])
          (keys_mapDelete_nodup nodes child.id hk) hfuel
        refine ⟨child :: L, ?_, ?_, ?_, ?_, ?_, ?_⟩
        · rw [h1]; simp
        · rintro k ⟨x, hx, hx2, hx3⟩
          by_cases hin : ∃ x, x ∈ L ∧ x.rejectErr = false ∧ x.id = k
          · exact h2 k hin
          · rw [h3 k hin, mapGet_mapDelete]
            rcases List.mem_cons.1 hx with h | h
            · rw [if_pos (by rw [← hx3, h])]
            · exact absurd ⟨x, h, hx2, hx3⟩ hin
        · intro k hnot
          have hin : ¬ ∃ x, x ∈ L ∧ x.rejectErr = false ∧ x.id = k := by
            rintro ⟨x, hx, hx2, hx3⟩
            exact hnot ⟨x, List.mem_cons_of_mem _ hx, hx2, hx3⟩
          rw [h3 k hin, mapGet_mapDelete, if_neg]
          intro hkc
          exact hnot ⟨child, List.mem_cons_self _ _, hr', hkc.symm⟩
        · intro x hx
          rcases List.mem_cons.1 hx with h | h
          · exact Or.inl (by rw [h]; simp)
          · rcases h4 x h with h' | ⟨y, hy, hy2, c, i, hc, hi⟩
            · rcases List.mem_append.1 h' with h'' | h''
              · exact Or.inl (List.mem_append_left _ h'')
              · right
                refine ⟨child, List.mem_cons_self _ _, hr', ?_⟩
                have hx' : x ∈ kids.map Prod.snd := (hpick _).mem_iff.1 h''
                obtain ⟨e, he, hex⟩ := List.mem_map.1 hx'
                cases hg : mapGet nodes child.id with
                | none =>
                  simp only [hg] at hkids
                  rw [hkids] at he
                  exact absurd he (List.not_mem_nil _)
                | some c =>
                  simp only [hg] at hkids
                  refine ⟨c, e.1, rfl, ?_⟩
                  rw [← hkids, ← hex]
                  exact he
            · right
              refine ⟨y, List.mem_cons_of_mem _ hy, hy2, c, i, ?_, hi⟩
              rw [mapGet_mapDelete] at hc
              by_cases hyc : y.id = child.id
              · rw [if_pos hyc] at hc
                exact absurd hc (by simp)
              · rw [if_neg hyc] at hc
                exact hc
        · intro herr x hx
          rcases List.mem_cons.1 hx with h | h
          · rw [h]; exact hr'
          · exact h5 herr x h
        · intro herr
          obtain ⟨x, hx, hx2⟩ := h6 herr
          exact ⟨x, List.mem_cons_of_mem _ hx, hx2⟩

theorem sibling_of_mem_values (pick : List Block → List Block) (hpick : ∀ l, (pick l).Perm l)
    (t : tree) (blk : Block) (hwf : WF t.nodes) (x : Block)
    (h : x ∈ mapValues pick (mapDelete (match mapGet t.nodes blk.parent with
      | some c => c
      | none => []) blk.id)) :
    StoredUnder t blk.parent x ∧ x.id ≠ blk.id := by
  unfold mapValues at h
  rw [(hpick _).mem_iff] at h
  obtain ⟨⟨i, y⟩, h6, h7⟩ := List.mem_map.1 h
  have hxy : y = x := h7
  rw [hxy] at h6
  have h8 := (mem_mapDelete _ _ _).1 h6
  cases hg : mapGet t.nodes blk.parent with
  | none =>
    simp only [hg] at h8
    exact absurd h8.1 (List.not_mem_nil _)
  | some c =>
    simp only [hg] at h8
    have hi := ((hwf.inner _ c (mapGet_some_mem _ _ _ hg)).2 i x h8.1).1
    exact ⟨(storedUnder_iff t hwf _ x).2 ⟨c, i, hg, h8.1⟩, by rw [hi]; exact h8.2⟩

theorem stored_of_mapDelete (t : tree) (blk : Block) (hwf : WF t.nodes) (y x : Block)
    (h : ∃ c i, mapGet (mapDelete t.nodes blk.parent) y.id = some c ∧ (i, x) ∈ c) :
    y.id ≠ blk.parent ∧ StoredUnder t y.id x := by
  rw [storedUnder_iff t hwf]
  obtain ⟨c, i, h5, h6⟩ := h
  rw [mapGet_mapDelete] at h5
  by_cases hy : y.id = blk.parent
  · rw [if_pos hy] at h5; exact absurd h5 (by simp)
  · rw [if_neg hy] at h5; exact ⟨hy, c, i, h5, h6⟩

/-- `Accept` on a well-formed tree when the `Accept` of the block succeeds, whatever
the `Reject` calls return: the entries deleted are the entry of the parent of the
block and the entries of the IDs of the blocks whose `Reject` succeeded; a block on
which `Reject` is called is a sibling of the block or was stored under the ID of a
block whose `Reject` succeeded. -/
theorem Accept_frame (pick : List Block → List Block) (hpick : ∀ l, (pick l).Perm l)
    (t : tree) (blk : Block) (hwf : WF t.nodes) (hacc : blk.acceptErr = false) :
    ∃ L : List Block,
      (tree.Accept pick t blk).calls = Call.Accept blk :: L.map Call.Reject ∧
      (∀ k, (k = blk.parent ∨ ∃ x, x ∈ L ∧ x.rejectErr = false ∧ x.id = k) →
        mapGet (tree.Accept pick t blk).t.nodes k = none) ∧
      (∀ k, ¬ (k = blk.parent ∨ ∃ x, x ∈ L ∧ x.rejectErr = false ∧ x.id = k) →
        mapGet (tree.Accept pick t blk).t.nodes k = mapGet t.nodes k) ∧
      (∀ x, x ∈ L → (StoredUnder t blk.parent x ∧ x.id ≠ blk.id) ∨
        ∃ y, y ∈ L ∧ y.rejectErr = false ∧ y.id ≠ blk.parent ∧ StoredUnder t y.id x) ∧
      ((tree.Accept pick t blk).err = false → ∀ x, x ∈ L → x.rejectErr = false) ∧
      ((tree.Accept pick t blk).err = true → ∃ x, x ∈ L ∧ x.rejectErr = true) := by
  obtain ⟨L, h1, h2, h3, h4, h5, h6⟩ := rejectLoop_frame pick hpick
    ((mapValues pick (mapDelete (match mapGet t.nodes blk.parent with
      | some c => c
      | none => []) blk.id)).length + tree.size (mapDelete t.nodes blk.parent))
    (mapDelete t.nodes blk.parent)
    (mapValues pick (mapDelete (match mapGet t.nodes blk.parent with
      | some c => c
      | none => []) blk.id)) [Call.Accept blk]
    (keys_mapDelete_nodup _ _ hwf.keys) (le_refl _)
  have hres : tree.Accept pick t blk =
      ⟨⟨(tree.rejectLoop pick ((mapValues pick (mapDelete (match mapGet t.nodes blk.parent with
            | some c => c
            | none => []) blk.id)).length
          + tree.size (mapDelete t.nodes blk.parent)) (mapDelete t.nodes blk.parent)
          (mapValues pick (mapDelete (match mapGet t.nodes blk.parent with
            | some c => c
            | none => []) blk.id)) [Call.Accept blk]).1⟩,
        (tree.rejectLoop pick ((mapValues pick (mapDelete (match mapGet t.nodes blk.parent with
            | some c => c
            | none => []) blk.id)).length
          + tree.size (mapDelete t.nodes blk.parent)) (mapDelete t.nodes blk.parent)
          (mapValues pick (mapDelete (match mapGet t.nodes blk.parent with
            | some c => c
            | none => []) blk.id)) [Call.Accept blk]).2.1,
        (tree.rejectLoop pick ((mapValues pick (mapDelete (match mapGet t.nodes blk.parent with
            | some c => c
            | none => []) blk.id)).length
          + tree.size (mapDelete t.nodes blk.parent)) (mapDelete t.nodes blk.parent)
          (mapValues pick (mapDelete (match mapGet t.nodes blk.parent with
            | some c => c
            | none => []) blk.id)) [Call.Accept blk]).2.2⟩ := by
    unfold tree.Accept
    rw [hacc]
    simp
  rw [hres]
  dsimp only
  refine ⟨L, h1, ?_, ?_, ?_, h5, h6⟩
  · rintro k (hk | hk)
    · by_cases hin : ∃ x, x ∈ L ∧ x.rejectErr = false ∧ x.id = k
      · exact h2 k hin
      · rw [h3 k hin, mapGet_mapDelete, if_pos hk]
    · exact h2 k hk
  · intro k hk
    rw [h3 k (fun h => hk (Or.inr h)), mapGet_mapDelete, if_neg (fun h => hk (Or.inl h))]
  · intro x hx
    rcases h4 x hx with h | ⟨y, hy, hy2, hy3⟩
    · exact Or.inl (sibling_of_mem_values pick hpick t blk hwf x h)
    · have := stored_of_mapDelete t blk hwf y x hy3
      exact Or.inr ⟨y, hy, hy2, this.1, this.2⟩

theorem Get_Add (t : tree) (x b : Block) :
    tree.Get (t.Add x) b =
      if x.parent = b.parent ∧ x.id = b.id then some x else tree.Get t b := by
  unfold tree.Get tree.Add
  dsimp only
  rw [mapGet_mapSet]
  by_cases hp : b.parent = x.parent
  · rw [if_pos hp]
    dsimp only
    rw [mapGet_mapSet, hp]
    by_cases hi : b.id = x.id
    · rw [if_pos hi, if_pos ⟨rfl, hi.symm⟩]
    · rw [if_neg hi, if_neg (fun h => hi h.2.symm)]
      cases mapGet t.nodes x.parent <;> rfl
  · rw [if_neg hp, if_neg (fun h => hp h.1.symm)]

theorem Get_fields (t : tree) (hwf : WF t.nodes) (b x : Block) (h : tree.Get t b = some x) :
    x.id = b.id ∧ x.parent = b.parent ∧ StoredUnder t b.parent x := by
  unfold tree.Get at h
  cases hg : mapGet t.nodes b.parent with
  | none => rw [hg] at h; exact absurd h (by simp)
  | some c =>
    rw [hg] at h
    dsimp only at h
    have hc := hwf.inner _ c (mapGet_some_mem _ _ _ hg)
    have hx := hc.2 b.id x (mapGet_some_mem _ _ _ h)
    exact ⟨hx.1, hx.2, c, hg, by rw [hx.1]; exact h⟩

theorem Get_congr (t1 t2 : tree) (b : Block)
    (h : mapGet t1.nodes b.parent = mapGet t2.nodes b.parent) : tree.Get t1 b = tree.Get t2 b := by
  unfold tree.Get
  rw [h]

theorem Get_none_of_deleted (t : tree) (b : Block) (h : mapGet t.nodes b.parent = none) :
    tree.Get t b = none := by
  unfold tree.Get
  rw [h]

/-- C9: on a tree built by `Add` and `Accept` calls, `Get(b)` returns nothing on a new
tree; after `Add(x)` it returns `x` when `x` has the parent and the ID of `b`, and
what it returned before otherwise; an `Accept(blk)` whose call to the block fails
leaves the tree as it is; after any other `Accept(blk)`, whether it succeeds or a
`Reject` fails, `Get(b)` returns nothing when the parent of `b` is the parent of `blk`
or the ID of a block whose `Reject` succeeded, and what it returned before otherwise,
so that it returns nothing for `blk` and for every block on which `Reject` was called.
After a successful `Accept(blk)` every `Reject` called has succeeded: `Get(b)` returns
nothing when the parent of `b` is the parent of `blk` or the ID of a rejected block,
and what it returned before otherwise. A block that `Get(b)` returns has the ID and
the parent of `b` and was added. In particular `Get(b)` right after `Add(b)` returns
`b`, and after a successful `Accept(blk)`, `Get` returns nothing for `blk` and for
every rejected block. -/
theorem Get_returns_stored_block (pick : List Block → List Block) (ops : List Op)
    (hpick : ∀ l, (pick l).Perm l) :
    (∀ b, tree.Get New b = none) ∧
    (∀ x b, tree.Get ((run pick ops).Add x) b =
      if x.parent = b.parent ∧ x.id = b.id then some x else tree.Get (run pick ops) b) ∧
    (∀ b x, tree.Get (run pick ops) b = some x →
      x.id = b.id ∧ x.parent = b.parent ∧ Op.Add x ∈ ops) ∧
    (∀ b, tree.Get ((run pick ops).Add b) b = some b) ∧
    (∀ blk, blk.acceptErr = true →
      (tree.Accept pick (run pick ops) blk).t = run pick ops ∧
      (tree.Accept pick (run pick ops) blk).err = true) ∧
    (∀ blk, blk.acceptErr = false →
      (∀ b, (b.parent = blk.parent ∨
          ∃ x, Call.Reject x ∈ (tree.Accept pick (run pick ops) blk).calls ∧
            x.rejectErr = false ∧ x.id = b.parent) →
        tree.Get (tree.Accept pick (run pick ops) blk).t b = none) ∧
      (∀ b, ¬ (b.parent = blk.parent ∨
          ∃ x, Call.Reject x ∈ (tree.Accept pick (run pick ops) blk).calls ∧
            x.rejectErr = false ∧ x.id = b.parent) →
        tree.Get (tree.Accept pick (run pick ops) blk).t b = tree.Get (run pick ops) b) ∧
      tree.Get (tree.Accept pick (run pick ops) blk).t blk = none ∧
      (∀ x, Call.Reject x ∈ (tree.Accept pick (run pick ops) blk).calls →
        tree.Get (tree.Accept pick (run pick ops) blk).t x = none) ∧
      ((∀ x, Op.Add x ∈ ops → x.rejectErr = false) →
        (tree.Accept pick (run pick ops) blk).err = false) ∧
      ((tree.Accept pick (run pick ops) blk).err = false →
        (∀ x, Call.Reject x ∈ (tree.Accept pick (run pick ops) blk).calls →
          x.rejectErr = false) ∧
        (∀ b, (b.parent = blk.parent ∨
            ∃ x, Call.Reject x ∈ (tree.Accept pick (run pick ops) blk).calls ∧
              x.id = b.parent) →
          tree.Get (tree.Accept pick (run pick ops) blk).t b = none) ∧
        (∀ b, ¬ (b.parent = blk.parent ∨
            ∃ x, Call.Reject x ∈ (tree.Accept pick (run pick ops) blk).calls ∧
              x.id = b.parent) →
          tree.Get (tree.Accept pick (run pick ops) blk).t b
            = tree.Get (run pick ops) b))) := by
  have hwf := WF_run pick ops
  refine ⟨fun b => rfl, fun x b => Get_Add _ x b, fun b x h => ?_, fun b => ?_, fun blk h => ?_,
    fun blk hacc => ?_⟩
  · obtain ⟨h1, h2, h3⟩ := Get_fields _ hwf b x h
    exact ⟨h1, h2, stored_was_added pick ops _ x h3⟩
  · rw [Get_Add, if_pos ⟨rfl, rfl⟩]
  · unfold tree.Accept
    rw [h]
    exact ⟨rfl, rfl⟩
  · obtain ⟨L, h1, h2, h3, h4, h5, h6⟩ :=
      Accept_frame pick hpick (run pick ops) blk hwf hacc
    have hcalls : ∀ x, Call.Reject x ∈ (tree.Accept pick (run pick ops) blk).calls ↔ x ∈ L := by
      intro x
      rw [h1]
      simp
    have hdel : ∀ b : Block, (b.parent = blk.parent ∨
        ∃ x, Call.Reject x ∈ (tree.Accept pick (run pick ops) blk).calls ∧
          x.rejectErr = false ∧ x.id = b.parent) ↔
        (b.parent = blk.parent ∨ ∃ x, x ∈ L ∧ x.rejectErr = false ∧ x.id = b.parent) := by
      intro b
      constructor
      · rintro (h | ⟨x, hx, hx2⟩)
        · exact Or.inl h
        · exact Or.inr ⟨x, (hcalls x).1 hx, hx2⟩
      · rintro (h | ⟨x, hx, hx2⟩)
        · exact Or.inl h
        · exact Or.inr ⟨x, (hcalls x).2 hx, hx2⟩
    have hnone : ∀ b : Block,
        (b.parent = blk.parent ∨ ∃ x, x ∈ L ∧ x.rejectErr = false ∧ x.id = b.parent) →
        tree.Get (tree.Accept pick (run pick ops) blk).t b = none := by
      intro b hb
      apply Get_none_of_deleted
      exact h2 b.parent hb
    have hsame : ∀ b : Block,
        ¬ (b.parent = blk.parent ∨ ∃ x, x ∈ L ∧ x.rejectErr = false ∧ x.id = b.parent) →
        tree.Get (tree.Accept pick (run pick ops) blk).t b = tree.Get (run pick ops) b := by
      intro b hb
      apply Get_congr
      exact h3 b.parent hb
    refine ⟨fun b hb => hnone b ((hdel b).1 hb), fun b hb => hsame b (fun h => hb ((hdel b).2 h)),
      hnone blk (Or.inl rfl), fun x hx => ?_, fun hrej => ?_, fun herr => ⟨fun x hx => ?_,
      fun b hb => ?_, fun b hb => ?_⟩⟩
    · apply hnone
      rcases h4 x ((hcalls x).1 hx) with ⟨hs, _⟩ | ⟨y, hy, hy2, _, hs⟩
      · exact Or.inl (storedUnder_fields _ hwf _ _ hs)
      · exact Or.inr ⟨y, hy, hy2, (storedUnder_fields _ hwf _ _ hs).symm⟩
    · cases herr : (tree.Accept pick (run pick ops) blk).err with
      | false => rfl
      | true =>
        obtain ⟨x, hx, hx2⟩ := h6 herr
        have hst : ∃ k, StoredUnder (run pick ops) k x := by
          rcases h4 x hx with ⟨hs, _⟩ | ⟨y, _, _, _, hs⟩
          · exact ⟨_, hs⟩
          · exact ⟨_, hs⟩
        obtain ⟨k, hk⟩ := hst
        rw [hrej x (stored_was_added pick ops k x hk)] at hx2
        exact absurd hx2 (by simp)
    · exact h5 herr x ((hcalls x).1 hx)
    · apply hnone
      rcases hb with h | ⟨x, hx, hx2⟩
      · exact Or.inl h
      · exact Or.inr ⟨x, (hcalls x).1 hx, h5 herr x ((hcalls x).1 hx), hx2⟩
    · apply hsame
      rintro (h | ⟨x, hx, _, hx2⟩)
      · exact hb (Or.inl h)
      · exact hb (Or.inr ⟨x, (hcalls x).2 hx, hx2⟩)

/-- Witness of `Get_returns_stored_block`, with `maps.Values` in the order of the
entries: in the fork, `Get` returns the block `(ID 3, parent 1)`, a block that was
added; in the tree built by `failingOps`, `Accept` of `(ID 1, parent 0)` rejects
`(ID 3, parent 0)`, fails at the `Reject` of `(ID 4, parent 3)`, and `Get` then returns
nothing for that block. -/
theorem Get_returns_stored_block_witness :
    tree.Get (run id forkOps) ⟨3, 1, 7, true, true⟩ = some ⟨3, 1, 0, false, false⟩ ∧
    Op.Add ⟨3, 1, 0, false, false⟩ ∈ forkOps ∧
    (tree.Accept id (run id failingOps) ⟨1, 0, 0, false, false⟩).calls =
      [Call.Accept ⟨1, 0, 0, false, false⟩, Call.Reject ⟨3, 0, 0, false, false⟩,
       Call.Reject ⟨4, 3, 0, false, true⟩] ∧
    (tree.Accept id (run id failingOps) ⟨1, 0, 0, false, false⟩).err = true ∧
    tree.Get (tree.Accept id (run id failingOps) ⟨1, 0, 0, false, false⟩).t
      ⟨4, 3, 0, false, true⟩ = none :=
  ⟨by decide,
   ((Get_returns_stored_block id forkOps (fun l => List.Perm.refl l)).2.2.1
    ⟨3, 1, 7, true, true⟩ ⟨3, 1, 0, false, false⟩ (by decide)).2.2,
   by decide, by decide,
   ((Get_returns_stored_block id failingOps (fun l => List.Perm.refl l)).2.2.2.2.2
    ⟨1, 0, 0, false, false⟩ rfl).2.2.2.1 ⟨4, 3, 0, false, true⟩ (by decide)⟩

end Tree

/-! ### vms/platformvm/warp -/

namespace Warp

theorem BitLen_gt_iff (indices : Bits) (n : Nat) :
    n < Bits.BitLen indices ↔ ∃ i, n ≤ i ∧ Bits.Contains indices i = true := by
  unfold Bits.BitLen Bits.Contains
  rw [F64.lt_bitLen_iff]
  constructor
  · intro h
    by_contra hc
    have : indices < 2 ^ n := by
      apply Nat.lt_pow_two_of_testBit
      intro i hi
      by_contra h1
      exact hc ⟨i, hi, by simpa using h1⟩
    exact absurd h (not_le.2 this)
  · rintro ⟨i, hi, h⟩
    exact le_trans (Nat.pow_le_pow_right (by omega) hi) (Nat.testBit_implies_ge h)

theorem filterFrom_eq (indices : Bits) : ∀ (vdrs : List Validator) (k : Nat),
    filterFrom indices k vdrs =
      (List.range vdrs.length).filterMap
        (fun i => if Bits.Contains indices (k + i) = true then vdrs[i]? else none) := by
  intro vdrs
  induction vdrs with
  | nil => intro k; rfl
  | cons v vdrs ih =>
    intro k
    unfold filterFrom
    rw [ih (k + 1), List.length_cons, List.range_succ_eq_map, List.filterMap_cons,
      List.filterMap_map]
    have e : ((fun i => if Bits.Contains indices (k + i) = true then (v :: vdrs)[i]? else none)
        ∘ Nat.succ) =
        (fun i => if Bits.Contains indices (k + 1 + i) = true then vdrs[i]? else none) := by
      funext i
      simp only [Function.comp, Nat.succ_eq_add_one, List.getElem?_cons_succ]
      rw [show k + (i + 1) = k + 1 + i by omega]
    rw [e]
    by_cases h : Bits.Contains indices k = true
    · simp [h]
    · have h' : Bits.Contains indices k = false := by simpa using h
      simp [h']

theorem filterFrom_sublist (indices : Bits) : ∀ (vdrs : List Validator) (k : Nat),
    List.Sublist (filterFrom indices k vdrs) vdrs := by
  intro vdrs
  induction vdrs with
  | nil => intro k; exact List.Sublist.refl _
  | cons v vdrs ih =>
    intro k
    unfold filterFrom
    split
    · exact List.sublist_cons_of_sublist _ (ih _)
    · exact List.Sublist.cons₂ _ (ih _)

/-- C10: `FilterValidators(indices, vdrs)` returns the error `ErrUnknownValidator` iff
`indices.BitLen() > len(vdrs)`, that is iff some set bit has an index `>= len(vdrs)`;
otherwise it returns, without error, the validators `vdrs[i]` whose bit `i` is set, in
increasing order of `i`: a subsequence of `vdrs`. -/
theorem FilterValidators_spec (indices : Bits) (vdrs : List Validator) :
    (FilterValidators indices vdrs = Except.error WarpError.ErrUnknownValidator ↔
      vdrs.length < Bits.BitLen indices) ∧
    (vdrs.length < Bits.BitLen indices ↔
      ∃ i, vdrs.length ≤ i ∧ Bits.Contains indices i = true) ∧
    (¬ vdrs.length < Bits.BitLen indices →
      FilterValidators indices vdrs = Except.ok
        ((List.range vdrs.length).filterMap
          (fun i => if Bits.Contains indices i = true then vdrs[i]? else none)) ∧
      List.Sublist ((List.range vdrs.length).filterMap
        (fun i => if Bits.Contains indices i = true then vdrs[i]? else none)) vdrs) := by
  have hspec := filterFrom_eq indices vdrs 0
  simp only [Nat.zero_add] at hspec
  refine ⟨?_, BitLen_gt_iff indices vdrs.length, fun h => ?_⟩
  · unfold FilterValidators
    constructor
    · intro h
      by_contra hc
      rw [if_neg hc] at h
      exact absurd h (by simp)
    · intro h
      rw [if_pos h]
  · constructor
    · unfold FilterValidators
      rw [if_neg h, hspec]
    · rw [← hspec]
      exact filterFrom_sublist indices vdrs 0

/-- Example of `FilterValidators_spec`: the bits 0 and 2 of three validators. -/
theorem FilterValidators_spec_witness :
    FilterValidators 5 [⟨[1], 10, [1]⟩, ⟨[2], 20, [2]⟩, ⟨[3], 30, [3]⟩]
      = Except.ok [⟨[1], 10, [1]⟩, ⟨[3], 30, [3]⟩] := by
  have h := (FilterValidators_spec 5 [⟨[1], 10, [1]⟩, ⟨[2], 20, [2]⟩, ⟨[3], 30, [3]⟩]).2.2
    (by decide)
  rw [h.1]
  rfl

end Warp

namespace Warp

theorem sumWeightFrom_eq : ∀ (vdrs : List Validator) (weight : Nat), weight < 2 ^ 64 →
    sumWeightFrom weight vdrs =
      if weight + (vdrs.map (fun v => v.Weight)).sum < 2 ^ 64
      then (weight + (vdrs.map (fun v => v.Weight)).sum, none)
      else (0, some WarpError.ErrWeightOverflow) := by
  intro vdrs
  induction vdrs with
  | nil =>
    intro weight hw
    simp only [sumWeightFrom, List.map_nil, List.sum_nil, Nat.add_zero]
    rw [if_pos hw]
  | cons v vdrs ih =>
    intro weight hw
    simp only [sumWeightFrom, List.map_cons, List.sum_cons, Benchlist.Add64]
    by_cases h : weight + v.Weight < 2 ^ 64
    · rw [if_pos h]
      simp only []
      rw [ih _ h, Nat.add_assoc]
    · rw [if_neg h]
      simp only []
      rw [if_neg (by omega)]

/-- C11: `SumWeight(vdrs)` returns the exact sum of the `Weight` fields and a nil
error when that sum is at most `2^64 - 1` (`0` for the empty list), and it returns
`0` and `ErrWeightOverflow` if and only if the exact sum is greater than `2^64 - 1`. -/
theorem SumWeight_exact_or_overflow (vdrs : List Validator) :
    ((vdrs.map (fun v => v.Weight)).sum ≤ 2 ^ 64 - 1 →
      SumWeight vdrs = ((vdrs.map (fun v => v.Weight)).sum, none)) ∧
    (SumWeight vdrs = (0, some WarpError.ErrWeightOverflow) ↔
      2 ^ 64 - 1 < (vdrs.map (fun v => v.Weight)).sum) ∧
    SumWeight [] = (0, none) := by
  have h := sumWeightFrom_eq vdrs 0 (by norm_num)
  rw [Nat.zero_add] at h
  refine ⟨fun hle => ?_, ⟨fun he => ?_, fun hlt => ?_⟩, rfl⟩
  · unfold SumWeight
    rw [h, if_pos (by omega)]
  · by_contra hc
    unfold SumWeight at he
    rw [h, if_pos (by omega)] at he
    exact absurd (congrArg Prod.snd he) (by simp)
  · unfold SumWeight
    rw [h, if_neg (by omega)]

/-- Example of `SumWeight_exact_or_overflow`: a sum below `2^64` and a sum of `2^64`. -/
theorem SumWeight_exact_or_overflow_witness :
    SumWeight [⟨[1], 10, [1]⟩, ⟨[2], 20, [2]⟩] = (30, none) ∧
    SumWeight [⟨[1], 2 ^ 64 - 1, [1]⟩, ⟨[2], 1, [2]⟩] = (0, some WarpError.ErrWeightOverflow) :=
  ⟨(SumWeight_exact_or_overflow [⟨[1], 10, [1]⟩, ⟨[2], 20, [2]⟩]).1 (by decide),
   (SumWeight_exact_or_overflow [⟨[1], 2 ^ 64 - 1, [1]⟩, ⟨[2], 1, [2]⟩]).2.1.2 (by decide)⟩

end Warp

namespace Warp

theorem Compare_swap : ∀ (a b : List Nat), Compare b a = - Compare a b
  | [], [] => by simp [Compare]
  | [], _ :: _ => by simp [Compare]
  | _ :: _, [] => by simp [Compare]
  | x :: as, y :: bs => by
    simp only [Compare]
    have ih := Compare_swap as bs
    split_ifs <;> omega

theorem Compare_eq_zero_iff : ∀ (a b : List Nat), Compare a b = 0 ↔ a = b
  | [], [] => by simp [Compare]
  | [], _ :: _ => by simp [Compare]
  | _ :: _, [] => by simp [Compare]
  | x :: as, y :: bs => by
    simp only [Compare]
    have ih := Compare_eq_zero_iff as bs
    split_ifs with h1 h2
    · simp; omega
    · simp; omega
    · have : x = y := by omega
      simp [this, ih]

theorem Compare_lt_iff_lex : ∀ (a b : List Nat),
    Compare a b < 0 ↔ List.Lex (fun x y => x < y) a b
  | [], [] => by
    simp only [Compare, lt_self_iff_false, false_iff]
    intro h; cases h
  | [], _ :: _ => by
    simp only [Compare, Int.reduceNeg, Int.reduceLT, true_iff]
    exact List.Lex.nil
  | _ :: _, [] => by
    simp only [Compare, Int.reduceLT, false_iff]
    intro h; cases h
  | x :: as, y :: bs => by
    simp only [Compare]
    have ih := Compare_lt_iff_lex as bs
    split_ifs with h1 h2
    · simp only [Int.reduceNeg, Int.reduceLT, true_iff]
      exact List.Lex.rel h1
    · simp only [Int.reduceLT, false_iff]
      intro h
      cases h with
      | cons h => exact absurd h2 (lt_irrefl _)
      | rel h => exact h1 h
    · have e : x = y := by omega
      subst e
      rw [ih]
      constructor
      · exact List.Lex.cons
      · intro h
        cases h with
        | cons h => exact h
        | rel h => exact absurd h (lt_irrefl _)

theorem Compare_trans : ∀ (a b c : List Nat),
    Compare a b ≤ 0 → Compare b c ≤ 0 → Compare a c ≤ 0
  | [], _, [] => by intros; simp [Compare]
  | [], _, _ :: _ => by intros; simp [Compare]
  | _ :: _, [], _ => by intro h; simp [Compare] at h
  | _ :: _, _ :: _, [] => by intro _ h; simp [Compare] at h
  | x :: as, y :: bs, z :: cs => by
    simp only [Compare]
    have ih := Compare_trans as bs cs
    intro h1 h2
    split_ifs at h1 h2 ⊢ <;> omega

theorem Validator_Less_false_iff (a b : Validator) :
    b.Less a = false ↔ Compare a.PublicKeyBytes b.PublicKeyBytes ≤ 0 := by
  unfold Validator.Less
  rw [decide_eq_false_iff_not, Compare_swap a.PublicKeyBytes b.PublicKeyBytes]
  omega

theorem Less_of_not_Less (a b : Validator) (h : b.Less a = false)
    (hne : a.PublicKeyBytes ≠ b.PublicKeyBytes) :
    Compare a.PublicKeyBytes b.PublicKeyBytes < 0 := by
  rw [Validator_Less_false_iff] at h
  have := mt (Compare_eq_zero_iff a.PublicKeyBytes b.PublicKeyBytes).1 hne
  omega

theorem insertionSort_sorts (l : List Validator) :
    (insertionSort l).Perm l ∧ (insertionSort l).Pairwise (fun a b => b.Less a = false) := by
  haveI : IsTotal Validator (fun a b => b.Less a = false) := ⟨fun a b => by
    rw [Validator_Less_false_iff, Validator_Less_false_iff, Compare_swap a.PublicKeyBytes b.PublicKeyBytes]
    omega⟩
  haveI : IsTrans Validator (fun a b => b.Less a = false) := ⟨fun a b c => by
    rw [Validator_Less_false_iff, Validator_Less_false_iff, Validator_Less_false_iff]
    exact Compare_trans _ _ _⟩
  exact ⟨List.perm_insertionSort _ l, List.sorted_insertionSort _ l⟩

end Warp

namespace Warp

theorem vdrs_mapGet_some_mem : ∀ (m : List (List Nat × Validator)) (k : List Nat) (v : Validator),
    mapGet m k = some v → (k, v) ∈ m
  | [], _, _ => by simp [mapGet]
  | (k', v') :: m, k, v => by
    simp only [mapGet]
    split_ifs with h
    · intro e
      rw [Option.some.injEq] at e
      rw [h, e]
      exact List.mem_cons_self _ _
    · intro e
      exact List.mem_cons_of_mem _ (vdrs_mapGet_some_mem m k v e)

theorem mapGet_none_not_mem : ∀ (m : List (List Nat × Validator)) (k : List Nat),
    mapGet m k = none → k ∉ m.map Prod.fst
  | [], _ => by simp
  | (k', v') :: m, k => by
    simp only [mapGet]
    split_ifs with h
    · simp
    · intro e
      have := mapGet_none_not_mem m k e
      simp only [List.map_cons, List.mem_cons, not_or]
      exact ⟨h, this⟩

theorem vdrs_mem_mapSet (m : List (List Nat × Validator)) (k : List Nat) (v : Validator)
    (e : List Nat × Validator) :
    e ∈ mapSet m k v ↔ (e ∈ m ∧ e.1 ≠ k) ∨ e = (k, v) := by
  unfold mapSet
  simp [List.mem_append, List.mem_filter]

theorem vdrs_keys_mapSet_nodup (m : List (List Nat × Validator)) (k : List Nat) (v : Validator)
    (h : (m.map Prod.fst).Nodup) : ((mapSet m k v).map Prod.fst).Nodup := by
  unfold mapSet
  rw [List.map_append, List.nodup_append]
  refine ⟨(List.Sublist.map _ (List.filter_sublist _)).nodup h, by simp, ?_⟩
  intro a ha hb
  simp only [List.map_cons, List.map_nil, List.mem_singleton] at hb
  simp only [List.mem_map, List.mem_filter, decide_eq_true_eq] at ha
  obtain ⟨e, ⟨_, hne⟩, he⟩ := ha
  exact hne (he.trans hb)

theorem groupOf_append_other (f : PublicKey → List Nat) (done : List GetValidatorOutput)
    (v : GetValidatorOutput) (k : List Nat) (h : v.PublicKey.map f ≠ some k) :
    groupOf f (done ++ [v]) k = groupOf f done k := by
  have hf : decide (v.PublicKey.map f = some k) = false := decide_eq_false h
  unfold groupOf
  simp only [List.filter_append, List.filter_cons, List.filter_nil, hf, Bool.false_eq_true,
    if_false, List.append_nil]

theorem groupOf_append_same (f : PublicKey → List Nat) (done : List GetValidatorOutput)
    (v : GetValidatorOutput) (k : List Nat) (h : v.PublicKey.map f = some k) :
    groupOf f (done ++ [v]) k =
      { groupOf f done k with
        Weight := (groupOf f done k).Weight + v.Weight
        NodeIDs := (groupOf f done k).NodeIDs ++ [v.NodeID] } := by
  have hf : decide (v.PublicKey.map f = some k) = true := decide_eq_true h
  unfold groupOf
  simp only [List.filter_append, List.filter_cons, List.filter_nil, hf, if_true,
    List.map_append, List.map_cons, List.map_nil, List.sum_append, List.sum_cons, List.sum_nil,
    Nat.add_zero]

theorem groupOf_of_no_key (f : PublicKey → List Nat) (done : List GetValidatorOutput)
    (k : List Nat) (h : ¬ ∃ v ∈ done, v.PublicKey.map f = some k) :
    groupOf f done k = { PublicKeyBytes := k, Weight := 0, NodeIDs := [] } := by
  have e : done.filter (fun v => decide (v.PublicKey.map f = some k)) = [] := by
    rw [List.filter_eq_nil_iff]
    intro v hv hk
    exact h ⟨v, hv, by simpa using hk⟩
  unfold groupOf
  rw [e]
  rfl

theorem sum_filter_weight_le (p : GetValidatorOutput → Bool) :
    ∀ (l : List GetValidatorOutput),
      ((l.filter p).map (fun v => v.Weight)).sum ≤ (l.map (fun v => v.Weight)).sum
  | [] => by simp
  | v :: l => by
    have ih := sum_filter_weight_le p l
    rw [List.filter_cons]
    split_ifs
    · simp only [List.map_cons, List.sum_cons]; omega
    · simp only [List.map_cons, List.sum_cons]; omega

theorem groupOf_weight_le (f : PublicKey → List Nat) (done : List GetValidatorOutput)
    (k : List Nat) : (groupOf f done k).Weight ≤ (done.map (fun v => v.Weight)).sum :=
  sum_filter_weight_le _ done

end Warp

namespace Warp

theorem LoopInv_nil (f : PublicKey → List Nat) : LoopInv f [] [] 0 where
  nodup := List.nodup_nil
  entries := by simp
  keys := by simp
  total := rfl
  bound := by norm_num

theorem LoopInv_skip (f : PublicKey → List Nat) (done : List GetValidatorOutput)
    (m : List (List Nat × Validator)) (total : Nat) (v : GetValidatorOutput)
    (hinv : LoopInv f done m total) (hk : v.PublicKey = none)
    (hb : total + v.Weight < 2 ^ 64) : LoopInv f (done ++ [v]) m (total + v.Weight) where
  nodup := hinv.nodup
  entries := by
    intro k u hu
    rw [groupOf_append_other f done v k (by rw [hk]; simp)]
    exact hinv.entries k u hu
  keys := by
    intro k
    rw [hinv.keys k]
    constructor
    · rintro ⟨u, hu, e⟩
      exact ⟨u, List.mem_append_left _ hu, e⟩
    · rintro ⟨u, hu, e⟩
      rcases List.mem_append.1 hu with h | h
      · exact ⟨u, h, e⟩
      · rw [List.mem_singleton] at h
        rw [h, hk] at e
        simp at e
  total := by
    rw [hinv.total]
    simp
  bound := hb

theorem LoopInv_visit (f : PublicKey → List Nat) (done : List GetValidatorOutput)
    (m : List (List Nat × Validator)) (total : Nat) (v : GetValidatorOutput) (pk : PublicKey)
    (hinv : LoopInv f done m total) (hk : v.PublicKey = some pk)
    (hb : total + v.Weight < 2 ^ 64) :
    LoopInv f (done ++ [v])
      (mapSet m (f pk)
        { (match mapGet m (f pk) with
            | some u => u
            | none => { PublicKeyBytes := f pk, Weight := 0, NodeIDs := [] } : Validator) with
          Weight := ((match mapGet m (f pk) with
            | some u => u
            | none => { PublicKeyBytes := f pk, Weight := 0, NodeIDs := [] } : Validator).Weight
              + v.Weight) % 2 ^ 64
          NodeIDs := (match mapGet m (f pk) with
            | some u => u
            | none => { PublicKeyBytes := f pk, Weight := 0, NodeIDs := [] } : Validator).NodeIDs
              ++ [v.NodeID] })
      (total + v.Weight) := by
  have hkey : v.PublicKey.map f = some (f pk) := by rw [hk]; rfl
  have hu : (match mapGet m (f pk) with
      | some u => u
      | none => { PublicKeyBytes := f pk, Weight := 0, NodeIDs := [] } : Validator)
      = groupOf f done (f pk) := by
    cases hg : mapGet m (f pk) with
    | some u => exact hinv.entries _ _ (vdrs_mapGet_some_mem m _ u hg)
    | none =>
      have hnot := mapGet_none_not_mem m _ hg
      rw [hinv.keys] at hnot
      exact (groupOf_of_no_key f done _ hnot).symm
  rw [hu]
  have hw : (groupOf f done (f pk)).Weight + v.Weight < 2 ^ 64 := by
    have := groupOf_weight_le f done (f pk)
    have := hinv.total
    omega
  rw [Nat.mod_eq_of_lt hw]
  have hnew : ({ groupOf f done (f pk) with
        Weight := (groupOf f done (f pk)).Weight + v.Weight
        NodeIDs := (groupOf f done (f pk)).NodeIDs ++ [v.NodeID] } : Validator)
      = groupOf f (done ++ [v]) (f pk) := (groupOf_append_same f done v (f pk) hkey).symm
  rw [hnew]
  refine ⟨vdrs_keys_mapSet_nodup m _ _ hinv.nodup, ?_, ?_, ?_, hb⟩
  · intro k u hmem
    rw [vdrs_mem_mapSet] at hmem
    rcases hmem with ⟨h1, h2⟩ | h
    · rw [groupOf_append_other f done v k (by rw [hkey]; intro e; exact h2 (Option.some.inj e).symm)]
      exact hinv.entries k u h1
    · rw [Prod.mk.injEq] at h
      rw [h.1, h.2]
  · intro k
    constructor
    · intro hmem
      rw [List.mem_map] at hmem
      obtain ⟨e, he, hek⟩ := hmem
      rw [vdrs_mem_mapSet] at he
      rcases he with ⟨h1, _⟩ | h
      · obtain ⟨u, hu1, hu2⟩ := (hinv.keys k).1 (List.mem_map.2 ⟨e, h1, hek⟩)
        exact ⟨u, List.mem_append_left _ hu1, hu2⟩
      · refine ⟨v, by simp, ?_⟩
        rw [hkey, ← hek, h]
    · rintro ⟨u, hu1, hu2⟩
      by_cases hkk : k = f pk
      · rw [List.mem_map]
        exact ⟨(f pk, groupOf f (done ++ [v]) (f pk)), (vdrs_mem_mapSet _ _ _ _).2 (Or.inr rfl), hkk.symm⟩
      · rcases List.mem_append.1 hu1 with h | h
        · have := (hinv.keys k).2 ⟨u, h, hu2⟩
          rw [List.mem_map] at this ⊢
          obtain ⟨e, he, hek⟩ := this
          exact ⟨e, (vdrs_mem_mapSet _ _ _ _).2 (Or.inl ⟨he, by rw [hek]; exact hkk⟩), hek⟩
        · rw [List.mem_singleton] at h
          rw [h, hkey] at hu2
          exact absurd (Option.some.inj hu2).symm hkk
  · rw [hinv.total]
    simp

theorem canonicalLoop_spec (f : PublicKey → List Nat) :
    ∀ (rest done : List GetValidatorOutput) (m : List (List Nat × Validator)) (total : Nat),
      LoopInv f done m total →
      (total + (rest.map (fun v => v.Weight)).sum < 2 ^ 64 →
        ∃ m', canonicalLoop f rest m total
            = some (m', total + (rest.map (fun v => v.Weight)).sum) ∧
          LoopInv f (done ++ rest) m' (total + (rest.map (fun v => v.Weight)).sum)) ∧
      (¬ total + (rest.map (fun v => v.Weight)).sum < 2 ^ 64 →
        canonicalLoop f rest m total = none) := by
  intro rest
  induction rest with
  | nil =>
    intro done m total hinv
    simp only [List.map_nil, List.sum_nil, Nat.add_zero, List.append_nil, canonicalLoop]
    exact ⟨fun _ => ⟨m, rfl, hinv⟩, fun h => absurd hinv.bound h⟩
  | cons v rest ih =>
    intro done m total hinv
    simp only [List.map_cons, List.sum_cons, canonicalLoop, Benchlist.Add64]
    by_cases hb : total + v.Weight < 2 ^ 64
    · rw [if_pos hb]
      simp only []
      rw [← Nat.add_assoc, show done ++ v :: rest = (done ++ [v]) ++ rest by simp]
      cases hk : v.PublicKey with
      | none =>
        simp only []
        exact ih _ _ _ (LoopInv_skip f done m total v hinv hk hb)
      | some pk =>
        simp only []
        exact ih _ _ _ (LoopInv_visit f done m total v pk hinv hk hb)
    · rw [if_neg hb]
      simp only []
      exact ⟨fun h => absurd (by omega) hb, fun _ => trivial⟩

end Warp

namespace Warp

theorem sum_indicator_le (o : Option (List Nat)) (w : Nat) : ∀ (ks : List (List Nat)),
    ks.Nodup → (ks.map (fun k => if o = some k then w else 0)).sum ≤ w
  | [], _ => by simp
  | k :: ks, hnd => by
    rw [List.nodup_cons] at hnd
    rw [List.map_cons, List.sum_cons]
    by_cases h : o = some k
    · have hz : (ks.map (fun k => if o = some k then w else 0)).sum = 0 := by
        apply List.sum_eq_zero
        intro x hx
        rw [List.mem_map] at hx
        obtain ⟨k', hk', e⟩ := hx
        rw [← e, if_neg]
        intro h'
        rw [h] at h'
        exact hnd.1 ((Option.some.inj h') ▸ hk')
      rw [hz, if_pos h]
      omega
    · rw [if_neg h, Nat.zero_add]
      exact sum_indicator_le o w ks hnd.2

theorem sum_groups_le (f : PublicKey → List Nat) (ks : List (List Nat)) (hnd : ks.Nodup) :
    ∀ (done : List GetValidatorOutput),
      (ks.map (fun k => (groupOf f done k).Weight)).sum ≤ (done.map (fun v => v.Weight)).sum
  | [] => by simp [groupOf]
  | v :: done => by
    have ih := sum_groups_le f ks hnd done
    have e : (fun k => (groupOf f (v :: done) k).Weight) =
        (fun k => (if v.PublicKey.map f = some k then v.Weight else 0)
          + (groupOf f done k).Weight) := by
      funext k
      unfold groupOf
      simp only [List.filter_cons]
      by_cases h : v.PublicKey.map f = some k
      · rw [if_pos (decide_eq_true h), if_pos h, List.map_cons, List.sum_cons]
      · rw [if_neg (by simpa using h), if_neg h, Nat.zero_add]
    rw [e, List.sum_map_add, List.map_cons, List.sum_cons]
    have := sum_indicator_le (v.PublicKey.map f) v.Weight ks hnd
    omega

theorem GetCanonicalValidatorSet_eq (f : PublicKey → List Nat)
    (values sort : List Validator → List Validator)
    (pChainState : Nat → Nat → Except Nat (List GetValidatorOutput))
    (pChainHeight subnetID : Nat) (vdrSet : List GetValidatorOutput)
    (hstate : pChainState pChainHeight subnetID = Except.ok vdrSet) :
    ((vdrSet.map (fun v => v.Weight)).sum < 2 ^ 64 →
      ∃ m, LoopInv f vdrSet m (vdrSet.map (fun v => v.Weight)).sum ∧
        GetCanonicalValidatorSet f values sort pChainState pChainHeight subnetID
          = Except.ok (sort (values (m.map Prod.snd)), (vdrSet.map (fun v => v.Weight)).sum)) ∧
    (¬ (vdrSet.map (fun v => v.Weight)).sum < 2 ^ 64 →
      GetCanonicalValidatorSet f values sort pChainState pChainHeight subnetID
        = Except.error (CanonicalError.wrap WarpError.ErrWeightOverflow)) := by
  have h := canonicalLoop_spec f vdrSet [] [] 0 (LoopInv_nil f)
  simp only [Nat.zero_add, List.nil_append] at h
  unfold GetCanonicalValidatorSet
  rw [hstate]
  simp only []
  constructor
  · intro hlt
    obtain ⟨m, hm, hinv⟩ := h.1 hlt
    rw [hm]
    exact ⟨m, hinv, rfl⟩
  · intro hge
    rw [h.2 hge]

theorem LoopInv_keys_eq (f : PublicKey → List Nat) (done : List GetValidatorOutput)
    (m : List (List Nat × Validator)) (total : Nat) (hinv : LoopInv f done m total) :
    m.map Prod.snd = (m.map Prod.fst).map (fun k => groupOf f done k) := by
  rw [List.map_map]
  apply List.map_congr_left
  intro e he
  exact hinv.entries e.1 e.2 he

end Warp

namespace Warp

theorem filter_key_length (k : List Nat) : ∀ (l : List Validator),
    (l.map (fun e => e.PublicKeyBytes)).Nodup → k ∈ l.map (fun e => e.PublicKeyBytes) →
    (l.filter (fun e => decide (e.PublicKeyBytes = k))).length = 1
  | [], _, h => by simp at h
  | a :: l, hnd, h => by
    rw [List.map_cons, List.nodup_cons] at hnd
    rw [List.filter_cons]
    by_cases hk : a.PublicKeyBytes = k
    · rw [if_pos (decide_eq_true hk)]
      have : l.filter (fun e => decide (e.PublicKeyBytes = k)) = [] := by
        rw [List.filter_eq_nil_iff]
        intro e he hek
        exact hnd.1 (List.mem_map.2 ⟨e, he, by rw [hk]; simpa using hek⟩)
      rw [this]
      rfl
    · rw [if_neg (by simpa using hk)]
      rw [List.map_cons, List.mem_cons] at h
      rcases h with h | h
      · exact absurd h.symm hk
      · exact filter_key_length k l hnd.2 h

/-- C12: when `GetCanonicalValidatorSet` succeeds, the returned list is strictly
increasing in `PublicKeyBytes` for the lexicographic order of byte strings; it has
exactly one entry for the public key of every validator of the set that has one (keys
are told apart by their bytes, as the map of the code does), every entry is the entry
of such a key, and the `NodeIDs` of an entry are the node IDs of the validators with
that key, so that a validator whose public key is nil is part of no entry. -/
theorem GetCanonicalValidatorSet_sorted_unique (PublicKeyToBytes : PublicKey → List Nat)
    (values sort : List Validator → List Validator)
    (hvalues : ∀ l, (values l).Perm l)
    (hsort : ∀ l, (sort l).Perm l ∧ (sort l).Pairwise (fun a b => b.Less a = false))
    (pChainState : Nat → Nat → Except Nat (List GetValidatorOutput))
    (pChainHeight subnetID : Nat) (vdrSet : List GetValidatorOutput)
    (vdrList : List Validator) (totalWeight : Nat)
    (hstate : pChainState pChainHeight subnetID = Except.ok vdrSet)
    (h : GetCanonicalValidatorSet PublicKeyToBytes values sort pChainState pChainHeight subnetID
      = Except.ok (vdrList, totalWeight)) :
    vdrList.Pairwise
      (fun a b => List.Lex (fun x y => x < y) a.PublicKeyBytes b.PublicKeyBytes) ∧
    (∀ v ∈ vdrSet, ∀ pk, v.PublicKey = some pk →
      (vdrList.filter (fun e => decide (e.PublicKeyBytes = PublicKeyToBytes pk))).length = 1) ∧
    (∀ e ∈ vdrList, ∃ v ∈ vdrSet, ∃ pk,
      v.PublicKey = some pk ∧ e.PublicKeyBytes = PublicKeyToBytes pk) ∧
    (∀ e ∈ vdrList, e.NodeIDs = (vdrSet.filter (fun v =>
      decide (v.PublicKey.map PublicKeyToBytes = some e.PublicKeyBytes))).map
        (fun v => v.NodeID)) := by
  have hspec := GetCanonicalValidatorSet_eq PublicKeyToBytes values sort pChainState
    pChainHeight subnetID vdrSet hstate
  by_cases hlt : (vdrSet.map (fun v => v.Weight)).sum < 2 ^ 64
  swap
  · rw [hspec.2 hlt] at h
    exact absurd h (by simp)
  obtain ⟨m, hinv, hm⟩ := hspec.1 hlt
  rw [hm, Except.ok.injEq, Prod.mk.injEq] at h
  have hperm : vdrList.Perm ((m.map Prod.fst).map (fun k => groupOf PublicKeyToBytes vdrSet k)) := by
    rw [← h.1, ← LoopInv_keys_eq PublicKeyToBytes vdrSet m _ hinv]
    exact (hsort _).1.trans (hvalues _)
  have hkeys : (vdrList.map (fun e => e.PublicKeyBytes)).Perm (m.map Prod.fst) := by
    have := hperm.map (fun e => e.PublicKeyBytes)
    rw [List.map_map] at this
    have e : ((fun e : Validator => e.PublicKeyBytes) ∘
        (fun k => groupOf PublicKeyToBytes vdrSet k)) = id := by
      funext k; rfl
    rw [e, List.map_id] at this
    exact this
  have hnd : (vdrList.map (fun e => e.PublicKeyBytes)).Nodup := hkeys.nodup_iff.2 hinv.nodup
  have hmemkey : ∀ e ∈ vdrList, e = groupOf PublicKeyToBytes vdrSet e.PublicKeyBytes := by
    intro e he
    have := hperm.mem_iff.1 he
    rw [List.mem_map] at this
    obtain ⟨k, _, hk⟩ := this
    rw [← hk]
    rfl
  refine ⟨?_, ?_, ?_, ?_⟩
  · have hsorted : vdrList.Pairwise (fun a b => b.Less a = false) := by
      rw [← h.1]; exact (hsort _).2
    have hne : vdrList.Pairwise (fun a b => a.PublicKeyBytes ≠ b.PublicKeyBytes) :=
      List.pairwise_map.1 hnd
    refine (hsorted.and hne).imp ?_
    intro a b hab
    exact (Compare_lt_iff_lex _ _).1 (Less_of_not_Less a b hab.1 hab.2)
  · intro v hv pk hpk
    have hin : PublicKeyToBytes pk ∈ vdrList.map (fun e => e.PublicKeyBytes) := by
      rw [hkeys.mem_iff, hinv.keys]
      exact ⟨v, hv, by rw [hpk]; rfl⟩
    exact filter_key_length _ vdrList hnd hin
  · intro e he
    have hin : e.PublicKeyBytes ∈ m.map Prod.fst :=
      hkeys.mem_iff.1 (List.mem_map.2 ⟨e, he, rfl⟩)
    obtain ⟨v, hv, hk⟩ := (hinv.keys _).1 hin
    cases hpk : v.PublicKey with
    | none => rw [hpk] at hk; simp at hk
    | some pk =>
      rw [hpk] at hk
      exact ⟨v, hv, pk, hpk, (Option.some.inj hk).symm⟩
  · intro e he
    have := congrArg Validator.NodeIDs (hmemkey e he)
    exact this

/-- Example of `GetCanonicalValidatorSet_sorted_unique`: four validators, two of
which share a key and one of which has none. -/
theorem GetCanonicalValidatorSet_sorted_unique_witness :
    GetCanonicalValidatorSet (fun pk => [pk]) id insertionSort exampleState 0 0
      = Except.ok ([⟨[3], 20, [2]⟩, ⟨[7], 40, [1, 4]⟩], 65) ∧
    List.Pairwise (fun a b => List.Lex (fun x y => x < y) a.PublicKeyBytes b.PublicKeyBytes)
      ([⟨[3], 20, [2]⟩, ⟨[7], 40, [1, 4]⟩] : List Validator) :=
  ⟨rfl, (GetCanonicalValidatorSet_sorted_unique (fun pk => [pk]) id insertionSort
    (fun l => List.Perm.refl l) insertionSort_sorts exampleState 0 0
    [⟨1, some 7, 10⟩, ⟨2, some 3, 20⟩, ⟨3, none, 5⟩, ⟨4, some 7, 30⟩]
    [⟨[3], 20, [2]⟩, ⟨[7], 40, [1, 4]⟩] 65 rfl rfl).1⟩

/-- C13: when `GetValidatorSet` succeeds, `GetCanonicalValidatorSet` fails with
`ErrWeightOverflow` if and only if the exact sum of the weights of all the validators
is greater than `2^64 - 1`, and otherwise it succeeds; when it succeeds, the total
weight returned is that exact sum (validators without a public key included), the
`Weight` of every entry is the exact sum of the weights of the validators with its
key (the additions `uniqueVdr.Weight += vdr.Weight` never wrap around), and the sum of
the weights of the entries is at most the total weight. -/
theorem GetCanonicalValidatorSet_weights (PublicKeyToBytes : PublicKey → List Nat)
    (values sort : List Validator → List Validator)
    (hvalues : ∀ l, (values l).Perm l)
    (hsort : ∀ l, (sort l).Perm l ∧ (sort l).Pairwise (fun a b => b.Less a = false))
    (pChainState : Nat → Nat → Except Nat (List GetValidatorOutput))
    (pChainHeight subnetID : Nat) (vdrSet : List GetValidatorOutput)
    (hstate : pChainState pChainHeight subnetID = Except.ok vdrSet) :
    (GetCanonicalValidatorSet PublicKeyToBytes values sort pChainState pChainHeight subnetID
        = Except.error (CanonicalError.wrap WarpError.ErrWeightOverflow) ↔
      2 ^ 64 - 1 < (vdrSet.map (fun v => v.Weight)).sum) ∧
    ((vdrSet.map (fun v => v.Weight)).sum ≤ 2 ^ 64 - 1 →
      ∃ vdrList,
        GetCanonicalValidatorSet PublicKeyToBytes values sort pChainState pChainHeight subnetID
          = Except.ok (vdrList, (vdrSet.map (fun v => v.Weight)).sum)) ∧
    (∀ vdrList totalWeight,
      GetCanonicalValidatorSet PublicKeyToBytes values sort pChainState pChainHeight subnetID
        = Except.ok (vdrList, totalWeight) →
      totalWeight = (vdrSet.map (fun v => v.Weight)).sum ∧
      totalWeight ≤ 2 ^ 64 - 1 ∧
      (∀ e ∈ vdrList, e.Weight = ((vdrSet.filter (fun v =>
        decide (v.PublicKey.map PublicKeyToBytes = some e.PublicKeyBytes))).map
          (fun v => v.Weight)).sum) ∧
      (vdrList.map (fun e => e.Weight)).sum ≤ totalWeight) := by
  have hspec := GetCanonicalValidatorSet_eq PublicKeyToBytes values sort pChainState
    pChainHeight subnetID vdrSet hstate
  refine ⟨⟨fun he => ?_, fun hgt => hspec.2 (by omega)⟩, fun hle => ?_, ?_⟩
  · by_contra hc
    obtain ⟨m, _, hm⟩ := hspec.1 (by omega)
    rw [hm] at he
    exact absurd he (by simp)
  · obtain ⟨m, _, hm⟩ := hspec.1 (by omega)
    exact ⟨_, hm⟩
  · intro vdrList totalWeight h
    by_cases hlt : (vdrSet.map (fun v => v.Weight)).sum < 2 ^ 64
    swap
    · rw [hspec.2 hlt] at h
      exact absurd h (by simp)
    obtain ⟨m, hinv, hm⟩ := hspec.1 hlt
    rw [hm, Except.ok.injEq, Prod.mk.injEq] at h
    have hperm : vdrList.Perm
        ((m.map Prod.fst).map (fun k => groupOf PublicKeyToBytes vdrSet k)) := by
      rw [← h.1, ← LoopInv_keys_eq PublicKeyToBytes vdrSet m _ hinv]
      exact (hsort _).1.trans (hvalues _)
    refine ⟨h.2.symm, by omega, ?_, ?_⟩
    · intro e he
      have := hperm.mem_iff.1 he
      rw [List.mem_map] at this
      obtain ⟨k, _, hk⟩ := this
      rw [← hk]
      rfl
    · rw [← h.2, (hperm.map (fun e => e.Weight)).sum_eq, List.map_map]
      exact sum_groups_le PublicKeyToBytes _ hinv.nodup vdrSet

/-- Example of `GetCanonicalValidatorSet_weights`: the weights 10 and 30 of the two
validators that share a key are added, and the validator without a key counts in the
total weight only. -/
theorem GetCanonicalValidatorSet_weights_witness :
    GetCanonicalValidatorSet (fun pk => [pk]) id insertionSort exampleState 0 0
      = Except.ok ([⟨[3], 20, [2]⟩, ⟨[7], 40, [1, 4]⟩], 65) ∧
    65 = ((([⟨1, some 7, 10⟩, ⟨2, some 3, 20⟩, ⟨3, none, 5⟩, ⟨4, some 7, 30⟩] :
      List GetValidatorOutput)).map (fun v => v.Weight)).sum :=
  ⟨rfl, ((GetCanonicalValidatorSet_weights (fun pk => [pk]) id insertionSort
    (fun l => List.Perm.refl l) insertionSort_sorts exampleState 0 0
    [⟨1, some 7, 10⟩, ⟨2, some 3, 20⟩, ⟨3, none, 5⟩, ⟨4, some 7, 30⟩] rfl).2.2
    [⟨[3], 20, [2]⟩, ⟨[7], 40, [1, 4]⟩] 65 rfl).1⟩

end Warp

/-! ### ids -/

namespace Ids

namespace ID

/-- C14: for every ID and every `i < 256`, `ID.Bit(i)` does not fail and returns `0`
or `1`: the bit `i mod 8`, counted from the least-significant bit, of the byte
`floor(i/8)` of the ID. -/
theorem Bit_eq_bit_of_byte (id : ID) (i : Nat) (hi : i < 256) :
    ∃ h : i / 8 < 32,
      Bit id i = some (((id ⟨i / 8, h⟩).val / 2 ^ (i % 8) % 2 : Nat) : Int) ∧
      (Bit id i = some 0 ∨ Bit id i = some 1) := by
  have h : i / 8 < 32 := by omega
  have hb : (id ⟨i / 8, h⟩).val < 256 := (id ⟨i / 8, h⟩).isLt
  have e : Bit id i = some (((id ⟨i / 8, h⟩).val / 2 ^ (i % 8) % 2 : Nat) : Int) := by
    unfold Bit BitsPerByte
    simp only []
    rw [dif_pos h, Nat.shiftRight_eq_div_pow, Nat.and_one_is_mod,
      Nat.mod_eq_of_lt (lt_of_le_of_lt (Nat.div_le_self _ _) hb)]
  refine ⟨h, e, ?_⟩
  rw [e]
  rcases Nat.mod_two_eq_zero_or_one ((id ⟨i / 8, h⟩).val / 2 ^ (i % 8)) with h0 | h1
  · left; rw [h0]; rfl
  · right; rw [h1]; rfl

/-- Example of `Bit_eq_bit_of_byte`: bit 9 of the ID whose byte 1 is `2`. -/
theorem Bit_eq_bit_of_byte_witness : Bit exampleID 9 = some 1 :=
  (Bit_eq_bit_of_byte exampleID 9 (by decide)).2.1.trans (by decide)

theorem getD_zero_eq_head (l : List Nat) (h : 2 ≤ l.length) :
    l.head? = some (l.getD 0 0) := by
  cases l with
  | nil => simp at h
  | cons a l => rfl

theorem getD_last_eq_getLast (l : List Nat) (h : 2 ≤ l.length) :
    l.getLast? = some (l.getD (l.length - 1) 0) := by
  rw [List.getLast?_eq_getElem?, List.getD_eq_getElem?_getD,
    List.getElem?_eq_getElem (by omega)]
  rfl

/-- C15: `ID.UnmarshalJSON` on the input `null` returns a nil error and leaves the
receiver as it is; on every other input that is shorter than 2 bytes, or whose first
byte or last byte is not a double quote, it returns `errMissingQuotes` (and leaves the
receiver as it is). -/
theorem UnmarshalJSON_null_or_missing_quotes (Decode : List Nat → Except Nat (List Nat))
    (ToHash256 : List Nat → ID × Option Nat) (id : ID) (b : List Nat) :
    (b = nullStr → UnmarshalJSON Decode ToHash256 id b = (id, none)) ∧
    (b ≠ nullStr → (b.length < 2 ∨ b.head? ≠ some 34 ∨ b.getLast? ≠ some 34) →
      UnmarshalJSON Decode ToHash256 id b = (id, some IDError.errMissingQuotes)) := by
  constructor
  · intro h
    unfold UnmarshalJSON
    simp only []
    rw [if_pos h]
  · intro hne hq
    unfold UnmarshalJSON
    simp only []
    rw [if_neg hne]
    by_cases hlen : b.length < 2
    · rw [if_pos hlen]
    · rw [if_neg hlen, if_pos]
      rcases hq with h | h | h
      · exact absurd h hlen
      · left
        rw [getD_zero_eq_head b (by omega)] at h
        exact fun e => h (by rw [e])
      · right
        rw [getD_last_eq_getLast b (by omega)] at h
        exact fun e => h (by rw [e])

/-- Example of `UnmarshalJSON_null_or_missing_quotes`: the inputs `null` and `"`. -/
theorem UnmarshalJSON_null_or_missing_quotes_witness :
    UnmarshalJSON failingDecode zeroHash exampleID [110, 117, 108, 108] = (exampleID, none) ∧
    UnmarshalJSON failingDecode zeroHash exampleID [34]
      = (exampleID, some IDError.errMissingQuotes) :=
  ⟨(UnmarshalJSON_null_or_missing_quotes failingDecode zeroHash exampleID
      [110, 117, 108, 108]).1 rfl,
   (UnmarshalJSON_null_or_missing_quotes failingDecode zeroHash exampleID [34]).2
      (by decide) (Or.inl (by decide))⟩

end ID

end Ids

/-! ### utils/window -/

namespace Window

theorem removeStaleNodes_length_le (ttl : Int) (clock : Nat → Int) :
    ∀ (elements : List node) (k : Nat),
      (removeStaleNodes ttl clock elements k).1.length ≤ elements.length
  | [], _ => by simp [removeStaleNodes]
  | oldest :: rest, k => by
    unfold removeStaleNodes
    split_ifs
    · exact le_refl _
    · exact le_trans (removeStaleNodes_length_le ttl clock rest (k + 1))
        (by simp)

/-- The loop of `removeStaleNodes` returns at an empty window or at an element that is
not stale at the last reading of the clock. -/
theorem removeStaleNodes_stops (ttl : Int) (clock : Nat → Int) :
    ∀ (elements : List node) (k : Nat),
      (removeStaleNodes ttl clock elements k).1 = [] ∨
      ∃ oldest rest, (removeStaleNodes ttl clock elements k).1 = oldest :: rest ∧
        0 < (removeStaleNodes ttl clock elements k).2 ∧
        Sub (clock ((removeStaleNodes ttl clock elements k).2 - 1)) oldest.entryTime ≤ ttl
  | [], _ => by simp [removeStaleNodes]
  | oldest :: rest, k => by
    unfold removeStaleNodes
    split_ifs with h
    · exact Or.inr ⟨oldest, rest, rfl, by simp, by simpa using h⟩
    · exact removeStaleNodes_stops ttl clock rest (k + 1)

theorem window_step_config (w : window) (op : Op) :
    (step w op).maxSize = w.maxSize ∧ (step w op).ttl = w.ttl := by
  cases op with
  | Add clock value => exact ⟨rfl, rfl⟩
  | Oldest clock =>
    simp only [step, window.Oldest]
    split <;> exact ⟨rfl, rfl⟩
  | Length clock => exact ⟨rfl, rfl⟩

theorem step_length (w : window) (op : Op) (h1 : 1 ≤ w.maxSize)
    (h : (w.elements.length : Int) ≤ w.maxSize) :
    ((step w op).elements.length : Int) ≤ (step w op).maxSize := by
  rw [(window_step_config w op).1]
  cases op with
  | Add clock value =>
    have hr := removeStaleNodes_length_le w.ttl clock w.elements 0
    simp only [step, window.Add, List.length_append, List.length_singleton]
    split_ifs with hfull
    · rw [List.length_tail]
      omega
    · omega
  | Oldest clock =>
    have hr := removeStaleNodes_length_le w.ttl clock w.elements 0
    simp only [step, window.Oldest]
    split <;> simp only [] <;> omega
  | Length clock =>
    have hr := removeStaleNodes_length_le w.ttl clock w.elements 0
    simp only [step, window.Length]
    omega

theorem run_length (config : Config) (h1 : 1 ≤ config.MaxSize) (ops : List Op) :
    (run config ops).maxSize = config.MaxSize ∧
    ((run config ops).elements.length : Int) ≤ config.MaxSize := by
  induction ops using List.reverseRecOn with
  | nil =>
    refine ⟨rfl, ?_⟩
    simp only [run, List.foldl_nil, New, List.length_nil]
    omega
  | append_singleton ops op ih =>
    have e : run config (ops ++ [op]) = step (run config ops) op := by
      simp [run, List.foldl_append]
    rw [e]
    have hs := step_length (run config ops) op (by rw [ih.1]; exact h1) (by rw [ih.1]; exact ih.2)
    rw [(window_step_config _ op).1, ih.1] at hs
    exact ⟨by rw [(window_step_config _ op).1, ih.1], hs⟩

/-- C16: for every configuration with `MaxSize >= 1` and every sequence of `Add`,
`Oldest` and `Length` calls on a new window, whatever the readings of the clock are
during the calls, the length that `Length()` reports is at most `MaxSize`, and so is
the number of elements that the window holds. -/
theorem Length_le_MaxSize (config : Config) (h1 : 1 ≤ config.MaxSize) (ops : List Op)
    (clock : Nat → Int) :
    ((run config ops).Length clock).2 ≤ config.MaxSize ∧
    ((run config ops).elements.length : Int) ≤ config.MaxSize := by
  have h := run_length config h1 ops
  refine ⟨?_, h.2⟩
  have hr := removeStaleNodes_length_le (run config ops).ttl clock (run config ops).elements 0
  simp only [window.Length]
  omega

/-- Example of `Length_le_MaxSize`: three `Add` calls on a window of at most two
elements. -/
theorem Length_le_MaxSize_witness :
    ((run ⟨2, 10⟩ [Op.Add (fun _ => 0) 7, Op.Add (fun _ => 1) 8, Op.Add (fun _ => 2) 9]).Length
      (fun _ => 3)).2 ≤ 2 :=
  (Length_le_MaxSize ⟨2, 10⟩ (by decide)
    [Op.Add (fun _ => 0) 7, Op.Add (fun _ => 1) 8, Op.Add (fun _ => 2) 9] (fun _ => 3)).1

/-- C16, as stated, fails when `MaxSize` is not positive: with `MaxSize = 0`, after one
`Add` the window reports the length `1`; with `MaxSize = -1`, a new window reports
the length `0`. -/
theorem Length_exceeds_MaxSize_counterexample :
    ((run ⟨0, 10⟩ [Op.Add (fun _ => 0) 7]).Length (fun _ => 0)).2 = 1 ∧
    ¬ ((run ⟨0, 10⟩ [Op.Add (fun _ => 0) 7]).Length (fun _ => 0)).2 ≤ (⟨0, 10⟩ : Config).MaxSize ∧
    ¬ ((run ⟨-1, 10⟩ []).Length (fun _ => 0)).2 ≤ (⟨-1, 10⟩ : Config).MaxSize := by
  decide

end Window

/-! ### vms/platformvm/txs -/

namespace Txs

/-- C17: for every non-nil `AddValidatorTx` that is not marked
`SyntacticallyVerified` and whose `DelegationShares` is greater than
`reward.PercentDenominator`, `SyntacticVerify` returns `errTooManyShares` and leaves
the transaction as it is, not marked; for a nil transaction it returns `ErrNilTx`. -/
theorem SyntacticVerify_too_many_shares (deps : Deps) (ctx : Context) (tx : AddValidatorTx)
    (hv : tx.SyntacticallyVerified = false)
    (hs : deps.PercentDenominator < tx.DelegationShares) :
    (SyntacticVerify deps ctx (some tx)).2 = some TxError.errTooManyShares ∧
    (SyntacticVerify deps ctx (some tx)).1 = some tx ∧
    (∀ tx', (SyntacticVerify deps ctx (some tx)).1 = some tx' →
      tx'.SyntacticallyVerified = false) ∧
    SyntacticVerify deps ctx none = (none, some TxError.ErrNilTx) := by
  have e : SyntacticVerify deps ctx (some tx) = (some tx, some TxError.errTooManyShares) := by
    simp only [SyntacticVerify]
    rw [if_neg (by rw [hv]; decide), if_pos hs]
  rw [e]
  refine ⟨rfl, rfl, ?_, rfl⟩
  intro tx' h
  rw [← Option.some.inj h]
  exact hv

/-- Example of `SyntacticVerify_too_many_shares`: one share more than
`PercentDenominator`. -/
theorem SyntacticVerify_too_many_shares_witness :
    (SyntacticVerify exampleDeps exampleCtx
      (some { exampleTx with DelegationShares := 1000001 })).2
      = some TxError.errTooManyShares :=
  (SyntacticVerify_too_many_shares exampleDeps exampleCtx
    { exampleTx with DelegationShares := 1000001 } rfl (by decide)).1

theorem stakeLoop_ok_iff (deps : Deps) (ctx : Context) :
    ∀ (outs : List TransferableOutput) (total t : Nat), total < 2 ^ 64 →
      (stakeLoop deps ctx outs total = Except.ok t ↔
        (∀ out ∈ outs, deps.outVerify out = none ∧ out.assetID = ctx.VidarAssetID) ∧
        total + (outs.map (fun out => out.amount)).sum < 2 ^ 64 ∧
        t = total + (outs.map (fun out => out.amount)).sum) := by
  intro outs
  induction outs with
  | nil =>
    intro total t ht
    simp only [stakeLoop, List.map_nil, List.sum_nil, Nat.add_zero, List.not_mem_nil,
      false_imp_iff, implies_true, true_and, Except.ok.injEq]
    constructor
    · intro h; exact ⟨ht, h.symm⟩
    · intro h; exact h.2.symm
  | cons out outs ih =>
    intro total t ht
    simp only [stakeLoop, List.map_cons, List.sum_cons, List.mem_cons, forall_eq_or_imp,
      Benchlist.Add64]
    cases hv : deps.outVerify out with
    | some err => simp
    | none =>
      simp only []
      by_cases hb : total + out.amount < 2 ^ 64
      · rw [if_pos hb]
        simp only []
        by_cases ha : out.assetID = ctx.VidarAssetID
        · rw [if_neg (not_not.2 ha), ih _ t hb, Nat.add_assoc]
          simp [ha]
        · rw [if_pos ha]
          simp [ha]
      · rw [if_neg hb]
        simp only []
        constructor
        · intro h; exact absurd h (by simp)
        · intro h; exact absurd (by omega) hb

theorem SyntacticVerify_nil_iff (deps : Deps) (ctx : Context) (tx : AddValidatorTx)
    (hv : tx.SyntacticallyVerified = false) :
    (SyntacticVerify deps ctx (some tx)).2 = none ↔
      tx.DelegationShares ≤ deps.PercentDenominator ∧
      deps.BaseTxSyntacticVerify ctx tx.BaseTx = none ∧
      deps.verifyAll tx.Validator tx.RewardsOwner = none ∧
      (∀ out ∈ tx.StakeOuts, deps.outVerify out = none ∧ out.assetID = ctx.VidarAssetID) ∧
      (tx.StakeOuts.map (fun out => out.amount)).sum < 2 ^ 64 ∧
      deps.IsSortedTransferableOutputs tx.StakeOuts = true ∧
      (tx.StakeOuts.map (fun out => out.amount)).sum = tx.Validator.Wght := by
  have hloop := fun t => stakeLoop_ok_iff deps ctx tx.StakeOuts 0 t (by norm_num)
  simp only [Nat.zero_add] at hloop
  simp only [SyntacticVerify]
  rw [if_neg (by rw [hv]; decide)]
  by_cases hs : deps.PercentDenominator < tx.DelegationShares
  · rw [if_pos hs]
    simp only []
    constructor
    · intro h; exact absurd h (by simp)
    · intro h; omega
  rw [if_neg hs]
  cases hb : deps.BaseTxSyntacticVerify ctx tx.BaseTx with
  | some err => simp
  | none =>
    cases ho : deps.verifyAll tx.Validator tx.RewardsOwner with
    | some err => simp
    | none =>
      simp only [true_and]
      cases hl : stakeLoop deps ctx tx.StakeOuts 0 with
      | error err =>
        simp only []
        constructor
        · intro h; exact absurd h (by simp)
        · intro h
          have := (hloop _).2 ⟨h.2.1, h.2.2.1, rfl⟩
          rw [hl] at this
          exact absurd this (by simp)
      | ok t =>
        simp only []
        obtain ⟨h1, h2, h3⟩ := (hloop t).1 hl
        by_cases hsort : deps.IsSortedTransferableOutputs tx.StakeOuts = false
        · rw [if_pos hsort]
          simp [hsort]
        · rw [if_neg hsort]
          by_cases hw : t ≠ tx.Validator.Wght
          · rw [if_pos hw]
            simp only []
            constructor
            · intro h; exact absurd h (by simp)
            · intro h; exact absurd (h3.trans h.2.2.2.2) hw
          · rw [if_neg hw]
            simp only [true_iff]
            exact ⟨by omega, h1, h2, by simpa using hsort, h3.symm.trans (not_not.1 hw)⟩

end Txs

namespace Txs

/-- C18: for an `AddValidatorTx` that is not marked `SyntacticallyVerified`, if
`SyntacticVerify` returns nil then the asset ID of every stake output is
`ctx.VidarAssetID`, the sum of the amounts of the stake outputs does not overflow a
`uint64` and is the weight `Wght` of the validator, and `DelegationShares` is at most
`reward.PercentDenominator`; conversely, if a stake output is in another asset, or if
the sum of the stake amounts is not `Wght`, then `SyntacticVerify` returns an error. -/
theorem SyntacticVerify_nil_stake (deps : Deps) (ctx : Context) (tx : AddValidatorTx)
    (hv : tx.SyntacticallyVerified = false) :
    ((SyntacticVerify deps ctx (some tx)).2 = none →
      (∀ out ∈ tx.StakeOuts, out.assetID = ctx.VidarAssetID) ∧
      (tx.StakeOuts.map (fun out => out.amount)).sum ≤ 2 ^ 64 - 1 ∧
      (tx.StakeOuts.map (fun out => out.amount)).sum = tx.Validator.Wght ∧
      tx.DelegationShares ≤ deps.PercentDenominator) ∧
    (((∃ out ∈ tx.StakeOuts, out.assetID ≠ ctx.VidarAssetID) ∨
        (tx.StakeOuts.map (fun out => out.amount)).sum ≠ tx.Validator.Wght) →
      ∃ err, (SyntacticVerify deps ctx (some tx)).2 = some err) := by
  have hiff := SyntacticVerify_nil_iff deps ctx tx hv
  constructor
  · intro h
    obtain ⟨h1, _, _, h4, h5, _, h7⟩ := hiff.1 h
    exact ⟨fun out hout => (h4 out hout).2, by omega, h7, h1⟩
  · intro h
    cases he : (SyntacticVerify deps ctx (some tx)).2 with
    | some err => exact ⟨err, rfl⟩
    | none =>
      obtain ⟨_, _, _, h4, _, _, h7⟩ := hiff.1 he
      rcases h with ⟨out, hout, hne⟩ | hne
      · exact absurd (h4 out hout).2 hne
      · exact absurd h7 hne

/-- Example of `SyntacticVerify_nil_stake`: a transaction that `SyntacticVerify`
accepts, and the same one with its stake output in another asset. -/
theorem SyntacticVerify_nil_stake_witness :
    (SyntacticVerify exampleDeps exampleCtx (some exampleTx)).2 = none ∧
    exampleTx.DelegationShares ≤ exampleDeps.PercentDenominator ∧
    (SyntacticVerify exampleDeps exampleCtx
      (some { exampleTx with StakeOuts := [⟨2, 2022, 0⟩] })).2 = some (TxError.notVidar 2) ∧
    (∃ err, (SyntacticVerify exampleDeps exampleCtx
      (some { exampleTx with StakeOuts := [⟨2, 2022, 0⟩] })).2 = some err) :=
  ⟨rfl,
   ((SyntacticVerify_nil_stake exampleDeps exampleCtx exampleTx rfl).1 rfl).2.2.2,
   rfl,
   (SyntacticVerify_nil_stake exampleDeps exampleCtx
      { exampleTx with StakeOuts := [⟨2, 2022, 0⟩] } rfl).2
      (Or.inl ⟨⟨2, 2022, 0⟩, List.mem_singleton.2 rfl, by decide⟩)⟩

end Txs
